import Mathlib

/-! # fpart — live partitioner and traversal engine of `src/file_entry.c`

A shallow embedding of `live_print_file_entry`, `add_file_entry`,
`handle_file_entry`, `init_file_entries`, `uninit_file_entries`,
`print_file_entries`, `fpart_hook` and `fts_dirsfirst`.

Conventions of the embedding

* The process-wide `live_status` block is passed explicitly.
* What the operating system decides (allocation, `open(2)`, `write(2)`, the
  exit status of a hook, what `fts_read(3)` yields) is an explicit input of the
  function that consumes it.
* `types.h`, `options.h` and `utils.c` are not part of the sources at hand.
  Sizes (`fsize_t`) are integers, partition numbers (`pnum_t`) and file counts
  (`fnum_t`) are natural numbers, all taken exactly: the development describes
  the runs in which no counter leaves the range of its C type.  `round_num` is
  a parameter `rn` of every function that calls it; instantiated with
  `round_num64` it gives the sizes as stored in 64-bit signed variables.
* Diagnostics written to `stderr` are not modelled.
-/

namespace Fpart

/-! ## Configuration (`struct program_options`, read-only) -/

/-- The fields of `struct program_options` read by `file_entry.c`. -/
structure program_options where
  /-- True for `live_mode == OPT_LIVEMODE`. -/
  live_mode : Bool
  /-- The template `out_filename`, `none` for `NULL`. -/
  out_filename : Option String
  /-- True for `out_zero == OPT_OUT0`. -/
  out_zero : Bool
  preload_size : Int
  overload_size : Int
  round_size : Int
  max_entries : Nat
  max_size : Int
  /-- The command `pre_part_hook`, `none` for `NULL`. -/
  pre_part_hook : Option String
  /-- The command `post_part_hook`, `none` for `NULL`. -/
  post_part_hook : Option String
  /-- True for `dirs_only == OPT_DIRSONLY`. -/
  dirs_only : Bool
  /-- True for `leaf_dirs == OPT_LEAFDIRS`. -/
  leaf_dirs : Bool
  dirs_include : Nat
  /-- True for `add_slash == OPT_ADDSLASH`. -/
  add_slash : Bool
  /-- True for `cross_fs_boundaries == OPT_NOCROSSFSBOUNDARIES`. -/
  no_cross_fs_boundaries : Bool
  /-- True for `follow_symbolic_links == OPT_FOLLOWSYMLINKS`. -/
  follow_symbolic_links : Bool
  dir_depth : Int
  deriving DecidableEq, Repr

/-- Modelled from the spec: `options.h` is absent; the directory-inclusion
levels are ordered none < empty < unreadable-as-empty < all. This is the level
"empty". -/
def OPT_EMPTYDIRS : Nat := 1

/-- Modelled from the spec: `options.h` is absent; level "unreadable-as-empty"
of the directory-inclusion setting. -/
def OPT_DNREMPTY : Nat := 2

/-- Modelled from the spec: `options.h` is absent; level "all" of the
directory-inclusion setting. -/
def OPT_ALLDIRS : Nat := 3

/-- Modelled from the spec: `options.h` is absent; the value of `dir_depth`
that stands for "no depth limit configured". -/
def OPT_NODIRDEPTH : Int := -1

/-- Modelled from the spec: `round_num` of `utils.c` is absent; a size is
rounded up to the next multiple of the block size (left alone when the block
size is not positive). Used to instantiate the parameter `rn`. -/
def round_num (num mult : Int) : Int :=
  if mult ≤ 0 then num
  else if num % mult = 0 then num
  else num + (mult - num % mult)

/-! ## Live status and observable output -/

/-- The `live_status` block (lines 87-106). -/
structure live_status where
  fd : Int
  filename : Option String
  partition_index : Nat
  partition_size : Int
  partition_num_files : Nat
  exit_summary : Int
  child_pid : Int
  deriving DecidableEq, Repr

/-- The initializer of `live_status`: `STDOUT_FILENO`, `NULL`, 0, 0, 0, 0, -1. -/
def live_status_init : live_status :=
  { fd := 1, filename := none, partition_index := 0, partition_size := 0,
    partition_num_files := 0, exit_summary := 0, child_pid := -1 }

/-- What the live partitioner does to the outside world, in order. -/
inductive out_event where
  /-- A call `fpart_hook(cmd, options, filename, &index, &size, &num_files)`. -/
  | hook (cmd : String) (filename : Option String) (index : Nat) (size : Int)
      (num_files : Nat)
  /-- A call `open(filename, O_WRONLY|O_CREAT|O_TRUNC, 0660)`. -/
  | open_file (filename : String)
  /-- A call `fprintf(stdout, "%d (%lld): %s\n", index, size, path)`. -/
  | print_line (index : Nat) (size : Int) (path : String)
  /-- A complete `write(fd, bytes, strlen(bytes))`. -/
  | write (fd : Int) (bytes : String)
  /-- A short or failed `write(2)` on `fd`. -/
  | short_write (fd : Int)
  /-- A call `fflush(stdout)`. -/
  | flush_stdout
  /-- A call `close(fd)`. -/
  | close (fd : Int)
  deriving DecidableEq, Repr

/-- What the system answers during one call of `live_print_file_entry`. -/
structure live_env where
  /-- True when the allocation of `live_status.filename` succeeds. -/
  malloc_ok : Bool
  /-- Value returned by `fpart_hook` for the pre-partition hook. -/
  pre_hook_ret : Int
  /-- Value returned by `open(2)`. -/
  open_ret : Int
  /-- True for `write(fd, path, to_write) == to_write`. -/
  write_path_ok : Bool
  /-- True for `write(fd, ln_term, 1) == 1`. -/
  write_term_ok : Bool
  /-- Value returned by `fpart_hook` for the post-partition hook. -/
  post_hook_ret : Int
  deriving DecidableEq, Repr

/-- Outcome of `live_print_file_entry` (or of one of its blocks): the value
returned, the live status left behind and what was done to the outside. -/
structure live_result where
  ret : Int
  status : live_status
  out : List out_event
  deriving DecidableEq, Repr

/-- The line terminator `ln_term` (line 396), one byte. -/
def ln_term (o : program_options) : String :=
  if o.out_zero then String.singleton (Char.ofNat 0) else "\n"

/-- Lines 398-434, "beginning of a new partition". The result has `ret = 0`
when control reaches line 436 and `ret = 1` on `return (1)`. -/
def live_new_partition (o : program_options) (e : live_env) (st : live_status) :
    live_result :=
  if st.partition_num_files = 0 then
    -- very first pass of first partition, preload first partition
    let st1 : live_status :=
      if st.partition_index = 0 then { st with partition_size := o.preload_size } else st
    match o.out_filename with
    | none =>
      -- no file name is computed, no file is opened
      match o.pre_part_hook with
      | none => { ret := 0, status := st1, out := [] }
      | some cmd =>
        let ev := out_event.hook cmd st1.filename st1.partition_index st1.partition_size
          st1.partition_num_files
        let st2 : live_status :=
          if e.pre_hook_ret ≠ 0 then { st1 with exit_summary := 1 } else st1
        { ret := 0, status := st2, out := [ev] }
    | some out_template =>
      if ¬ e.malloc_ok then
        { ret := 1, status := { st1 with filename := none }, out := [] }
      else
        let st2 : live_status :=
          { st1 with filename := some (out_template ++ "." ++ toString st1.partition_index) }
        -- execute pre-partition hook
        let hooked : live_status × List out_event :=
          match o.pre_part_hook with
          | none => (st2, [])
          | some cmd =>
            (if e.pre_hook_ret ≠ 0 then { st2 with exit_summary := 1 } else st2,
             [out_event.hook cmd st2.filename st2.partition_index st2.partition_size
                st2.partition_num_files])
        let st3 := hooked.1
        -- open file
        let opened := out_event.open_file (out_template ++ "." ++ toString st1.partition_index)
        if e.open_ret < 0 then
          { ret := 1, status := { st3 with fd := e.open_ret, filename := none },
            out := hooked.2 ++ [opened] }
        else
          { ret := 0, status := { st3 with fd := e.open_ret }, out := hooked.2 ++ [opened] }
  else
    { ret := 0, status := st, out := [] }

/-- Lines 436-439, "count file in". -/
def live_count_in (rn : Int → Int → Int) (o : program_options) (size : Int)
    (st : live_status) : live_status :=
  { st with
    partition_size := st.partition_size + rn (size + o.overload_size) o.round_size,
    partition_num_files := st.partition_num_files + 1 }

/-- Lines 441-456: print the entry to stdout or to the partition file. The
boolean is `false` on `return (1)`. -/
def live_output (o : program_options) (e : live_env) (path : String) (size : Int)
    (st : live_status) : Bool × List out_event :=
  match o.out_filename with
  | none => (true, [out_event.print_line st.partition_index size path])
  | some _ =>
    if ¬ e.write_path_ok then (false, [out_event.short_write st.fd])
    else if ¬ e.write_term_ok then
      (false, [out_event.write st.fd path, out_event.short_write st.fd])
    else (true, [out_event.write st.fd path, out_event.write st.fd (ln_term o)])

/-- The test of line 463-466, "if end of partition reached". -/
def end_of_partition (o : program_options) (st : live_status) : Bool :=
  (decide (o.max_entries > 0) && decide (st.partition_num_files ≥ o.max_entries)) ||
  (decide (o.max_size > 0) && decide (st.partition_size ≥ o.max_size))

/-- Lines 462-497: close the partition when its end is reached. -/
def live_end_partition (o : program_options) (e : live_env) (st : live_status) :
    live_status × List out_event :=
  if end_of_partition o st then
    -- close fd or flush buffer
    let closing : out_event :=
      match o.out_filename with
      | none => out_event.flush_stdout
      | some _ => out_event.close st.fd
    -- execute post-partition hook
    let hooked : live_status × List out_event :=
      match o.post_part_hook with
      | none => (st, [])
      | some cmd =>
        (if e.post_hook_ret ≠ 0 then { st with exit_summary := 1 } else st,
         [out_event.hook cmd st.filename st.partition_index st.partition_size
            st.partition_num_files])
    let st1 := hooked.1
    let st2 : live_status :=
      match o.out_filename with
      | none => st1
      | some _ => { st1 with filename := none }
    -- reset current partition status
    ({ st2 with
       partition_index := st2.partition_index + 1,
       partition_size := o.preload_size,
       partition_num_files := 0 },
     closing :: hooked.2)
  else (st, [])

/-- The function `live_print_file_entry` (lines 387-500). -/
def live_print_file_entry (rn : Int → Int → Int) (o : program_options) (e : live_env)
    (path : String) (size : Int) (st : live_status) : live_result :=
  let opened := live_new_partition o e st
  if opened.ret ≠ 0 then opened
  else
    let counted := live_count_in rn o size opened.status
    let printed := live_output o e path size counted
    if ¬ printed.1 then
      { ret := 1, status := counted, out := opened.out ++ printed.2 }
    else
      let closed := live_end_partition o e counted
      { ret := 0, status := closed.1, out := opened.out ++ printed.2 ++ closed.2 }

/-! ## The list of file entries (batch mode) -/

/-- A `struct file_entry`. The links `nextp` and `prevp` are addresses in the
entry memory, `none` for `NULL`. -/
structure file_entry where
  path : String
  size : Int
  partition_index : Nat
  nextp : Option Nat
  prevp : Option Nat
  deriving DecidableEq, Repr

/-- What the allocator answers during one call of `add_file_entry`. -/
structure add_env where
  /-- True when the allocation of the `struct file_entry` succeeds. -/
  malloc_entry_ok : Bool
  /-- True when the allocation of the path buffer succeeds. -/
  malloc_path_ok : Bool
  deriving DecidableEq, Repr

/-- Outcome of `add_file_entry`: the value returned, `*head` and the memory. -/
structure add_result where
  ret : Int
  head : Option Nat
  heap : List file_entry
  deriving DecidableEq, Repr

/-- The assignment `previous->nextp = n` in the entry memory. -/
def set_nextp (heap : List file_entry) (previous : Nat) (n : Option Nat) :
    List file_entry :=
  match heap[previous]? with
  | none => heap
  | some x => heap.set previous { x with nextp := n }

/-- The function `add_file_entry` (lines 506-559). The entry memory `heap`
holds the entries allocated so far, the address of an entry being its position;
a fresh entry gets the address `heap.length`. `if_not_malloc(ptr, size, action)`
(`utils.h`, absent) assigns the result of `malloc` to `ptr` and runs `action`
when it is `NULL`. -/
def add_file_entry (rn : Int → Int → Int) (o : program_options) (e : add_env)
    (head : Option Nat) (heap : List file_entry) (path : String) (size : Int) :
    add_result :=
  -- backup current structure pointer and initialize a new structure
  let previous := head
  if ¬ e.malloc_entry_ok then { ret := 1, head := none, heap := heap }
  else
    let current := heap.length
    if ¬ e.malloc_path_ok then
      -- free(*current); *current = previous
      { ret := 1, head := previous, heap := heap }
    else
      let entry : file_entry :=
        { path := path,
          size := rn (size + o.overload_size) o.round_size,
          partition_index := 0,
          nextp := none,
          prevp := previous }
      let heap1 := heap ++ [entry]
      -- set previous' nextp pointer
      let heap2 :=
        match previous with
        | none => heap1
        | some a => set_nextp heap1 a (some current)
      { ret := 0, head := some current, heap := heap2 }

/-! ## The redirector -/

/-- The program state outside the locals of `init_file_entries`: the list of
entries (`*head` and the entry memory), the live status, what the live
partitioner has done to the outside so far, and — for the statements below —
the arguments `(path, size)` of the calls of `handle_file_entry` made so far. -/
structure prog_state where
  head : Option Nat
  heap : List file_entry
  live : live_status
  out : List out_event
  handled : List (String × Int)
  deriving DecidableEq, Repr

/-- The program state at start-up. -/
def prog_state_init : prog_state :=
  { head := none, heap := [], live := live_status_init, out := [], handled := [] }

/-- What the system answers during one call of `handle_file_entry`. -/
structure handle_env where
  live : live_env
  add : add_env
  deriving DecidableEq, Repr

/-- The function `handle_file_entry` (lines 373-384). -/
def handle_file_entry (rn : Int → Int → Int) (o : program_options) (e : handle_env)
    (g : prog_state) (path : String) (size : Int) : Int × prog_state :=
  if o.live_mode then
    let r := live_print_file_entry rn o e.live path size g.live
    (r.ret, { g with live := r.status, out := g.out ++ r.out,
                     handled := g.handled ++ [(path, size)] })
  else
    let r := add_file_entry rn o e.add g.head g.heap path size
    (r.ret, { g with head := r.head, heap := r.heap,
                     handled := g.handled ++ [(path, size)] })

/-! ## The traversal engine -/

/-- The values of `fts_info` (fts(3)). -/
inductive fts_info_t where
  | FTS_D | FTS_DC | FTS_DEFAULT | FTS_DNR | FTS_DOT | FTS_DP | FTS_ERR
  | FTS_F | FTS_NS | FTS_NSOK | FTS_SL | FTS_SLNONE
  deriving DecidableEq, Repr

/-- What `init_file_entries` reads of an entry `p` yielded by `fts_read`,
together with what the helpers of `utils.c` (absent) answer about it. -/
structure FTSENT where
  fts_info : fts_info_t
  fts_path : String
  fts_level : Int
  /-- True for `p->fts_parent->fts_statp->st_dev != p->fts_statp->st_dev`. -/
  dev_differs : Bool
  /-- The value of `valid_file(p, options, 0)`. -/
  valid_file0 : Bool
  /-- The value of `valid_file(p, options, 1)`. -/
  valid_file1 : Bool
  /-- The value of `get_size(p->fts_accpath, p->fts_statp, options)`. -/
  get_size : Int
  deriving DecidableEq, Repr

/-- What the system answers while one entry of `fts_read` is processed. -/
structure walk_env where
  /-- True when the allocation of `curdir_entry_path` succeeds. -/
  malloc_path_ok : Bool
  /-- The answers to the call of `handle_file_entry`, if any. -/
  handle : handle_env
  deriving DecidableEq, Repr

/-- The locals of `init_file_entries` that live across iterations ("current
dir state", lines 636-643), `*count`, and the rest of the program state. -/
structure walk_state where
  file_as_argument : Bool
  curdir_empty : Bool
  curdir_dirsfound : Bool
  curdir_addme : Bool
  curdir_size : Int
  count : Nat
  prog : prog_state
  deriving DecidableEq, Repr

/-- Outcome of one iteration of the `while` loop of `init_file_entries`:
`ret = none` after `continue`, `ret = some r` after `return (r)`; `skip` tells
whether `fts_set(ftsp, p, FTS_SKIP)` was called. -/
structure step_result where
  state : walk_state
  ret : Option Int
  skip : Bool
  deriving DecidableEq, Repr

/-- Lines 724-732: the path under which a directory is added. -/
def curdir_entry_path (o : program_options) (p : FTSENT) : String :=
  if o.add_slash ∧ p.fts_path.length > 0 ∧ p.fts_path.toList.getLast? ≠ some '/' then
    p.fts_path ++ "/"
  else p.fts_path

/-- Lines 734-755, "adapt curdir_size for special cases": the value of
`curdir_size` passed to `handle_file_entry`. -/
def adapt_curdir_size (o : program_options) (p : FTSENT) (s : walk_state) : Int :=
  if p.fts_level > 0 ∧ o.no_cross_fs_boundaries ∧ p.dev_differs then 0
  else if s.curdir_empty then 0
  else if ¬ o.dirs_only ∧ (¬ o.leaf_dirs ∨ s.curdir_dirsfound) then p.get_size
  else s.curdir_size

/-- Lines 773-779, label `reset_directory`. -/
def reset_directory (s : walk_state) : step_result :=
  { state := { s with curdir_empty := false, curdir_dirsfound := true,
                      curdir_addme := false, curdir_size := 0 },
    ret := none, skip := false }

/-- Lines 686-701: decide whether the current directory must be added
(`curdir_addme`), faking an empty directory when it is added only because all
directories are requested. -/
def dir_addme_rules (o : program_options) (s : walk_state) : walk_state :=
  let s1 : walk_state :=
    if o.dirs_only ∨ (o.leaf_dirs ∧ ¬ s.curdir_dirsfound) ∨
        (o.dirs_include ≥ OPT_EMPTYDIRS ∧ s.curdir_empty) then
      { s with curdir_addme := true }
    else s
  if ¬ s1.curdir_addme ∧ o.dirs_include ≥ OPT_ALLDIRS then
    { s1 with curdir_addme := true, curdir_empty := true }
  else s1

/-- Lines 685-780, from the label `add_directory` on (the body of `case
FTS_DP`, also reached from `case FTS_DNR`). -/
def add_directory (rn : Int → Int → Int) (o : program_options) (e : walk_env)
    (p : FTSENT) (s : walk_state) : step_result :=
  let s2 := dir_addme_rules o s
  -- add directory if necessary
  if s2.curdir_addme then
    if ¬ p.valid_file1 then reset_directory s2
    else if ¬ e.malloc_path_ok then { state := s2, ret := some 1, skip := false }
    else
      let s3 : walk_state := { s2 with curdir_size := adapt_curdir_size o p s2 }
      -- add or display it
      let h := handle_file_entry rn o e.handle s3.prog (curdir_entry_path o p) s3.curdir_size
      if h.1 = 0 then reset_directory { s3 with prog := h.2, count := s3.count + 1 }
      else { state := { s3 with prog := h.2 }, ret := some 1, skip := false }
  else reset_directory s2

/-- The test of lines 799-800, "dir_depth requested and reached". -/
def dir_depth_reached (o : program_options) (p : FTSENT) : Bool :=
  decide (o.dir_depth ≠ OPT_NODIRDEPTH) && decide (p.fts_level ≥ o.dir_depth)

/-- Lines 782-809, `case FTS_D`. -/
def enter_directory (o : program_options) (p : FTSENT) (s : walk_state) : step_result :=
  let s1 : walk_state :=
    { s with file_as_argument := false, curdir_empty := true, curdir_dirsfound := false }
  if ¬ p.valid_file0 then { state := s1, ret := none, skip := true }
  else if dir_depth_reached o p then
    { state := { s1 with curdir_addme := true, curdir_empty := false },
      ret := none, skip := true }
  else { state := s1, ret := none, skip := false }

/-- Lines 811-854, `default:` (FTS_F, FTS_SL, FTS_SLNONE, FTS_DEFAULT). -/
def file_entry_case (rn : Int → Int → Int) (o : program_options) (e : walk_env)
    (p : FTSENT) (s : walk_state) : step_result :=
  if ¬ p.valid_file1 then { state := s, ret := none, skip := false }
  else
    let curfile_size := p.get_size
    let s1 : walk_state :=
      { s with curdir_empty := false, curdir_size := s.curdir_size + curfile_size }
    if ¬ s1.file_as_argument ∧ (o.dirs_only ∨ (o.leaf_dirs ∧ ¬ s1.curdir_dirsfound)) then
      { state := s1, ret := none, skip := false }
    else
      -- add or display it
      let h := handle_file_entry rn o e.handle s1.prog p.fts_path curfile_size
      if h.1 = 0 then
        { state := { s1 with prog := h.2, count := s1.count + 1 }, ret := none, skip := false }
      else { state := { s1 with prog := h.2 }, ret := some 1, skip := false }

/-- The body of the `while` loop of `init_file_entries` (lines 646-855): the
`switch` on `p->fts_info`. -/
def fts_step (rn : Int → Int → Int) (o : program_options) (e : walk_env) (p : FTSENT)
    (s : walk_state) : step_result :=
  match p.fts_info with
  | fts_info_t.FTS_ERR => { state := s, ret := none, skip := false }
  | fts_info_t.FTS_DNR =>
    if o.dirs_include ≥ OPT_DNREMPTY then
      add_directory rn o e p { s with curdir_empty := true }
    else
      { state := { s with curdir_empty := false, curdir_dirsfound := true },
        ret := none, skip := false }
  | fts_info_t.FTS_NS => { state := { s with curdir_empty := false }, ret := none, skip := false }
  | fts_info_t.FTS_NSOK => { state := { s with curdir_empty := false }, ret := none, skip := false }
  | fts_info_t.FTS_DC => { state := s, ret := none, skip := false }
  | fts_info_t.FTS_DOT => { state := s, ret := none, skip := false }
  | fts_info_t.FTS_DP => add_directory rn o e p s
  | fts_info_t.FTS_D => enter_directory o p s
  | fts_info_t.FTS_F => file_entry_case rn o e p s
  | fts_info_t.FTS_SL => file_entry_case rn o e p s
  | fts_info_t.FTS_SLNONE => file_entry_case rn o e p s
  | fts_info_t.FTS_DEFAULT => file_entry_case rn o e p s

/-- The `while((p = fts_read(ftsp)) != NULL)` loop over the entries that
`fts_read` yields, in order; it stops at the first `return`. -/
def fts_loop (rn : Int → Int → Int) (o : program_options) :
    walk_state → List (FTSENT × walk_env) → step_result
  | s, [] => { state := s, ret := none, skip := false }
  | s, pe :: rest =>
    let r := fts_step rn o pe.2 pe.1 s
    match r.ret with
    | some _ => r
    | none => fts_loop rn o r.state rest

/-- What fts(3) answers during one call of `init_file_entries`. -/
structure fts_run where
  /-- True when `fts_open` returns a non-`NULL` handle. -/
  open_ok : Bool
  /-- The entries yielded by `fts_read`, each with the answers of the system
  while it is processed. -/
  entries : List (FTSENT × walk_env)
  /-- The value of `errno` once `fts_read` has returned `NULL`. -/
  read_errno : Int
  deriving DecidableEq, Repr

/-- The locals of `init_file_entries` before the loop (lines 636-643). -/
def walk_state_init (count : Nat) (g : prog_state) : walk_state :=
  { file_as_argument := true, curdir_empty := true, curdir_dirsfound := false,
    curdir_addme := false, curdir_size := 0, count := count, prog := g }

/-- The function `init_file_entries` (lines 594-868): the value returned, the
new `*count` and the new program state. -/
def init_file_entries (rn : Int → Int → Int) (o : program_options) (f : fts_run)
    (count : Nat) (g : prog_state) : Int × Nat × prog_state :=
  if ¬ f.open_ok then (0, count, g)
  else
    let r := fts_loop rn o (walk_state_init count g) f.entries
    match r.ret with
    | some v => (v, r.state.count, r.state.prog)
    | none =>
      if f.read_errno ≠ 0 then (1, r.state.count, r.state.prog)
      else (0, r.state.count, r.state.prog)

/-! ## Feeding the live partitioner a sequence of entries -/

/-- One call of `live_print_file_entry`: the entry and the system's answers. -/
structure live_call where
  env : live_env
  path : String
  size : Int
  deriving DecidableEq, Repr

/-- What a sequence of calls of `live_print_file_entry` leaves behind: the
final live status, for each call the value of `live_status.partition_index`
under which its entry is printed (line 443) or written (the file opened for
that index, lines 411-426), the values returned and the output. -/
structure feed_result where
  status : live_status
  indices : List Nat
  rets : List Int
  out : List out_event
  deriving DecidableEq, Repr

/-- Successive calls of `live_print_file_entry`, each on the live status left
by the previous one. Every call is made whatever the previous one returned;
the callers in `init_file_entries` stop at the first non-zero result. -/
def live_feed (rn : Int → Int → Int) (o : program_options) :
    live_status → List live_call → feed_result
  | st, [] => { status := st, indices := [], rets := [], out := [] }
  | st, c :: cs =>
    let r := live_print_file_entry rn o c.env c.path c.size st
    let rest := live_feed rn o r.status cs
    { status := rest.status,
      indices := st.partition_index :: rest.indices,
      rets := r.ret :: rest.rets,
      out := r.out ++ rest.out }

/-- No fatal failure during a call of `live_print_file_entry`: allocation,
`open(2)` and both `write(2)` succeed (hooks may fail). -/
def live_env_ok (e : live_env) : Prop :=
  e.malloc_ok = true ∧ 0 ≤ e.open_ret ∧ e.write_path_ok = true ∧ e.write_term_ok = true

instance (e : live_env) : Decidable (live_env_ok e) := by
  unfold live_env_ok; exact inferInstance

/-- The output of a partition boundary: `fflush(stdout)` or `close(fd)` of
lines 473-477. -/
def is_boundary : out_event → Bool
  | out_event.flush_stdout => true
  | out_event.close _ => true
  | _ => false

/-- Number of partition boundary events in an output. -/
def boundaries (out : List out_event) : Nat := out.countP is_boundary

/-! ## A directory tree and the entries fts(3) yields for it -/

/-- A file of the tree: its path, what `get_size` returns for it and whether
it passes name filtering (`valid_file(p, options, 1)`). -/
structure fs_file where
  path : String
  size : Int
  valid : Bool
  deriving DecidableEq, Repr

/-- A sequence of sibling directories, each with its path, what `get_size`
returns for the directory itself, whether it passes `valid_file(p, options, 0)`
and `valid_file(p, options, 1)`, its files, its sub-directories, and then the
siblings that follow it. A single tree is a sequence of one directory. -/
inductive fs_dirs where
  | nil : fs_dirs
  | cons (path : String) (size : Int) (valid0 valid1 : Bool) (files : List fs_file)
      (subdirs : fs_dirs) (next : fs_dirs) : fs_dirs
  deriving DecidableEq, Repr

/-- The entry `fts_read` yields for a file at a level. -/
def file_ent (level : Int) (f : fs_file) : FTSENT :=
  { fts_info := fts_info_t.FTS_F, fts_path := f.path, fts_level := level,
    dev_differs := false, valid_file0 := f.valid, valid_file1 := f.valid,
    get_size := f.size }

/-- The entry `fts_read` yields for a directory, in pre-order (`FTS_D`) or in
post-order (`FTS_DP`). -/
def dir_ent (info : fts_info_t) (level : Int) (path : String) (size : Int)
    (valid0 valid1 : Bool) : FTSENT :=
  { fts_info := info, fts_path := path, fts_level := level, dev_differs := false,
    valid_file0 := valid0, valid_file1 := valid1, get_size := size }

/-- Whether `init_file_entries` calls `fts_set(ftsp, p, FTS_SKIP)` on a
directory met in pre-order (lines 789-807). -/
def skip_requested (o : program_options) (p : FTSENT) : Bool :=
  !p.valid_file0 || dir_depth_reached o p

/-- The entries `fts_read` yields for a sequence of sibling directories on one
device when the comparison function is `fts_dirsfirst`: each directory in
pre-order, then (unless `FTS_SKIP` was requested on it) its sub-directories,
then its files, then the directory in post-order. The order inside `subdirs`
and inside `files` is the order in which fts yields the siblings. -/
def dirsfirst_walk (o : program_options) : Int → fs_dirs → List FTSENT
  | _, fs_dirs.nil => []
  | level, fs_dirs.cons path size valid0 valid1 files subdirs next =>
    (dir_ent fts_info_t.FTS_D level path size valid0 valid1 ::
      (if skip_requested o (dir_ent fts_info_t.FTS_D level path size valid0 valid1) then []
       else dirsfirst_walk o (level + 1) subdirs ++ files.map (file_ent (level + 1)))) ++
    (dir_ent fts_info_t.FTS_DP level path size valid0 valid1 ::
      dirsfirst_walk o level next)

/-- Sum of the sizes of the files of a list that pass name filtering. -/
def files_size (files : List fs_file) : Int :=
  ((files.filter (fun f => f.valid)).map (fun f => f.size)).sum

/-- The directories of a sequence of siblings in post-order, each directory
that passes name filtering with the sum of the sizes of its own files that
pass name filtering (0 for a directory that was not entered). -/
def direct_sizes (o : program_options) : Int → fs_dirs → List (String × Int)
  | _, fs_dirs.nil => []
  | level, fs_dirs.cons path size valid0 valid1 files subdirs next =>
    (if valid0 then direct_sizes o (level + 1) subdirs else []) ++
    (if valid1 then
      [(curdir_entry_path o (dir_ent fts_info_t.FTS_DP level path size valid0 valid1),
        if valid0 then files_size files else 0)]
     else []) ++
    direct_sizes o level next

/-- Sum of the sizes of all the files below a sequence of sibling directories,
direct and indirect, that pass name filtering (the files of a directory that
fails `valid_file(p, options, 0)` are not reached). -/
def descendants_size : fs_dirs → Int
  | fs_dirs.nil => 0
  | fs_dirs.cons _ _ valid0 _ files subdirs next =>
    (if valid0 then files_size files + descendants_size subdirs else 0) +
    descendants_size next

/-- The tree `root/{a(10), b(20), sub/{c(5)}}`. -/
def example_tree : fs_dirs :=
  fs_dirs.cons "root" 4096 true true
    [{ path := "root/a", size := 10, valid := true },
     { path := "root/b", size := 20, valid := true }]
    (fs_dirs.cons "root/sub" 4096 true true
      [{ path := "root/sub/c", size := 5, valid := true }] fs_dirs.nil fs_dirs.nil)
    fs_dirs.nil

/-- No fatal failure while an entry of `fts_read` is processed: every
allocation, `open(2)` and `write(2)` succeeds (hooks may fail). -/
def walk_env_ok (e : walk_env) : Prop :=
  e.malloc_path_ok = true ∧ live_env_ok e.handle.live ∧
  e.handle.add.malloc_entry_ok = true ∧ e.handle.add.malloc_path_ok = true

instance (e : walk_env) : Decidable (walk_env_ok e) := by
  unfold walk_env_ok; exact inferInstance

/-- Answers of a system on which nothing fails. -/
def env_ok : walk_env :=
  { malloc_path_ok := true,
    handle :=
      { live := { malloc_ok := true, pre_hook_ret := 0, open_ret := 3,
                  write_path_ok := true, write_term_ok := true, post_hook_ret := 0 },
        add := { malloc_entry_ok := true, malloc_path_ok := true } } }

/-! ## The size of an emitted directory, in the words of the specification -/

/-- The directory was force-emitted by the all-directories rule: it was not
scheduled by the depth limit, none of dirs-only, leaf-directory and
empty-directory inclusion applies, and all-directories inclusion is requested. -/
def forced_by_alldirs (o : program_options) (s : walk_state) : Bool :=
  !s.curdir_addme &&
  !(o.dirs_only || (o.leaf_dirs && !s.curdir_dirsfound) ||
    (decide (o.dirs_include ≥ OPT_EMPTYDIRS) && s.curdir_empty)) &&
  decide (o.dirs_include ≥ OPT_ALLDIRS)

/-- Size resolution for an emitted directory, in priority order: (a) 0 for a
non-root directory on another device than its parent when boundary crossing is
disabled; (b) 0 if known empty or forced empty; (c) the accumulated size in
dirs-only mode or in leaf-dirs mode with no sub-directory found; (d) otherwise
the value of `get_size` on the directory. -/
def dir_size_by_priority (o : program_options) (p : FTSENT) (s : walk_state) : Int :=
  if p.fts_level > 0 ∧ p.dev_differs = true ∧ o.no_cross_fs_boundaries = true then 0
  else if s.curdir_empty = true ∨ forced_by_alldirs o s = true then 0
  else if o.dirs_only = true ∨ (o.leaf_dirs = true ∧ s.curdir_dirsfound = false) then
    s.curdir_size
  else p.get_size

/-! ## Concrete inputs -/

/-- Options of the end-to-end example: live mode, block size 1, no overload,
no preload, max-size 15, no max-entries threshold, output to stdout. -/
def example_options : program_options :=
  { live_mode := true, out_filename := none, out_zero := false, preload_size := 0,
    overload_size := 0, round_size := 1, max_entries := 0, max_size := 15,
    pre_part_hook := none, post_part_hook := none, dirs_only := false, leaf_dirs := false,
    dirs_include := 0, add_slash := false, no_cross_fs_boundaries := false,
    follow_symbolic_links := false, dir_depth := OPT_NODIRDEPTH }

/-- Live mode with max-entries 2 and no max-size threshold. -/
def example_options_entries : program_options :=
  { example_options with max_entries := 2, max_size := 0 }

/-- Batch mode, dirs-only, no thresholds. -/
def example_options_dirs_only : program_options :=
  { example_options with live_mode := false, dirs_only := true, max_size := 0 }

/-- Batch mode with a directory-depth limit of 0. -/
def example_options_depth0 : program_options :=
  { example_options with live_mode := false, dir_depth := 0, max_size := 0 }

/-- Batch mode, dirs-only, with a directory-depth limit of 0. -/
def example_options_dirs_only_depth0 : program_options :=
  { example_options with live_mode := false, dirs_only := true, dir_depth := 0, max_size := 0 }

/-- Batch mode, leaf-dirs, with a directory-depth limit of 0. -/
def example_options_leaf_dirs_depth0 : program_options :=
  { example_options with live_mode := false, leaf_dirs := true, dir_depth := 0, max_size := 0 }

/-- The directory `root` as yielded by `fts_read` at level 0; `get_size` finds
35 bytes below it. -/
def example_root (info : fts_info_t) : FTSENT := dir_ent info 0 "root" 35 true true

/-- A regular file given as the root argument. -/
def example_root_file : FTSENT := file_ent 0 { path := "a", size := 10, valid := true }

/-- What fts(3) yields for `example_tree` in dirs-only mode, nothing failing. -/
def example_run : fts_run :=
  { open_ok := true,
    entries := (dirsfirst_walk example_options_dirs_only 0 example_tree).map
      (fun p => (p, env_ok)),
    read_errno := 0 }

/-! ## Walking and releasing the list of file entries -/

/-- The entries met from `p` on by following `nextp` until `NULL`, as the loops
`while(head != NULL) { ...; head = head->nextp; }` do. The result is `none` when
a link does not refer to an allocated entry or when `NULL` is not reached
within `fuel` entries (the C loop does not end on a cyclic list). -/
def list_from (heap : List file_entry) : Nat → Option Nat → Option (List file_entry)
  | _, none => some []
  | 0, some _ => none
  | fuel + 1, some a =>
    match heap[a]? with
    | none => none
    | some x => (list_from heap fuel x.nextp).map (fun l => x :: l)

/-- Modelled from the spec: the macro `fastfw_list` of `utils.h` is absent;
it fast-forwards a pointer to the end of the list, following `nextp` while it
is not `NULL`. The result is `none` when the end is not reached within `fuel`
entries or a link does not refer to an allocated entry. -/
def fastfw_list (heap : List file_entry) : Nat → Option Nat → Option (Option Nat)
  | _, none => some none
  | 0, some _ => none
  | fuel + 1, some a =>
    match heap[a]? with
    | none => none
    | some x =>
      match x.nextp with
      | none => some (some a)
      | some b => fastfw_list heap fuel (some b)

/-- A call of `free(3)`: on the path buffer of the entry at an address, or on
the entry itself. -/
inductive free_event where
  | path (addr : Nat)
  | entry (addr : Nat)
  deriving DecidableEq, Repr

/-- Lines 879-889 of `uninit_file_entries`: from `current`, free the path and
the entry, then go to `prevp`, until `NULL`. The result is `none` when `NULL`
is not reached within `fuel` entries or a link does not refer to an allocated
entry. -/
def free_chain (heap : List file_entry) : Nat → Option Nat → Option (List free_event)
  | _, none => some []
  | 0, some _ => none
  | fuel + 1, some a =>
    match heap[a]? with
    | none => none
    | some x =>
      (free_chain heap fuel x.prevp).map
        (fun l => free_event.path a :: free_event.entry a :: l)

/-- Lines 891-925 of `uninit_file_entries`, the live-mode part: flush or close
the last output, run the last post-partition hook if the last partition holds
files, release the file name. `post_hook_ret` is the value `fpart_hook`
returns. -/
def live_teardown (o : program_options) (post_hook_ret : Int) (st : live_status) :
    live_status × List out_event :=
  if o.live_mode then
    -- flush buffer or close last file if necessary
    let closing : List out_event :=
      match o.out_filename with
      | none => [out_event.flush_stdout]
      | some _ =>
        match st.filename with
        | none => []
        | some _ => [out_event.close st.fd]
    -- execute last post-partition hook
    let hooked : live_status × List out_event :=
      match o.post_part_hook with
      | none => (st, [])
      | some cmd =>
        if st.partition_num_files > 0 then
          (if post_hook_ret ≠ 0 then { st with exit_summary := 1 } else st,
           [out_event.hook cmd st.filename st.partition_index st.partition_size
              st.partition_num_files])
        else (st, [])
    ({ hooked.1 with filename := none }, closing ++ hooked.2)
  else (st, [])

/-- Outcome of `uninit_file_entries`: the calls of `free(3)` on the list, in
order, the live status left behind and what was done to the outside. -/
structure uninit_result where
  freed : List free_event
  live : live_status
  out : List out_event
  deriving DecidableEq, Repr

/-- The function `uninit_file_entries` (lines 870-927). The result is `none`
when one of its loops over the list does not end within `fuel` entries. -/
def uninit_file_entries (o : program_options) (post_hook_ret : Int)
    (heap : List file_entry) (fuel : Nat) (head : Option Nat) (st : live_status) :
    Option uninit_result :=
  -- be sure to start from last file entry
  match fastfw_list heap fuel head with
  | none => none
  | some last =>
    match free_chain heap fuel last with
    | none => none
    | some freed =>
      let t := live_teardown o post_hook_ret st
      some { freed := freed, live := t.1, out := t.2 }

/-- One call of `add_file_entry` in which both allocations succeed: the new
`*head` and the new entry memory. -/
def add_step (rn : Int → Int → Int) (o : program_options)
    (acc : Option Nat × List file_entry) (ps : String × Int) :
    Option Nat × List file_entry :=
  ((add_file_entry rn o { malloc_entry_ok := true, malloc_path_ok := true }
      acc.1 acc.2 ps.1 ps.2).head,
   (add_file_entry rn o { malloc_entry_ok := true, malloc_path_ok := true }
      acc.1 acc.2 ps.1 ps.2).heap)

/-- The list built by successive calls of `add_file_entry` that all succeed,
from `*head = NULL` and an empty entry memory: the final `*head` and the entry
memory. -/
def build_list (rn : Int → Int → Int) (o : program_options)
    (l : List (String × Int)) : Option Nat × List file_entry :=
  l.foldl (add_step rn o) (none, [])

/-- The entry memory holds one proper doubly-linked chain, the entry at
address `i` being linked to the entries at `i - 1` and `i + 1`: `prevp` of the
first entry and `nextp` of the last entry are `NULL`. -/
def proper_chain (heap : List file_entry) : Prop :=
  ∀ i x, heap[i]? = some x →
    x.prevp = (if i = 0 then none else some (i - 1)) ∧
    x.nextp = (if i + 1 = heap.length then none else some (i + 1))

/-- The calls of `free(3)` that release the entries at the addresses
`n - 1, ..., 0`, last entry first, the path before the entry. -/
def frees_down : Nat → List free_event
  | 0 => []
  | n + 1 => free_event.path n :: free_event.entry n :: frees_down n

/-- The list is a proper chain and `*head` refers to the entry added last
(`NULL` when nothing was added). -/
def list_inv (head : Option Nat) (heap : List file_entry) : Prop :=
  proper_chain heap ∧ head = (if heap.length = 0 then none else some (heap.length - 1))

/-! ## The offline partition writer -/

/-- What `print_file_entries` does to the outside world, in order. The
descriptor that `open(2)` returns for the partition `part` is called `part` in
the events; the file it is open on is the file named in the call of
`open(2)`. -/
inductive print_event where
  /-- A call `fprintf(stdout, "%d (%lld): %s\n", partition_index, size, path)`. -/
  | line (index : Nat) (size : Int) (path : String)
  /-- A successful `open(filename, O_WRONLY|O_CREAT|O_TRUNC, 0660)`; the
  descriptor returned is `part`. -/
  | open_part (part : Nat) (filename : String)
  /-- A failed `open(2)` of `filename` for the partition `part`. -/
  | open_failed (part : Nat) (filename : String)
  /-- A complete `write(2)` of `bytes` on the descriptor `part`. -/
  | write (part : Nat) (bytes : String)
  /-- A short or failed `write(2)` on the descriptor `part`. -/
  | short_write (part : Nat)
  /-- A call `close(fd)` on the descriptor `part`. -/
  | close (part : Nat)
  deriving DecidableEq, Repr

/-- What the system answers during one call of `print_file_entries`. A
partition file is opened at most once and an entry is written at most once
during a call, so the answers are given by partition number and by position
of the entry in the list. -/
structure print_env where
  /-- True when the allocation of `out_filename` for the partition succeeds. -/
  malloc_ok : Nat → Bool
  /-- True when `open(2)` for the partition succeeds. -/
  open_ok : Nat → Bool
  /-- True for `write(fd, path, to_write) == to_write`, by position of the entry. -/
  write_path_ok : Nat → Bool
  /-- True for `write(fd, ln_term, 1) == 1`, by position of the entry. -/
  write_term_ok : Nat → Bool

/-- Outcome of `print_file_entries`: the value returned and what was done to
the outside. -/
structure print_result where
  ret : Int
  out : List print_event
  deriving DecidableEq, Repr

/-- Lines 944-948: print every entry from `head` on, following `nextp`. The
result is `none` when `NULL` is not reached within `fuel` entries. -/
def print_lines (heap : List file_entry) : Nat → Option Nat → Option (List print_event)
  | _, none => some []
  | 0, some _ => none
  | fuel + 1, some a =>
    match heap[a]? with
    | none => none
    | some x =>
      (print_lines heap fuel x.nextp).map
        (fun l => print_event.line x.partition_index x.size x.path :: l)

/-- Lines 966-994: open the descriptors of a batch. The array `fd` is the
list `fds` of the descriptors opened so far in the batch, `k` is
`current_file_entry` and the first argument is `PRINT_FE_CHUNKS - k`. The
boolean is `false` on `return (1)`; the events are those of this loop. -/
def open_batch (e : print_env) (template : String) (chunks num_parts chunk : Nat) :
    Nat → Nat → List Nat → Bool × List Nat × List print_event
  | 0, _, fds => (true, fds, [])
  | rest + 1, k, fds =>
    if chunk * chunks + k < num_parts then
      if ¬ e.malloc_ok (chunk * chunks + k) then
        -- close all open descriptors and return
        (false, fds, fds.map print_event.close)
      else if ¬ e.open_ok (chunk * chunks + k) then
        -- close all open descriptors and return
        (false, fds,
          print_event.open_failed (chunk * chunks + k)
            (template ++ "." ++ toString (chunk * chunks + k)) ::
          fds.map print_event.close)
      else
        let r := open_batch e template chunks num_parts chunk rest (k + 1)
          (fds ++ [chunk * chunks + k])
        (r.1, r.2.1,
          print_event.open_part (chunk * chunks + k)
            (template ++ "." ++ toString (chunk * chunks + k)) :: r.2.2)
    else (true, fds, [])

/-- Lines 996-1011: dispatch the entries of the list, from the pointer on, to
the descriptors of the batch; `j` is the position of the entry in the list.
The boolean is `false` when a write is short. The result is `none` when `NULL`
is not reached within `fuel` entries or when the descriptor read from `fd` was
never assigned. -/
def write_batch (o : program_options) (e : print_env) (chunks chunk : Nat)
    (fds : List Nat) (heap : List file_entry) :
    Nat → Nat → Option Nat → Option (Bool × List print_event)
  | _, _, none => some (true, [])
  | 0, _, some _ => none
  | fuel + 1, j, some a =>
    match heap[a]? with
    | none => none
    | some x =>
      if chunk * chunks ≤ x.partition_index ∧ x.partition_index < (chunk + 1) * chunks then
        match fds[x.partition_index % chunks]? with
        | none => none
        | some part =>
          if ¬ e.write_path_ok j then some (false, [print_event.short_write part])
          else if ¬ e.write_term_ok j then
            some (false, [print_event.write part x.path, print_event.short_write part])
          else
            (write_batch o e chunks chunk fds heap fuel (j + 1) x.nextp).map
              (fun r => (r.1, print_event.write part x.path ::
                print_event.write part (ln_term o) :: r.2))
      else write_batch o e chunks chunk fds heap fuel (j + 1) x.nextp

/-- The loop `for(i = 0; (i < PRINT_FE_CHUNKS) && (((current_chunk *
PRINT_FE_CHUNKS) + i) < num_parts); i++) close(fd[i]);` of lines 1005-1006
and 1017-1018; the first argument is `PRINT_FE_CHUNKS - i`. The result is
`none` when a descriptor read from `fd` was never assigned. -/
def close_batch (chunks num_parts chunk : Nat) (fds : List Nat) :
    Nat → Nat → Option (List print_event)
  | 0, _ => some []
  | rest + 1, i =>
    if chunk * chunks + i < num_parts then
      match fds[i]? with
      | none => none
      | some part =>
        (close_batch chunks num_parts chunk fds rest (i + 1)).map
          (fun l => print_event.close part :: l)
    else some []

/-- Lines 960-1022: the loop over the batches, from batch `chunk` on. The
first argument bounds the number of batches still to do. -/
def print_batches (o : program_options) (e : print_env) (template : String)
    (chunks num_parts : Nat) (heap : List file_entry) (fuel : Nat) (head : Option Nat) :
    Nat → Nat → Option print_result
  | 0, chunk => if chunk * chunks < num_parts then none else some { ret := 0, out := [] }
  | todo + 1, chunk =>
    if chunk * chunks < num_parts then
      let opened := open_batch e template chunks num_parts chunk chunks 0 []
      if ¬ opened.1 then some { ret := 1, out := opened.2.2 }
      else
        match write_batch o e chunks chunk opened.2.1 heap fuel 0 head with
        | none => none
        | some w =>
          match close_batch chunks num_parts chunk opened.2.1 chunks 0 with
          | none => none
          | some closes =>
            if ¬ w.1 then some { ret := 1, out := opened.2.2 ++ w.2 ++ closes }
            else
              (print_batches o e template chunks num_parts heap fuel head todo
                (chunk + 1)).map
                (fun r => { ret := r.ret, out := opened.2.2 ++ w.2 ++ closes ++ r.out })
    else some { ret := 0, out := [] }

/-- The function `print_file_entries` (lines 929-1025). `chunks` is the
constant `PRINT_FE_CHUNKS` of `file_entry.h`, which is absent. The result is
`none` when the call does not return (a list that does not end within `fuel`
entries, `PRINT_FE_CHUNKS` equal to 0) or reads a descriptor that was never
assigned. -/
def print_file_entries (o : program_options) (e : print_env) (chunks : Nat)
    (heap : List file_entry) (fuel : Nat) (head : Option Nat) (num_parts : Nat) :
    Option print_result :=
  match o.out_filename with
  | none =>
    -- no template provided, just print to stdout and return
    (print_lines heap fuel head).map (fun l => { ret := 0, out := l })
  | some out_template =>
    print_batches o e out_template chunks num_parts heap fuel head num_parts 0

/-- The file each descriptor is open on after the events, from the table
`table`: a successful open makes the descriptor refer to the file named in the
call of `open(2)`, a close makes it refer to no file. -/
def fd_table_after : (Nat → Option String) → List print_event → (Nat → Option String)
  | table, [] => table
  | table, print_event.open_part p f :: rest =>
    fd_table_after (fun q => if q = p then some f else table q) rest
  | table, print_event.close p :: rest =>
    fd_table_after (fun q => if q = p then none else table q) rest
  | table, _ :: rest => fd_table_after table rest

/-- The content of the file named `name` after the events, from the content
`content`, `table` giving the file each descriptor is open on: a successful
open of `name` (with `O_TRUNC`) empties it, a complete write on a descriptor
that is open on `name` appends to it. -/
def file_content_from (name : String) :
    (Nat → Option String) → String → List print_event → String
  | _, content, [] => content
  | table, content, print_event.open_part p f :: rest =>
    file_content_from name (fun q => if q = p then some f else table q)
      (if f = name then "" else content) rest
  | table, content, print_event.write p bytes :: rest =>
    file_content_from name table
      (if table p = some name then content ++ bytes else content) rest
  | table, content, print_event.close p :: rest =>
    file_content_from name (fun q => if q = p then none else table q) content rest
  | table, content, _ :: rest => file_content_from name table content rest

/-- Number of successful opens (and truncations) of the file named `name`. -/
def opens_of (name : String) : List print_event → Nat
  | [] => 0
  | print_event.open_part _ f :: rest => (if f = name then 1 else 0) + opens_of name rest
  | _ :: rest => opens_of name rest

/-- No descriptor is open. -/
def no_fd : Nat → Option String := fun _ => none

/-- The descriptors open after the events, from the open descriptors
`opened`; `none` when a descriptor is closed that is not open. -/
def open_after : List Nat → List print_event → Option (List Nat)
  | opened, [] => some opened
  | opened, print_event.open_part p _ :: rest => open_after (opened ++ [p]) rest
  | opened, print_event.close p :: rest =>
    if p ∈ opened then open_after (opened.erase p) rest else none
  | opened, _ :: rest => open_after opened rest

/-- The paths of the entries of partition `part`, in list order, each followed
by the line terminator. -/
def partition_bytes (o : program_options) (part : Nat) : List file_entry → String
  | [] => ""
  | x :: rest =>
    if x.partition_index = part then x.path ++ ln_term o ++ partition_bytes o part rest
    else partition_bytes o part rest

/-- An event that reports an open failure or a short write. -/
def is_failure : print_event → Bool
  | print_event.open_failed _ _ => true
  | print_event.short_write _ => true
  | _ => false

/-- Answers of a system on which nothing fails during `print_file_entries`. -/
def print_env_ok : print_env :=
  { malloc_ok := fun _ => true, open_ok := fun _ => true,
    write_path_ok := fun _ => true, write_term_ok := fun _ => true }

/-- Three entries as the external dispatcher may leave them: a and c in
partition 0, b in partition 1, linked in this order. -/
def example_entries : List file_entry :=
  [{ path := "a", size := 10, partition_index := 0, nextp := some 1, prevp := none },
   { path := "b", size := 20, partition_index := 1, nextp := some 2, prevp := some 0 },
   { path := "c", size := 5, partition_index := 0, nextp := none, prevp := some 1 }]

/-- Answers of a system on which the second `write(2)` of path bytes is short. -/
def print_env_short : print_env :=
  { malloc_ok := fun _ => true, open_ok := fun _ => true,
    write_path_ok := fun j => decide (j ≠ 1), write_term_ok := fun _ => true }

/-- The partition numbers `s, s + 1, ..., s + n - 1`. -/
def parts_from : Nat → Nat → List Nat
  | _, 0 => []
  | s, n + 1 => s :: parts_from (s + 1) n

/-- The name of the file of a partition, computed by
`snprintf(out_filename, malloc_size, "%s.%d", out_template, part)`. -/
def part_filename (template : String) (part : Nat) : String :=
  template ++ "." ++ toString part

/-- Batch mode with the output template `out`. -/
def example_options_template : program_options :=
  { example_options with live_mode := false, out_filename := some "out", max_size := 0 }

/-! ## Sizes in 64-bit signed arithmetic -/

/-- The value of an integer once stored in a 64-bit signed variable (two's
complement). Signed overflow is undefined in C; on the usual targets the
result wraps around, which is what this function gives. -/
def wrap64 (x : Int) : Int := (x + 2 ^ 63) % 2 ^ 64 - 2 ^ 63

/-- The largest 64-bit signed value. -/
def INT64_MAX : Int := 2 ^ 63 - 1

/-- Modelled from the spec: `round_num` of `utils.c` is absent; this is the
rounding up to the next multiple of the block size with its argument and its
result held in 64-bit signed variables (`fsize_t`). Passed as `rn` to
`add_file_entry`, it gives the size stored by lines 542-543. -/
def round_num64 (num mult : Int) : Int := wrap64 (round_num (wrap64 num) mult)

/-- Batch mode with a block size of 1 and an overload of 1. -/
def example_options_overload : program_options :=
  { example_options with live_mode := false, overload_size := 1, max_size := 0 }

/-! ## The hook executor -/

/-- How a child process ended, as `wait(2)` reports it in `child_status`:
`exited code` when `WIFEXITED` holds, with `WEXITSTATUS` equal to `code`;
`signaled` otherwise (termination by a signal). -/
inductive wait_status where
  | exited (code : Nat)
  | signaled (sig : Nat)
  deriving DecidableEq, Repr

/-- The arguments of `fpart_hook`. The two booleans are the results of the
pointer comparisons `cmd == options->pre_part_hook` and
`cmd == options->post_part_hook`; a pointer argument is `none` for `NULL`. -/
structure hook_args where
  cmd : String
  cmd_is_pre : Bool
  cmd_is_post : Bool
  live_filename : Option String
  live_partition_index : Option Nat
  live_partition_size : Option Int
  live_num_files : Option Nat
  deriving DecidableEq, Repr

/-- What the system answers during one call of `fpart_hook`. The variables
are numbered in the order of the source: 0 `FPART_HOOKTYPE`,
1 `FPART_PARTFILENAME`, 2 `FPART_PARTNUMBER`, 3 `FPART_PARTSIZE`,
4 `FPART_PARTNUMFILES`, 5 `FPART_PID`. -/
structure hook_env where
  /-- The environment of the parent, `environ`. -/
  environ : List String
  /-- True when `clone_env()` does not return `NULL`. -/
  clone_ok : Bool
  /-- True when the allocation of the string of a variable succeeds. -/
  malloc_ok : Nat → Bool
  /-- True when `push_env` returns 0 for a variable. -/
  push_ok : Nat → Bool
  /-- The value of `getpid()`. -/
  pid : Int
  /-- The value of `fork()`. -/
  fork_ret : Int
  /-- The successive answers of `wait(&child_status)`: the value returned and
  the status. -/
  waits : List (Int × wait_status)

/-- Outcome of `fpart_hook`: the value returned, `live_status.child_pid` at
return, and the environment handed to `execle` in the child when the fork
succeeded. -/
structure hook_result where
  ret : Int
  child_pid : Int
  exec_env : Option (List String)
  deriving DecidableEq, Repr

/-- Modelled from the spec: `clone_env` of `utils.c` is absent; it returns a
fresh copy of the environment of the parent, so that the variables of a hook
are added to the copy and never to `environ`. -/
def clone_env (environ : List String) : List String := environ

/-- Modelled from the spec: `push_env` of `utils.c` is absent; it appends the
string to the cloned environment as a new variable (nothing is overwritten). -/
def push_env (var : String) (envp : List String) : List String := envp ++ [var]

/-- One variable: allocate its string, print `NAME=value` into it and push it.
The result is `none` on `retval = 1; goto cleanup;`. -/
def push_var (e : hook_env) (i : Nat) (var : String) (envp : List String) :
    Option (List String) :=
  if e.malloc_ok i = true ∧ e.push_ok i = true then some (push_env var envp) else none

/-- Lines 158-289 of `fpart_hook`, after `clone_env` succeeded: the
environment built for the child, `none` on `goto cleanup`. -/
def hook_environment (e : hook_env) (a : hook_args) : Option (List String) :=
  let env0 : Option (List String) := some (clone_env e.environ)
  -- determine the kind of hook we are in
  let env1 : Option (List String) :=
    if a.cmd_is_pre then env0.bind (push_var e 0 "FPART_HOOKTYPE=pre-part")
    else if a.cmd_is_post then env0.bind (push_var e 0 "FPART_HOOKTYPE=post-part")
    else env0
  let env2 : Option (List String) :=
    match a.live_filename with
    | none => env1
    | some f => env1.bind (push_var e 1 ("FPART_PARTFILENAME=" ++ f))
  let env3 : Option (List String) :=
    match a.live_partition_index with
    | none => env2
    | some i => env2.bind (push_var e 2 ("FPART_PARTNUMBER=" ++ toString i))
  let env4 : Option (List String) :=
    match a.live_partition_size with
    | none => env3
    | some s => env3.bind (push_var e 3 ("FPART_PARTSIZE=" ++ toString s))
  let env5 : Option (List String) :=
    match a.live_num_files with
    | none => env4
    | some n => env4.bind (push_var e 4 ("FPART_PARTNUMFILES=" ++ toString n))
  env5.bind (push_var e 5 ("FPART_PID=" ++ toString e.pid))

/-- Lines 318-320: `do { wpid = wait(&child_status); } while((wpid != child)
&& (wpid != -1));` over the successive answers of `wait`; `none` when the
answers run out before the loop ends. -/
def wait_child (child : Int) : List (Int × wait_status) → Option (Int × wait_status)
  | [] => none
  | q :: rest =>
    if q.1 ≠ child ∧ q.1 ≠ -1 then wait_child child rest else some q

/-- The function `fpart_hook` (lines 123-371), in the parent process;
`child_pid` is `live_status.child_pid` at the call. The result is `none` in
the child process (`fork` returned 0: the child calls `execle` or `exit` and
does not return from the function) and when the wait loop does not end within
the given answers. -/
def fpart_hook (e : hook_env) (a : hook_args) (child_pid : Int) : Option hook_result :=
  if ¬ e.clone_ok then some { ret := 1, child_pid := child_pid, exec_env := none }
  else
    match hook_environment e a with
    | none => some { ret := 1, child_pid := child_pid, exec_env := none }
    | some envp =>
      -- fork child process
      if e.fork_ret = -1 then some { ret := 1, child_pid := -1, exec_env := none }
      else if e.fork_ret = 0 then none
      else
        match wait_child e.fork_ret e.waits with
        | none => none
        | some (wpid, status) =>
          if wpid = -1 then some { ret := 1, child_pid := -1, exec_env := some envp }
          else
            match status with
            | wait_status.exited code =>
              some { ret := if code ≠ 0 then 1 else 0, child_pid := -1,
                     exec_env := some envp }
            | wait_status.signaled _ =>
              some { ret := 1, child_pid := -1, exec_env := some envp }

/-- A post-partition hook call for partition 3 of 2 files and 30 bytes. -/
def example_hook_args : hook_args :=
  { cmd := "echo done", cmd_is_pre := false, cmd_is_post := true,
    live_filename := some "out.3", live_partition_index := some 3,
    live_partition_size := some 30, live_num_files := some 2 }

/-- Answers of a system on which the hook is forked as process 4242, another
child is reaped first, and the hook exits with the given status. -/
def example_hook_env (status : wait_status) : hook_env :=
  { environ := ["HOME=/root"], clone_ok := true, malloc_ok := fun _ => true,
    push_ok := fun _ => true, pid := 4000, fork_ret := 4242,
    waits := [(4100, wait_status.exited 0), (4242, status)] }

/-! ## Hooks of the live partitioner -/

/-- Live mode with both hooks configured, max-entries 2, output to stdout. -/
def example_options_hooks : program_options :=
  { example_options_entries with pre_part_hook := some "pre", post_part_hook := some "post" }

/-- Answers of a system on which nothing fails and both hooks return 0. -/
def live_env_hooks_ok : live_env :=
  { malloc_ok := true, pre_hook_ret := 0, open_ret := 3, write_path_ok := true,
    write_term_ok := true, post_hook_ret := 0 }

/-- The calls of `fpart_hook` in an output, in order: the command and the
partition index passed. -/
def hook_calls : List out_event → List (String × Nat)
  | [] => []
  | out_event.hook cmd _ index _ _ :: rest => (cmd, index) :: hook_calls rest
  | _ :: rest => hook_calls rest

/-- The hook calls `pre(0), post(0), ..., pre(n - 1), post(n - 1)`. -/
def hook_schedule (pre post : String) : Nat → List (String × Nat)
  | 0 => []
  | n + 1 => hook_schedule pre post n ++ [(pre, n), (post, n)]

/-- Number of partitions that have received an entry so far: the closed ones
and the current one when it holds files. -/
def partitions_started (st : live_status) : Nat :=
  st.partition_index + (if st.partition_num_files > 0 then 1 else 0)

/-- The hook calls made once the live status is `st`: both hooks of every
closed partition and the pre-partition hook of the current one when it holds
files. -/
def hooks_done (pre post : String) (st : live_status) : List (String × Nat) :=
  hook_schedule pre post st.partition_index ++
    (if st.partition_num_files > 0 then [(pre, st.partition_index)] else [])

/-- Three entries, nothing failing, hooks returning 0. -/
def example_calls : List live_call :=
  [{ env := live_env_hooks_ok, path := "a", size := 10 },
   { env := live_env_hooks_ok, path := "b", size := 20 },
   { env := live_env_hooks_ok, path := "c", size := 5 }]

/-- What `fts_dirsfirst` reads of an entry: `fts_info` and
`S_ISDIR(fts_statp->st_mode)`. -/
structure sort_entry where
  fts_info : fts_info_t
  is_dir : Bool
  deriving DecidableEq, Repr

/-- The function `fts_dirsfirst` (lines 561-592). -/
def fts_dirsfirst (a b : sort_entry) : Int :=
  if a.fts_info = fts_info_t.FTS_NS ∨ a.fts_info = fts_info_t.FTS_NSOK ∨
      b.fts_info = fts_info_t.FTS_NS ∨ b.fts_info = fts_info_t.FTS_NSOK then 0
  -- place non-directory entries after directory ones
  else if a.is_dir then
    if ¬ b.is_dir then -1 else 0
  else
    if b.is_dir then 1 else 0

/-- An entry without stat information: `FTS_NS` (stat failed) or `FTS_NSOK`
(no stat requested). -/
def no_stat (a : sort_entry) : Bool :=
  decide (a.fts_info = fts_info_t.FTS_NS) || decide (a.fts_info = fts_info_t.FTS_NSOK)

/-- A list of siblings is in the order of `fts_dirsfirst` when no entry is
greater than a later one. -/
def dirsfirst_sorted (l : List sort_entry) : Prop :=
  l.Pairwise (fun a b => fts_dirsfirst a b ≤ 0)

/-- Siblings as they may be read from a directory: a file, a directory, a
symbolic link, a directory. -/
def example_siblings : List sort_entry :=
  [{ fts_info := fts_info_t.FTS_F, is_dir := false },
   { fts_info := fts_info_t.FTS_D, is_dir := true },
   { fts_info := fts_info_t.FTS_SL, is_dir := false },
   { fts_info := fts_info_t.FTS_D, is_dir := true }]

/-! ## The files written by the live partitioner -/

/-- Live mode, output to stdout, an overload of 1 per entry, block size 1, no
threshold. -/
def example_options_live_overload : program_options :=
  { example_options with overload_size := 1, max_size := 0 }

/-- Batch mode with empty-directory inclusion. -/
def example_options_emptydirs : program_options :=
  { example_options with live_mode := false, dirs_include := OPT_EMPTYDIRS, max_size := 0 }

/-- A file of the directory `root` that name filtering rejects. -/
def example_filtered_file : FTSENT :=
  file_ent 1 { path := "root/core", size := 7, valid := false }

/-! # Lemmas -/

/-! ## Facts about the blocks of `live_print_file_entry` -/

theorem boundaries_append (a b : List out_event) :
    boundaries (a ++ b) = boundaries a + boundaries b := by
  simp [boundaries, List.countP_append]

theorem live_new_partition_index (o : program_options) (e : live_env) (st : live_status) :
    (live_new_partition o e st).status.partition_index = st.partition_index := by
  unfold live_new_partition
  cases o.out_filename <;> cases o.pre_part_hook <;> simp <;> split_ifs <;> simp

theorem live_new_partition_num_files (o : program_options) (e : live_env) (st : live_status) :
    (live_new_partition o e st).status.partition_num_files = st.partition_num_files := by
  unfold live_new_partition
  cases o.out_filename <;> cases o.pre_part_hook <;> simp <;> split_ifs <;> simp

theorem live_new_partition_size (o : program_options) (e : live_env) (st : live_status) :
    (live_new_partition o e st).status.partition_size =
      if st.partition_num_files = 0 ∧ st.partition_index = 0 then o.preload_size
      else st.partition_size := by
  unfold live_new_partition
  cases o.out_filename <;> cases o.pre_part_hook <;> simp <;> split_ifs <;> simp_all

theorem live_new_partition_boundaries (o : program_options) (e : live_env) (st : live_status) :
    boundaries (live_new_partition o e st).out = 0 := by
  unfold live_new_partition
  cases o.out_filename <;> cases o.pre_part_hook <;> simp <;> split_ifs <;>
    simp [boundaries, is_boundary]

theorem live_output_boundaries (o : program_options) (e : live_env) (path : String)
    (size : Int) (st : live_status) : boundaries (live_output o e path size st).2 = 0 := by
  unfold live_output
  cases o.out_filename <;> simp <;> (try split_ifs) <;> simp [boundaries, is_boundary]

theorem live_end_partition_spec (o : program_options) (e : live_env) (st : live_status) :
    (end_of_partition o st = true →
      boundaries (live_end_partition o e st).2 = 1 ∧
      (live_end_partition o e st).1.partition_index = st.partition_index + 1 ∧
      (live_end_partition o e st).1.partition_size = o.preload_size ∧
      (live_end_partition o e st).1.partition_num_files = 0) ∧
    (end_of_partition o st = false → live_end_partition o e st = (st, [])) := by
  unfold live_end_partition
  constructor
  · intro h
    rw [if_pos h]
    cases o.out_filename <;> cases o.post_part_hook <;> simp [boundaries, is_boundary] <;>
      (try split_ifs) <;> simp
  · intro h
    simp [h]

theorem end_of_partition_iff (o : program_options) (st : live_status) :
    end_of_partition o st = true ↔
      (o.max_entries > 0 ∧ st.partition_num_files ≥ o.max_entries) ∨
      (o.max_size > 0 ∧ st.partition_size ≥ o.max_size) := by
  simp [end_of_partition]

/-- Accumulated size once an entry has been counted in (lines 401-402 and
437-438). -/
theorem live_counted_size (rn : Int → Int → Int) (o : program_options) (e : live_env)
    (size : Int) (st : live_status) :
    (live_count_in rn o size (live_new_partition o e st).status).partition_size =
      (if st.partition_num_files = 0 ∧ st.partition_index = 0 then o.preload_size
       else st.partition_size) + rn (size + o.overload_size) o.round_size := by
  simp only [live_count_in, live_new_partition_size]

/-- A call that returns 0 went through all the blocks. -/
theorem live_print_file_entry_ret0 (rn : Int → Int → Int) (o : program_options)
    (e : live_env) (path : String) (size : Int) (st : live_status)
    (hret : (live_print_file_entry rn o e path size st).ret = 0) :
    (live_print_file_entry rn o e path size st).status =
      (live_end_partition o e
        (live_count_in rn o size (live_new_partition o e st).status)).1 ∧
    boundaries (live_print_file_entry rn o e path size st).out =
      boundaries (live_end_partition o e
        (live_count_in rn o size (live_new_partition o e st).status)).2 := by
  unfold live_print_file_entry at hret ⊢
  by_cases h1 : (live_new_partition o e st).ret ≠ 0
  · simp [h1] at hret
  · simp only [h1, if_false] at hret ⊢
    by_cases h2 : (live_output o e path size
        (live_count_in rn o size (live_new_partition o e st).status)).1 = true
    · simp only [h2, not_true_eq_false, if_false, boundaries_append,
        live_new_partition_boundaries, live_output_boundaries]
      simp
    · simp [h2] at hret

/-- When nothing fails, `live_print_file_entry` returns 0. -/
theorem live_print_file_entry_ok (rn : Int → Int → Int) (o : program_options)
    (e : live_env) (path : String) (size : Int) (st : live_status) (hok : live_env_ok e) :
    (live_print_file_entry rn o e path size st).ret = 0 := by
  obtain ⟨h1, h2, h3, h4⟩ := hok
  have hn : (live_new_partition o e st).ret = 0 := by
    unfold live_new_partition
    cases o.out_filename <;> cases o.pre_part_hook <;> simp [h1] <;> split_ifs <;>
      first | rfl | omega
  have ho : (live_output o e path size
      (live_count_in rn o size (live_new_partition o e st).status)).1 = true := by
    unfold live_output
    cases o.out_filename <;> simp [h3, h4]
  unfold live_print_file_entry
  simp [hn, ho]

/-- Effect of a call that returns 0, by whether the end of the partition is
reached once the entry is counted in. -/
theorem live_print_file_entry_effect (rn : Int → Int → Int) (o : program_options)
    (e : live_env) (path : String) (size : Int) (st : live_status)
    (hret : (live_print_file_entry rn o e path size st).ret = 0) :
    (end_of_partition o (live_count_in rn o size (live_new_partition o e st).status) = true →
      boundaries (live_print_file_entry rn o e path size st).out = 1 ∧
      (live_print_file_entry rn o e path size st).status.partition_index
        = st.partition_index + 1 ∧
      (live_print_file_entry rn o e path size st).status.partition_size = o.preload_size ∧
      (live_print_file_entry rn o e path size st).status.partition_num_files = 0) ∧
    (end_of_partition o (live_count_in rn o size (live_new_partition o e st).status) = false →
      boundaries (live_print_file_entry rn o e path size st).out = 0 ∧
      (live_print_file_entry rn o e path size st).status.partition_index
        = st.partition_index ∧
      (live_print_file_entry rn o e path size st).status.partition_size =
        (live_count_in rn o size (live_new_partition o e st).status).partition_size ∧
      (live_print_file_entry rn o e path size st).status.partition_num_files
        = st.partition_num_files + 1) := by
  obtain ⟨hs, hb⟩ := live_print_file_entry_ret0 rn o e path size st hret
  obtain ⟨hyes, hno⟩ := live_end_partition_spec o e
    (live_count_in rn o size (live_new_partition o e st).status)
  rw [hs, hb]
  constructor
  · intro hf
    obtain ⟨h1, h2, h3, h4⟩ := hyes hf
    refine ⟨h1, ?_, h3, h4⟩
    rw [h2]; simp [live_count_in, live_new_partition_index]
  · intro hf
    rw [hno hf]
    simp [boundaries, live_count_in, live_new_partition_index, live_new_partition_num_files]

/-- A call that does not return 0 stopped after the new-partition block or
after counting the entry in. -/
theorem live_print_file_entry_failed (rn : Int → Int → Int) (o : program_options)
    (e : live_env) (path : String) (size : Int) (st : live_status)
    (hret : (live_print_file_entry rn o e path size st).ret ≠ 0) :
    (live_print_file_entry rn o e path size st).status = (live_new_partition o e st).status ∨
    (live_print_file_entry rn o e path size st).status =
      live_count_in rn o size (live_new_partition o e st).status := by
  unfold live_print_file_entry at hret ⊢
  by_cases h1 : (live_new_partition o e st).ret ≠ 0
  · rw [if_pos h1]; exact Or.inl rfl
  · rw [if_neg h1] at hret ⊢
    by_cases h2 : ¬ (live_output o e path size
        (live_count_in rn o size (live_new_partition o e st).status)).1 = true
    · rw [if_pos h2]; exact Or.inr rfl
    · rw [if_neg h2] at hret; exact absurd rfl hret

/-! ## Sequences of calls -/

/-- The partition index never decreases during a call, whatever it returns. -/
theorem live_print_file_entry_index_le (rn : Int → Int → Int) (o : program_options)
    (e : live_env) (path : String) (size : Int) (st : live_status) :
    st.partition_index ≤ (live_print_file_entry rn o e path size st).status.partition_index := by
  by_cases hret : (live_print_file_entry rn o e path size st).ret = 0
  · obtain ⟨hyes, hno⟩ := live_print_file_entry_effect rn o e path size st hret
    by_cases hf : end_of_partition o
        (live_count_in rn o size (live_new_partition o e st).status) = true
    · rw [(hyes hf).2.1]; exact Nat.le_succ _
    · rw [(hno (by simpa using hf)).2.1]
  · rcases live_print_file_entry_failed rn o e path size st hret with h | h <;> rw [h] <;>
      simp [live_count_in, live_new_partition_index]

/-- Every index recorded by `live_feed` is at least the index it starts from. -/
theorem live_feed_indices_ge (rn : Int → Int → Int) (o : program_options)
    (calls : List live_call) :
    ∀ st : live_status, ∀ i ∈ (live_feed rn o st calls).indices, st.partition_index ≤ i := by
  induction calls with
  | nil => intro st i hi; simp [live_feed] at hi
  | cons c cs ih =>
    intro st i hi
    simp only [live_feed, List.mem_cons] at hi
    rcases hi with rfl | hi
    · exact le_refl _
    · exact le_trans (live_print_file_entry_index_le rn o c.env c.path c.size st)
        (ih _ i hi)

/-- A partition that holds no entry yet is partition 0 or has its accumulated
size at the preload size: this holds initially and after every call. -/
theorem live_print_file_entry_preloaded (rn : Int → Int → Int) (o : program_options)
    (e : live_env) (path : String) (size : Int) (st : live_status)
    (h : st.partition_num_files = 0 →
      st.partition_index = 0 ∨ st.partition_size = o.preload_size) :
    (live_print_file_entry rn o e path size st).status.partition_num_files = 0 →
      (live_print_file_entry rn o e path size st).status.partition_index = 0 ∨
      (live_print_file_entry rn o e path size st).status.partition_size = o.preload_size := by
  by_cases hret : (live_print_file_entry rn o e path size st).ret = 0
  · obtain ⟨hyes, hno⟩ := live_print_file_entry_effect rn o e path size st hret
    by_cases hf : end_of_partition o
        (live_count_in rn o size (live_new_partition o e st).status) = true
    · intro _; exact Or.inr (hyes hf).2.2.1
    · intro hn
      rw [(hno (by simpa using hf)).2.2.2] at hn
      omega
  · rcases live_print_file_entry_failed rn o e path size st hret with h' | h' <;> rw [h']
    · intro hn
      rw [live_new_partition_num_files] at hn
      rw [live_new_partition_index, live_new_partition_size]
      rcases h hn with h0 | hp
      · exact Or.inl h0
      · right; split_ifs <;> simp [hp]
    · intro hn; simp [live_count_in] at hn

theorem live_feed_preloaded (rn : Int → Int → Int) (o : program_options)
    (calls : List live_call) :
    ∀ st : live_status,
      (st.partition_num_files = 0 →
        st.partition_index = 0 ∨ st.partition_size = o.preload_size) →
      (live_feed rn o st calls).status.partition_num_files = 0 →
        (live_feed rn o st calls).status.partition_index = 0 ∨
        (live_feed rn o st calls).status.partition_size = o.preload_size := by
  induction calls with
  | nil => intro st h; simpa [live_feed] using h
  | cons c cs ih =>
    intro st h
    simp only [live_feed]
    exact ih _ (live_print_file_entry_preloaded rn o c.env c.path c.size st h)

/-- One successful call when only the max-entries threshold is configured. -/
theorem live_print_file_entry_max_entries (rn : Int → Int → Int) (o : program_options)
    (e : live_env) (path : String) (size : Int) (st : live_status)
    (hsize : o.max_size ≤ 0) (hok : live_env_ok e) :
    (live_print_file_entry rn o e path size st).ret = 0 ∧
    (st.partition_num_files + 1 < o.max_entries →
      boundaries (live_print_file_entry rn o e path size st).out = 0 ∧
      (live_print_file_entry rn o e path size st).status.partition_index
        = st.partition_index ∧
      (live_print_file_entry rn o e path size st).status.partition_num_files
        = st.partition_num_files + 1) ∧
    (st.partition_num_files + 1 = o.max_entries →
      boundaries (live_print_file_entry rn o e path size st).out = 1 ∧
      (live_print_file_entry rn o e path size st).status.partition_index
        = st.partition_index + 1 ∧
      (live_print_file_entry rn o e path size st).status.partition_num_files = 0) := by
  have hret := live_print_file_entry_ok rn o e path size st hok
  obtain ⟨hyes, hno⟩ := live_print_file_entry_effect rn o e path size st hret
  refine ⟨hret, fun hlt => ?_, fun heq => ?_⟩
  · have hf : end_of_partition o
        (live_count_in rn o size (live_new_partition o e st).status) = false := by
      rw [← Bool.not_eq_true, end_of_partition_iff]
      simp only [live_count_in, live_new_partition_num_files]
      omega
    obtain ⟨h1, h2, _, h4⟩ := hno hf
    exact ⟨h1, h2, h4⟩
  · have hf : end_of_partition o
        (live_count_in rn o size (live_new_partition o e st).status) = true := by
      rw [end_of_partition_iff]
      simp only [live_count_in, live_new_partition_num_files]
      left; omega
    obtain ⟨h1, h2, _, h4⟩ := hyes hf
    exact ⟨h1, h2, h4⟩

theorem boundaries_nil : boundaries [] = 0 := rfl

/-- Feeding the entries that fill the current partition exactly. -/
theorem live_feed_fill (rn : Int → Int → Int) (o : program_options)
    (hsize : o.max_size ≤ 0) (calls : List live_call) :
    ∀ st : live_status, (∀ c ∈ calls, live_env_ok c.env) → calls ≠ [] →
      st.partition_num_files + calls.length = o.max_entries →
      boundaries (live_feed rn o st calls).out = 1 ∧
      (live_feed rn o st calls).status.partition_num_files = 0 ∧
      (live_feed rn o st calls).status.partition_index = st.partition_index + 1 ∧
      (live_feed rn o st calls).indices = List.replicate calls.length st.partition_index ∧
      (live_feed rn o st calls).rets = List.replicate calls.length 0 := by
  induction calls with
  | nil => intro st _ h; exact absurd rfl h
  | cons c cs ih =>
    intro st hok _ hlen
    obtain ⟨hret, hlt, heq⟩ := live_print_file_entry_max_entries rn o c.env c.path c.size st
      hsize (hok c (List.mem_cons_self _ _))
    simp only [List.length_cons] at hlen
    by_cases hcs : cs = []
    · subst hcs
      obtain ⟨h1, h2, h3⟩ := heq (by simpa using hlen)
      simp [live_feed, boundaries_append, h1, h2, h3, hret, boundaries_nil]
    · have hpos : 0 < cs.length := List.length_pos.mpr hcs
      obtain ⟨h1, h2, h3⟩ := hlt (by omega)
      obtain ⟨i1, i2, i3, i4, i5⟩ := ih (live_print_file_entry rn o c.env c.path c.size st).status
        (fun c' hc' => hok c' (List.mem_cons_of_mem _ hc')) hcs (by rw [h3]; omega)
      simp only [live_feed, boundaries_append, h1, i1, i2, i3, i4, i5, h2, hret,
        List.length_cons, List.replicate_succ]
      simp

theorem live_feed_append (rn : Int → Int → Int) (o : program_options)
    (a b : List live_call) :
    ∀ st : live_status,
      (live_feed rn o st (a ++ b)).status =
        (live_feed rn o (live_feed rn o st a).status b).status ∧
      (live_feed rn o st (a ++ b)).indices =
        (live_feed rn o st a).indices ++ (live_feed rn o (live_feed rn o st a).status b).indices := by
  induction a with
  | nil => intro st; simp [live_feed]
  | cons c cs ih =>
    intro st
    obtain ⟨h1, h2⟩ := ih (live_print_file_entry rn o c.env c.path c.size st).status
    simp [live_feed, h1, h2]

theorem round_num_one (x : Int) : round_num x 1 = x := by
  simp [round_num]

/-! ## Facts about the traversal engine -/

theorem handle_file_entry_handled (rn : Int → Int → Int) (o : program_options)
    (e : handle_env) (g : prog_state) (path : String) (size : Int) :
    (handle_file_entry rn o e g path size).2.handled = g.handled ++ [(path, size)] := by
  unfold handle_file_entry
  split_ifs <;> rfl

theorem add_file_entry_ok (rn : Int → Int → Int) (o : program_options) (e : add_env)
    (head : Option Nat) (heap : List file_entry) (path : String) (size : Int)
    (h1 : e.malloc_entry_ok = true) (h2 : e.malloc_path_ok = true) :
    (add_file_entry rn o e head heap path size).ret = 0 := by
  simp [add_file_entry, h1, h2]

theorem handle_file_entry_ok (rn : Int → Int → Int) (o : program_options)
    (e : handle_env) (g : prog_state) (path : String) (size : Int)
    (hl : live_env_ok e.live) (h1 : e.add.malloc_entry_ok = true)
    (h2 : e.add.malloc_path_ok = true) :
    (handle_file_entry rn o e g path size).1 = 0 := by
  unfold handle_file_entry
  split_ifs
  · exact live_print_file_entry_ok rn o e.live path size g.live hl
  · exact add_file_entry_ok rn o e.add g.head g.heap path size h1 h2

theorem dir_addme_rules_spec (o : program_options) (s : walk_state) :
    (dir_addme_rules o s).curdir_addme =
      (s.curdir_addme || o.dirs_only || (o.leaf_dirs && !s.curdir_dirsfound) ||
        (decide (o.dirs_include ≥ OPT_EMPTYDIRS) && s.curdir_empty) ||
        decide (o.dirs_include ≥ OPT_ALLDIRS)) ∧
    (dir_addme_rules o s).curdir_empty = (s.curdir_empty || forced_by_alldirs o s) ∧
    (dir_addme_rules o s).curdir_dirsfound = s.curdir_dirsfound ∧
    (dir_addme_rules o s).curdir_size = s.curdir_size ∧
    (dir_addme_rules o s).file_as_argument = s.file_as_argument ∧
    (dir_addme_rules o s).count = s.count ∧
    (dir_addme_rules o s).prog = s.prog := by
  unfold dir_addme_rules forced_by_alldirs
  by_cases hE : o.dirs_include ≥ OPT_EMPTYDIRS <;> by_cases hA : o.dirs_include ≥ OPT_ALLDIRS <;>
  cases hd : o.dirs_only <;> cases hl : o.leaf_dirs <;> cases hf : s.curdir_dirsfound <;>
  cases hm : s.curdir_empty <;> cases ha : s.curdir_addme <;>
  simp [hE, hA, hd, hl, hf, hm, ha]

theorem adapt_curdir_size_eq (o : program_options) (p : FTSENT) (s : walk_state) :
    adapt_curdir_size o p (dir_addme_rules o s) = dir_size_by_priority o p s := by
  obtain ⟨_, h2, h3, h4, _⟩ := dir_addme_rules_spec o s
  unfold adapt_curdir_size dir_size_by_priority
  rw [h2, h3, h4]
  generalize forced_by_alldirs o s = fo
  by_cases hx : p.fts_level > 0 <;>
  cases hd : o.dirs_only <;> cases hl : o.leaf_dirs <;> cases hf : s.curdir_dirsfound <;>
  cases hm : s.curdir_empty <;> cases fo <;> cases hc : o.no_cross_fs_boundaries <;>
  cases hv : p.dev_differs <;> simp [hx]

/-- The calls of `handle_file_entry` made from the label `add_directory`, when
the path buffer can be allocated. -/
theorem add_directory_handled (rn : Int → Int → Int) (o : program_options)
    (e : walk_env) (p : FTSENT) (s : walk_state) (hmalloc : e.malloc_path_ok = true) :
    (add_directory rn o e p s).state.prog.handled =
      if p.valid_file1 = true ∧
          (s.curdir_addme = true ∨ o.dirs_only = true ∨
            (o.leaf_dirs = true ∧ s.curdir_dirsfound = false) ∨
            (o.dirs_include ≥ OPT_EMPTYDIRS ∧ s.curdir_empty = true) ∨
            o.dirs_include ≥ OPT_ALLDIRS) then
        s.prog.handled ++ [(curdir_entry_path o p, dir_size_by_priority o p s)]
      else s.prog.handled := by
  obtain ⟨h1, _, _, _, _, _, h7⟩ := dir_addme_rules_spec o s
  have hadd : (dir_addme_rules o s).curdir_addme = true ↔
      (s.curdir_addme = true ∨ o.dirs_only = true ∨
        (o.leaf_dirs = true ∧ s.curdir_dirsfound = false) ∨
        (o.dirs_include ≥ OPT_EMPTYDIRS ∧ s.curdir_empty = true) ∨
        o.dirs_include ≥ OPT_ALLDIRS) := by
    rw [h1]; simp [or_assoc]
  unfold add_directory
  simp only
  by_cases ha : (dir_addme_rules o s).curdir_addme = true
  · rw [if_pos ha]
    by_cases hv : p.valid_file1 = true
    · have hc := hadd.mp ha
      simp only [hv, hmalloc, hc, and_self, if_true, not_true_eq_false, if_false]
      split_ifs <;>
        simp [reset_directory, handle_file_entry_handled, h7, adapt_curdir_size_eq]
    · rw [if_pos hv, if_neg (fun h => hv h.1)]
      simp [reset_directory, h7]
  · rw [if_neg ha, if_neg (fun h => ha (hadd.mpr h.2))]
    simp [reset_directory, h7]

/-- Without the assumption on the allocation: from the label `add_directory`
either nothing is passed to `handle_file_entry`, or the directory is, with the
size given by the priority rules. -/
theorem add_directory_handled_cases (rn : Int → Int → Int) (o : program_options)
    (e : walk_env) (p : FTSENT) (s : walk_state) :
    (add_directory rn o e p s).state.prog.handled = s.prog.handled ∨
    (add_directory rn o e p s).state.prog.handled =
      s.prog.handled ++ [(curdir_entry_path o p, dir_size_by_priority o p s)] := by
  by_cases hmalloc : e.malloc_path_ok = true
  · rw [add_directory_handled rn o e p s hmalloc]
    split_ifs
    · exact Or.inr rfl
    · exact Or.inl rfl
  · left
    obtain ⟨_, _, _, _, _, _, h7⟩ := dir_addme_rules_spec o s
    unfold add_directory
    simp only
    split_ifs <;> simp [reset_directory, h7]

theorem add_directory_file_as_argument (rn : Int → Int → Int) (o : program_options)
    (e : walk_env) (p : FTSENT) (s : walk_state) :
    (add_directory rn o e p s).state.file_as_argument = s.file_as_argument := by
  obtain ⟨_, _, _, _, h5, _, _⟩ := dir_addme_rules_spec o s
  unfold add_directory
  simp only
  split_ifs <;> simp [reset_directory, h5]

theorem file_entry_case_file_as_argument (rn : Int → Int → Int) (o : program_options)
    (e : walk_env) (p : FTSENT) (s : walk_state) :
    (file_entry_case rn o e p s).state.file_as_argument = s.file_as_argument := by
  unfold file_entry_case
  simp only
  split_ifs <;> rfl

/-- `file_as_argument` is cleared by `FTS_D` and by nothing else. -/
theorem fts_step_file_as_argument (rn : Int → Int → Int) (o : program_options)
    (e : walk_env) (p : FTSENT) (s : walk_state) :
    (fts_step rn o e p s).state.file_as_argument =
      (s.file_as_argument && decide (p.fts_info ≠ fts_info_t.FTS_D)) := by
  unfold fts_step
  cases hp : p.fts_info <;>
    simp [add_directory_file_as_argument, file_entry_case_file_as_argument, enter_directory]
  all_goals split_ifs <;> simp [add_directory_file_as_argument]

theorem fts_loop_file_as_argument (rn : Int → Int → Int) (o : program_options)
    (pre : List (FTSENT × walk_env)) :
    ∀ s : walk_state, (fts_loop rn o s pre).ret = none →
      (fts_loop rn o s pre).state.file_as_argument =
        (s.file_as_argument && pre.all (fun q => decide (q.1.fts_info ≠ fts_info_t.FTS_D))) := by
  induction pre with
  | nil => intro s _; simp [fts_loop]
  | cons q rest ih =>
    intro s h
    unfold fts_loop at h ⊢
    simp only at h ⊢
    cases hr : (fts_step rn o q.2 q.1 s).ret with
    | some v => rw [hr] at h; simp at h; rw [h] at hr; simp at hr
    | none =>
      rw [hr] at h
      simp only at h ⊢
      rw [ih _ h, fts_step_file_as_argument, List.all_cons, Bool.and_assoc]

/-- Entering a directory at which the depth limit is reached. -/
theorem enter_directory_depth_reached (o : program_options) (d : FTSENT) (s : walk_state)
    (hv0 : d.valid_file0 = true) (hreach : dir_depth_reached o d = true) :
    (enter_directory o d s).ret = none ∧ (enter_directory o d s).skip = true ∧
    (enter_directory o d s).state.curdir_addme = true ∧
    (enter_directory o d s).state.curdir_empty = false ∧
    (enter_directory o d s).state.curdir_dirsfound = false ∧
    (enter_directory o d s).state.curdir_size = s.curdir_size ∧
    (enter_directory o d s).state.prog = s.prog := by
  simp [enter_directory, hv0, hreach]

/-! ## Walking a directory tree in dirs-only mode -/

theorem fts_loop_append (rn : Int → Int → Int) (o : program_options)
    (a b : List (FTSENT × walk_env)) :
    ∀ s : walk_state, (fts_loop rn o s a).ret = none →
      fts_loop rn o s (a ++ b) = fts_loop rn o (fts_loop rn o s a).state b := by
  induction a with
  | nil => intro s _; simp [fts_loop]
  | cons q rest ih =>
    intro s h
    simp only [List.cons_append, fts_loop] at h ⊢
    cases hr : (fts_step rn o q.2 q.1 s).ret with
    | some v => rw [hr] at h; simp only at h; rw [h] at hr; cases hr
    | none => rw [hr] at h; simp only at h ⊢; exact ih _ h

theorem files_size_cons (f : fs_file) (fs : List fs_file) :
    files_size (f :: fs) = (if f.valid = true then f.size else 0) + files_size fs := by
  unfold files_size
  by_cases h : f.valid = true <;> simp [List.filter_cons, h]

/-- In dirs-only mode, below a directory, a file is counted in and not added. -/
theorem file_entry_case_dirs_only (rn : Int → Int → Int) (o : program_options)
    (e : walk_env) (level : Int) (f : fs_file) (s : walk_state)
    (hdirs : o.dirs_only = true) (hfaa : s.file_as_argument = false) :
    (fts_step rn o e (file_ent level f) s).ret = none ∧
    (fts_step rn o e (file_ent level f) s).state.curdir_size =
      s.curdir_size + (if f.valid = true then f.size else 0) ∧
    (fts_step rn o e (file_ent level f) s).state.curdir_empty =
      (s.curdir_empty && !f.valid) ∧
    (fts_step rn o e (file_ent level f) s).state.curdir_addme = s.curdir_addme ∧
    (fts_step rn o e (file_ent level f) s).state.prog = s.prog ∧
    (fts_step rn o e (file_ent level f) s).state.file_as_argument = false := by
  have hstep : fts_step rn o e (file_ent level f) s =
      file_entry_case rn o e (file_ent level f) s := by
    unfold fts_step; rfl
  rw [hstep]
  unfold file_entry_case
  cases hv : f.valid <;> simp [file_ent, hv, hdirs, hfaa]

theorem fts_loop_files_dirs_only (rn : Int → Int → Int) (o : program_options)
    (hdirs : o.dirs_only = true) (level : Int) (files : List fs_file) :
    ∀ (es : List (FTSENT × walk_env)) (s : walk_state),
      es.map Prod.fst = files.map (file_ent level) → s.file_as_argument = false →
      (fts_loop rn o s es).ret = none ∧
      (fts_loop rn o s es).state.curdir_size = s.curdir_size + files_size files ∧
      (fts_loop rn o s es).state.curdir_empty =
        (s.curdir_empty && files.all (fun f => !f.valid)) ∧
      (fts_loop rn o s es).state.curdir_addme = s.curdir_addme ∧
      (fts_loop rn o s es).state.prog = s.prog ∧
      (fts_loop rn o s es).state.file_as_argument = false := by
  induction files with
  | nil =>
    intro es s hes hfaa
    have : es = [] := by simpa using hes
    subst this
    simp [fts_loop, files_size, hfaa]
  | cons f fs ih =>
    intro es s hes hfaa
    rw [List.map_cons] at hes
    obtain ⟨q, rest, rfl, hq, hrest⟩ := List.map_eq_cons_iff.mp hes
    obtain ⟨k1, k2, k3, k4, k5, k6⟩ := file_entry_case_dirs_only rn o q.2 level f s hdirs hfaa
    rw [← hq] at k1 k2 k3 k4 k5 k6
    obtain ⟨i1, i2, i3, i4, i5, i6⟩ := ih rest (fts_step rn o q.2 q.1 s).state hrest k6
    have hloop : fts_loop rn o s (q :: rest) =
        fts_loop rn o (fts_step rn o q.2 q.1 s).state rest := by
      simp only [fts_loop, k1]
    rw [hloop, files_size_cons]
    refine ⟨i1, ?_, ?_, i4.trans k4, i5.trans k5, i6⟩
    · rw [i2, k2]; ring
    · rw [i3, k3, List.all_cons, Bool.and_assoc]

theorem files_size_of_none_valid (files : List fs_file)
    (h : files.all (fun f => !f.valid) = true) : files_size files = 0 := by
  induction files with
  | nil => rfl
  | cons f fs ih =>
    rw [List.all_cons, Bool.and_eq_true] at h
    rw [files_size_cons, ih h.2]
    have : f.valid = false := by simpa using h.1
    simp [this]

/-- From the label `add_directory` when nothing fails: the loop goes on and
the state of the parent directory is reset. -/
theorem add_directory_ok (rn : Int → Int → Int) (o : program_options) (e : walk_env)
    (p : FTSENT) (s : walk_state) (hok : walk_env_ok e) :
    (add_directory rn o e p s).ret = none ∧
    (add_directory rn o e p s).state.curdir_size = 0 ∧
    (add_directory rn o e p s).state.curdir_addme = false ∧
    (add_directory rn o e p s).state.curdir_empty = false ∧
    (add_directory rn o e p s).state.curdir_dirsfound = true ∧
    (add_directory rn o e p s).state.file_as_argument = s.file_as_argument := by
  obtain ⟨hm, hl, ha1, ha2⟩ := hok
  obtain ⟨_, _, _, _, h5, _, _⟩ := dir_addme_rules_spec o s
  unfold add_directory
  simp only
  have hh : ∀ g path size, (handle_file_entry rn o e.handle g path size).1 = 0 :=
    fun g path size => handle_file_entry_ok rn o e.handle g path size hl ha1 ha2
  split_ifs <;> simp_all [reset_directory]

/-- Entering a directory when no depth limit is configured. -/
theorem enter_directory_no_depth (o : program_options) (d : FTSENT) (s : walk_state)
    (hdepth : o.dir_depth = OPT_NODIRDEPTH) :
    (enter_directory o d s).ret = none ∧
    (enter_directory o d s).state.curdir_size = s.curdir_size ∧
    (enter_directory o d s).state.curdir_addme = s.curdir_addme ∧
    (enter_directory o d s).state.curdir_empty = true ∧
    (enter_directory o d s).state.file_as_argument = false ∧
    (enter_directory o d s).state.prog = s.prog := by
  have hreach : dir_depth_reached o d = false := by simp [dir_depth_reached, hdepth]
  unfold enter_directory
  simp only [hreach, Bool.false_eq_true, if_false]
  split_ifs <;> simp

/-- In dirs-only mode a directory on the device of its parent is added with
0 when it is empty and with the accumulated size otherwise. -/
theorem dir_size_by_priority_dirs_only (o : program_options) (p : FTSENT) (s : walk_state)
    (hdirs : o.dirs_only = true) (hdev : p.dev_differs = false) :
    dir_size_by_priority o p s = if s.curdir_empty = true then 0 else s.curdir_size := by
  simp [dir_size_by_priority, forced_by_alldirs, hdirs, hdev]

theorem fts_loop_dirs_only_walk (rn : Int → Int → Int) (o : program_options)
    (hdirs : o.dirs_only = true) (hdepth : o.dir_depth = OPT_NODIRDEPTH) (t : fs_dirs) :
    ∀ (level : Int) (es : List (FTSENT × walk_env)) (s : walk_state),
      es.map Prod.fst = dirsfirst_walk o level t → (∀ q ∈ es, walk_env_ok q.2) →
      s.curdir_size = 0 → s.curdir_addme = false →
      (fts_loop rn o s es).ret = none ∧
      (fts_loop rn o s es).state.prog.handled = s.prog.handled ++ direct_sizes o level t ∧
      (fts_loop rn o s es).state.curdir_size = 0 ∧
      (fts_loop rn o s es).state.curdir_addme = false ∧
      (s.file_as_argument = false → (fts_loop rn o s es).state.file_as_argument = false) := by
  induction t with
  | nil =>
    intro level es s hes _ hsize haddme
    have : es = [] := by simpa [dirsfirst_walk] using hes
    subst this
    simp [fts_loop, direct_sizes, hsize, haddme]
  | cons path size valid0 valid1 files subdirs next ihsub ihnext =>
    intro level es s hes hok hsize haddme
    have hskip : skip_requested o (dir_ent fts_info_t.FTS_D level path size valid0 valid1)
        = !valid0 := by
      simp [skip_requested, dir_depth_reached, hdepth, dir_ent]
    simp only [dirsfirst_walk, hskip, List.cons_append] at hes
    obtain ⟨qD, rest, rfl, hqD, hrest⟩ := List.map_eq_cons_iff.mp hes
    obtain ⟨esBody, rest2, rfl, hbody, hrest2⟩ := List.map_eq_append_iff.mp hrest
    obtain ⟨qDP, esNext, rfl, hqDP, hnext⟩ := List.map_eq_cons_iff.mp hrest2
    -- the directory in pre-order
    have hstepD : fts_step rn o qD.2 qD.1 s = enter_directory o qD.1 s := by
      unfold fts_step; rw [hqD]; rfl
    obtain ⟨d1, d2, d3, d4, d5, d6⟩ := enter_directory_no_depth o qD.1 s hdepth
    rw [← hstepD] at d1 d2 d3 d4 d5 d6
    have hloopD : ∀ l, fts_loop rn o s (qD :: l) =
        fts_loop rn o (fts_step rn o qD.2 qD.1 s).state l := by
      intro l; simp only [fts_loop, d1]
    -- the body: sub-directories, then files
    have hbodyrun :
        (fts_loop rn o (fts_step rn o qD.2 qD.1 s).state esBody).ret = none ∧
        (fts_loop rn o (fts_step rn o qD.2 qD.1 s).state esBody).state.prog.handled =
          s.prog.handled ++ (if valid0 = true then direct_sizes o (level + 1) subdirs else []) ∧
        (fts_loop rn o (fts_step rn o qD.2 qD.1 s).state esBody).state.curdir_addme = false ∧
        (fts_loop rn o (fts_step rn o qD.2 qD.1 s).state esBody).state.file_as_argument = false ∧
        (if (fts_loop rn o (fts_step rn o qD.2 qD.1 s).state esBody).state.curdir_empty = true
          then 0
          else (fts_loop rn o (fts_step rn o qD.2 qD.1 s).state esBody).state.curdir_size) =
          (if valid0 = true then files_size files else 0) := by
      cases hv0 : valid0 with
      | false =>
        rw [hv0] at hbody
        have : esBody = [] := by simpa using hbody
        subst this
        simp [fts_loop, d1, d3, d4, d5, d6, haddme]
      | true =>
        rw [hv0] at hbody
        simp only [Bool.not_true, Bool.false_eq_true, if_false] at hbody
        obtain ⟨esSub, esFiles, rfl, hsub, hfiles⟩ := List.map_eq_append_iff.mp hbody
        obtain ⟨s1, s2, s3, s4, s5⟩ := ihsub (level + 1) esSub (fts_step rn o qD.2 qD.1 s).state
          hsub
          (fun q hq => hok q (by simp [hq]))
          (by rw [d2, hsize]) (by rw [d3, haddme])
        obtain ⟨f1, f2, f3, f4, f5, f6⟩ := fts_loop_files_dirs_only rn o hdirs (level + 1) files
          esFiles (fts_loop rn o (fts_step rn o qD.2 qD.1 s).state esSub).state hfiles (s5 d5)
        rw [fts_loop_append rn o esSub esFiles _ s1]
        refine ⟨f1, ?_, f4.trans s4, f6, ?_⟩
        · rw [f5, s2, d6]; simp
        · rw [f2, f3, s3, zero_add]
          simp only [if_true]
          split_ifs with hE
          · rw [Bool.and_eq_true] at hE
            exact (files_size_of_none_valid files hE.2).symm
          · rfl
    obtain ⟨b1, b2, b3, b4, b5⟩ := hbodyrun
    -- the directory in post-order
    have hokDP : walk_env_ok qDP.2 := hok qDP (by simp)
    have hstepDP : ∀ s', fts_step rn o qDP.2 qDP.1 s' = add_directory rn o qDP.2 qDP.1 s' := by
      intro s'; unfold fts_step; rw [hqDP]; rfl
    obtain ⟨p1, p2, p3, _, _, p6⟩ := add_directory_ok rn o qDP.2 qDP.1
      (fts_loop rn o (fts_step rn o qD.2 qD.1 s).state esBody).state hokDP
    have p7 := add_directory_handled rn o qDP.2 qDP.1
      (fts_loop rn o (fts_step rn o qD.2 qD.1 s).state esBody).state hokDP.1
    rw [dir_size_by_priority_dirs_only o qDP.1 _ hdirs (by rw [hqDP]; rfl), b5, b2] at p7
    have hv1 : qDP.1.valid_file1 = valid1 := by rw [hqDP]; rfl
    simp only [hv1, hdirs, true_or, or_true, and_true] at p7
    -- the siblings that follow
    obtain ⟨n1, n2, n3, n4, n5⟩ := ihnext level esNext
      (add_directory rn o qDP.2 qDP.1
        (fts_loop rn o (fts_step rn o qD.2 qD.1 s).state esBody).state).state
      hnext (fun q hq => hok q (by simp [hq])) p2 p3
    have hrun : fts_loop rn o s (qD :: (esBody ++ qDP :: esNext)) =
        fts_loop rn o (add_directory rn o qDP.2 qDP.1
          (fts_loop rn o (fts_step rn o qD.2 qD.1 s).state esBody).state).state esNext := by
      rw [hloopD, fts_loop_append rn o esBody (qDP :: esNext) _ b1]
      simp only [fts_loop, hstepDP, p1]
    rw [hrun]
    refine ⟨n1, ?_, n3, n4, fun _ => n5 (p6.trans b4)⟩
    rw [n2, p7, hqDP]
    simp only [direct_sizes]
    cases valid1 <;> simp

/-! ## The list of file entries -/

theorem add_file_entry_ret (rn : Int → Int → Int) (o : program_options) (e : add_env)
    (head : Option Nat) (heap : List file_entry) (path : String) (size : Int) :
    (add_file_entry rn o e head heap path size).ret = 0 ↔
      (e.malloc_entry_ok = true ∧ e.malloc_path_ok = true) := by
  unfold add_file_entry
  cases h1 : e.malloc_entry_ok <;> cases h2 : e.malloc_path_ok <;> simp

/-- The value of `add_file_entry` when both allocations succeed. -/
theorem add_file_entry_eq (rn : Int → Int → Int) (o : program_options) (e : add_env)
    (head : Option Nat) (heap : List file_entry) (path : String) (size : Int)
    (h1 : e.malloc_entry_ok = true) (h2 : e.malloc_path_ok = true) :
    add_file_entry rn o e head heap path size =
      { ret := 0, head := some heap.length,
        heap :=
          match head with
          | none =>
            heap ++ [{ path := path, size := rn (size + o.overload_size) o.round_size,
                       partition_index := 0, nextp := none, prevp := head }]
          | some a =>
            set_nextp
              (heap ++ [{ path := path, size := rn (size + o.overload_size) o.round_size,
                          partition_index := 0, nextp := none, prevp := head }])
              a (some heap.length) } := by
  unfold add_file_entry
  simp only [h1, h2, not_true_eq_false, if_false]

theorem set_nextp_getElem (heap : List file_entry) (a : Nat) (n : Option Nat) (i : Nat) :
    (set_nextp heap a n)[i]? =
      if i = a then (heap[a]?).map (fun x => { x with nextp := n }) else heap[i]? := by
  unfold set_nextp
  cases h : heap[a]? with
  | none =>
    simp only [Option.map_none']
    split_ifs with hi
    · rw [hi, h]
    · rfl
  | some x =>
    simp only [Option.map_some']
    have hlt : a < heap.length := (List.getElem?_eq_some_iff.mp h).1
    by_cases hi : i = a
    · subst hi
      simp [List.getElem?_set, hlt]
    · have hne : ¬ a = i := fun h' => hi h'.symm
      simp [List.getElem?_set, hi, hne]

theorem set_nextp_length (heap : List file_entry) (a : Nat) (n : Option Nat) :
    (set_nextp heap a n).length = heap.length := by
  unfold set_nextp
  cases heap[a]? <;> simp

theorem add_file_entry_length (rn : Int → Int → Int) (o : program_options) (e : add_env)
    (head : Option Nat) (heap : List file_entry) (path : String) (size : Int)
    (h1 : e.malloc_entry_ok = true) (h2 : e.malloc_path_ok = true) :
    (add_file_entry rn o e head heap path size).heap.length = heap.length + 1 := by
  rw [add_file_entry_eq rn o e head heap path size h1 h2]
  cases head <;> simp [set_nextp_length]

/-- A successful `add_file_entry` keeps the list a proper chain whose last
entry `*head` refers to. -/
theorem add_file_entry_list_inv (rn : Int → Int → Int) (o : program_options) (e : add_env)
    (head : Option Nat) (heap : List file_entry) (path : String) (size : Int)
    (h1 : e.malloc_entry_ok = true) (h2 : e.malloc_path_ok = true)
    (hinv : list_inv head heap) :
    list_inv (add_file_entry rn o e head heap path size).head
      (add_file_entry rn o e head heap path size).heap := by
  obtain ⟨hchain, hhead⟩ := hinv
  have hlen := add_file_entry_length rn o e head heap path size h1 h2
  refine ⟨?_, ?_⟩
  · intro i x hx
    rw [hlen]
    rw [add_file_entry_eq rn o e head heap path size h1 h2] at hx
    by_cases h0 : heap.length = 0
    · -- first entry of the list
      rw [if_pos h0] at hhead
      subst hhead
      have hnil : heap = [] := List.length_eq_zero.mp h0
      subst hnil
      simp only [List.nil_append] at hx
      have hi : i = 0 := by
        by_contra hne
        have : ([{ path := path, size := rn (size + o.overload_size) o.round_size,
                   partition_index := 0, nextp := none, prevp := none }] :
                 List file_entry)[i]? = none := by
          apply List.getElem?_eq_none; simp; omega
        rw [this] at hx; cases hx
      subst hi
      simp at hx
      subst hx
      simp
    · rw [if_neg h0] at hhead
      subst hhead
      simp only at hx
      rw [set_nextp_getElem] at hx
      by_cases hi : i = heap.length - 1
      · rw [if_pos hi] at hx
        have hlt : heap.length - 1 < heap.length := by omega
        rw [List.getElem?_append_left hlt] at hx
        obtain ⟨y, hy, hxy⟩ := Option.map_eq_some'.mp hx
        obtain ⟨hp, _⟩ := hchain _ y hy
        subst hxy
        subst hi
        refine ⟨hp, ?_⟩
        simp only
        rw [if_neg (by omega)]
        congr 1
        omega
      · rw [if_neg hi] at hx
        by_cases hlt : i < heap.length
        · rw [List.getElem?_append_left hlt] at hx
          obtain ⟨hp, hn⟩ := hchain i x hx
          refine ⟨hp, ?_⟩
          rw [hn, if_neg (by omega), if_neg (by omega)]
        · have hge : heap.length ≤ i := by omega
          rw [List.getElem?_append_right hge] at hx
          have hi0 : i - heap.length = 0 := by
            by_contra hne
            have : ([{ path := path, size := rn (size + o.overload_size) o.round_size,
                       partition_index := 0, nextp := none,
                       prevp := some (heap.length - 1) }] :
                     List file_entry)[i - heap.length]? = none := by
              apply List.getElem?_eq_none; simp; omega
            rw [this] at hx; cases hx
          rw [hi0] at hx
          simp at hx
          subst hx
          have hieq : i = heap.length := by omega
          subst hieq
          simp [h0]
  · rw [hlen, if_neg (by omega)]
    rw [add_file_entry_eq rn o e head heap path size h1 h2]
    simp

theorem handle_file_entry_list_inv (rn : Int → Int → Int) (o : program_options)
    (e : handle_env) (g : prog_state) (path : String) (size : Int)
    (hbatch : o.live_mode = false)
    (hret : (handle_file_entry rn o e g path size).1 = 0)
    (hinv : list_inv g.head g.heap) :
    list_inv (handle_file_entry rn o e g path size).2.head
      (handle_file_entry rn o e g path size).2.heap := by
  unfold handle_file_entry at hret ⊢
  simp only [hbatch, Bool.false_eq_true, if_false] at hret ⊢
  obtain ⟨h1, h2⟩ := (add_file_entry_ret rn o e.add g.head g.heap path size).mp hret
  exact add_file_entry_list_inv rn o e.add g.head g.heap path size h1 h2 hinv

/-- An iteration of the loop either goes on or returns 1; when it goes on in
batch mode, the list stays a proper chain whose last entry `*head` refers
to. -/
theorem add_directory_list_inv (rn : Int → Int → Int) (o : program_options)
    (e : walk_env) (p : FTSENT) (s : walk_state) (hbatch : o.live_mode = false) :
    ((add_directory rn o e p s).ret = none ∨ (add_directory rn o e p s).ret = some 1) ∧
    ((add_directory rn o e p s).ret = none → list_inv s.prog.head s.prog.heap →
      list_inv (add_directory rn o e p s).state.prog.head
        (add_directory rn o e p s).state.prog.heap) := by
  obtain ⟨_, _, _, _, _, _, h7⟩ := dir_addme_rules_spec o s
  unfold add_directory
  simp only
  split_ifs with ha hv hm hh <;>
    refine ⟨by simp [reset_directory], fun hret hinv => ?_⟩ <;>
    first
    | (simp at hret; done)
    | (simp only [reset_directory]; rw [← h7] at hinv
       exact handle_file_entry_list_inv rn o e.handle _ _ _ hbatch hh hinv)
    | (simp only [reset_directory]; rw [h7]; exact hinv)

theorem file_entry_case_list_inv (rn : Int → Int → Int) (o : program_options)
    (e : walk_env) (p : FTSENT) (s : walk_state) (hbatch : o.live_mode = false) :
    ((file_entry_case rn o e p s).ret = none ∨ (file_entry_case rn o e p s).ret = some 1) ∧
    ((file_entry_case rn o e p s).ret = none → list_inv s.prog.head s.prog.heap →
      list_inv (file_entry_case rn o e p s).state.prog.head
        (file_entry_case rn o e p s).state.prog.heap) := by
  unfold file_entry_case
  simp only
  split_ifs with hv hs hh <;>
    refine ⟨by simp, fun hret hinv => ?_⟩ <;>
    first
    | (simp at hret; done)
    | exact handle_file_entry_list_inv rn o e.handle _ _ _ hbatch hh hinv
    | exact hinv

theorem fts_step_list_inv (rn : Int → Int → Int) (o : program_options)
    (e : walk_env) (p : FTSENT) (s : walk_state) (hbatch : o.live_mode = false) :
    ((fts_step rn o e p s).ret = none ∨ (fts_step rn o e p s).ret = some 1) ∧
    ((fts_step rn o e p s).ret = none → list_inv s.prog.head s.prog.heap →
      list_inv (fts_step rn o e p s).state.prog.head
        (fts_step rn o e p s).state.prog.heap) := by
  unfold fts_step
  cases hp : p.fts_info <;> simp only
  case FTS_D => unfold enter_directory; simp only; split_ifs <;> simp
  case FTS_DP => exact add_directory_list_inv rn o e p s hbatch
  case FTS_DNR =>
    split_ifs
    · exact add_directory_list_inv rn o e p _ hbatch
    · simp
  case FTS_F => exact file_entry_case_list_inv rn o e p s hbatch
  case FTS_SL => exact file_entry_case_list_inv rn o e p s hbatch
  case FTS_SLNONE => exact file_entry_case_list_inv rn o e p s hbatch
  case FTS_DEFAULT => exact file_entry_case_list_inv rn o e p s hbatch
  all_goals simp

theorem fts_loop_list_inv (rn : Int → Int → Int) (o : program_options)
    (hbatch : o.live_mode = false) (es : List (FTSENT × walk_env)) :
    ∀ s : walk_state,
      ((fts_loop rn o s es).ret = none ∨ (fts_loop rn o s es).ret = some 1) ∧
      ((fts_loop rn o s es).ret = none → list_inv s.prog.head s.prog.heap →
        list_inv (fts_loop rn o s es).state.prog.head
          (fts_loop rn o s es).state.prog.heap) := by
  induction es with
  | nil => intro s; simp [fts_loop]
  | cons q rest ih =>
    intro s
    obtain ⟨hr, hi⟩ := fts_step_list_inv rn o q.2 q.1 s hbatch
    simp only [fts_loop]
    rcases hr with hr | hr
    · simp only [hr]
      obtain ⟨ir, ii⟩ := ih (fts_step rn o q.2 q.1 s).state
      exact ⟨ir, fun h hinv => ii h (hi hr hinv)⟩
    · simp [hr]

theorem list_inv_nil : list_inv none [] := by
  refine ⟨fun i x hx => ?_, rfl⟩
  simp at hx

theorem build_list_inv_aux (rn : Int → Int → Int) (o : program_options)
    (l : List (String × Int)) :
    ∀ acc : Option Nat × List file_entry, list_inv acc.1 acc.2 →
      list_inv (l.foldl (add_step rn o) acc).1 (l.foldl (add_step rn o) acc).2 ∧
      (l.foldl (add_step rn o) acc).2.length = acc.2.length + l.length := by
  induction l with
  | nil => intro acc h; exact ⟨h, rfl⟩
  | cons ps rest ih =>
    intro acc h
    simp only [List.foldl_cons, List.length_cons]
    obtain ⟨i1, i2⟩ := ih (add_step rn o acc ps)
      (add_file_entry_list_inv rn o { malloc_entry_ok := true, malloc_path_ok := true }
        acc.1 acc.2 ps.1 ps.2 rfl rfl h)
    refine ⟨i1, ?_⟩
    rw [i2]
    have := add_file_entry_length rn o { malloc_entry_ok := true, malloc_path_ok := true }
      acc.1 acc.2 ps.1 ps.2 rfl rfl
    simp only [add_step]
    omega

/-- The list built by successful calls of `add_file_entry` is a proper chain
with one entry per call, and `*head` refers to its last entry. -/
theorem build_list_inv (rn : Int → Int → Int) (o : program_options)
    (l : List (String × Int)) :
    list_inv (build_list rn o l).1 (build_list rn o l).2 ∧
    (build_list rn o l).2.length = l.length := by
  have h := build_list_inv_aux rn o l (none, []) list_inv_nil
  simp only [List.length_nil, zero_add] at h
  exact h

theorem proper_chain_getElem (heap : List file_entry) (h : proper_chain heap) (i : Nat)
    (hi : i < heap.length) :
    ∃ x, heap[i]? = some x ∧
      x.prevp = (if i = 0 then none else some (i - 1)) ∧
      x.nextp = (if i + 1 = heap.length then none else some (i + 1)) := by
  have hx : heap[i]? = some heap[i] := List.getElem?_eq_getElem hi
  exact ⟨heap[i], hx, h i _ hx⟩

/-- On a proper chain, fast-forwarding from any entry ends on the last one. -/
theorem fastfw_list_proper_chain (heap : List file_entry) (h : proper_chain heap) :
    ∀ (k i fuel : Nat), i + k + 1 = heap.length → k + 1 ≤ fuel →
      fastfw_list heap fuel (some i) = some (some (heap.length - 1)) := by
  intro k
  induction k with
  | zero =>
    intro i fuel hik hfuel
    obtain ⟨f, rfl⟩ : ∃ f, fuel = f + 1 := ⟨fuel - 1, by omega⟩
    obtain ⟨x, hx, _, hn⟩ := proper_chain_getElem heap h i (by omega)
    rw [if_pos (by omega)] at hn
    simp only [fastfw_list, hx, hn]
    congr 2
    omega
  | succ k ih =>
    intro i fuel hik hfuel
    obtain ⟨f, rfl⟩ : ∃ f, fuel = f + 1 := ⟨fuel - 1, by omega⟩
    obtain ⟨x, hx, _, hn⟩ := proper_chain_getElem heap h i (by omega)
    rw [if_neg (by omega)] at hn
    simp only [fastfw_list, hx, hn]
    exact ih (i + 1) f (by omega) (by omega)

/-- On a proper chain, releasing from the entry at address `i` releases the
entries at `i, i - 1, ..., 0`. -/
theorem free_chain_proper_chain (heap : List file_entry) (h : proper_chain heap) :
    ∀ (i fuel : Nat), i < heap.length → i + 1 ≤ fuel →
      free_chain heap fuel (some i) = some (frees_down (i + 1)) := by
  intro i
  induction i with
  | zero =>
    intro fuel hi hfuel
    obtain ⟨f, rfl⟩ : ∃ f, fuel = f + 1 := ⟨fuel - 1, by omega⟩
    obtain ⟨x, hx, hp, _⟩ := proper_chain_getElem heap h 0 hi
    rw [if_pos rfl] at hp
    simp only [free_chain, hx, hp]
    cases f <;> simp [free_chain, frees_down]
  | succ j ih =>
    intro fuel hi hfuel
    obtain ⟨f, rfl⟩ : ∃ f, fuel = f + 1 := ⟨fuel - 1, by omega⟩
    obtain ⟨x, hx, hp, _⟩ := proper_chain_getElem heap h (j + 1) hi
    rw [if_neg (by omega)] at hp
    simp only [free_chain, hx, hp, Nat.add_sub_cancel]
    rw [ih f (by omega) (by omega)]
    simp [frees_down]

theorem frees_down_mem (n : Nat) :
    ∀ i, (free_event.path i ∈ frees_down n ↔ i < n) ∧
      (free_event.entry i ∈ frees_down n ↔ i < n) := by
  induction n with
  | zero => intro i; simp [frees_down]
  | succ n ih =>
    intro i
    obtain ⟨h1, h2⟩ := ih i
    simp only [frees_down, List.mem_cons, free_event.path.injEq, free_event.entry.injEq,
      h1, h2]
    constructor
    · constructor
      · rintro (h | h | h)
        · omega
        · cases h
        · omega
      · intro h
        by_cases hi : i = n
        · exact Or.inl hi
        · exact Or.inr (Or.inr (by omega))
    · constructor
      · rintro (h | h | h)
        · cases h
        · omega
        · omega
      · intro h
        by_cases hi : i = n
        · exact Or.inr (Or.inl hi)
        · exact Or.inr (Or.inr (by omega))

theorem frees_down_nodup (n : Nat) : (frees_down n).Nodup := by
  induction n with
  | zero => simp [frees_down]
  | succ n ih =>
    obtain ⟨h1, h2⟩ := frees_down_mem n n
    simp only [frees_down, List.nodup_cons, List.mem_cons, h1, h2]
    simp [ih]

/-! ## Decimal representations -/

theorem digitChar_toNat (m : Nat) (h : m < 10) : (Nat.digitChar m).toNat - 48 = m := by
  interval_cases m <;> rfl

theorem toDigitsCore_append (b : Nat) : ∀ (fuel n : Nat) (ds : List Char),
    Nat.toDigitsCore b fuel n ds = Nat.toDigitsCore b fuel n [] ++ ds := by
  intro fuel
  induction fuel with
  | zero => intro n ds; simp [Nat.toDigitsCore]
  | succ f ih =>
    intro n ds
    simp only [Nat.toDigitsCore]
    split_ifs
    · simp
    · rw [ih (n / b) (Nat.digitChar (n % b) :: ds), ih (n / b) [Nat.digitChar (n % b)]]
      simp

theorem foldl_toDigitsCore : ∀ (fuel n : Nat), n < fuel →
    (Nat.toDigitsCore 10 fuel n []).foldl (fun acc c => acc * 10 + (c.toNat - 48)) 0 = n := by
  intro fuel
  induction fuel with
  | zero => intro n h; omega
  | succ f ih =>
    intro n h
    simp only [Nat.toDigitsCore]
    split_ifs with h0
    · have hn : n < 10 := by omega
      simp only [List.foldl, Nat.zero_mul, Nat.zero_add]
      rw [Nat.mod_eq_of_lt hn]
      exact digitChar_toNat n hn
    · rw [toDigitsCore_append]
      have hlt : n / 10 < f := by omega
      rw [List.foldl_append, ih (n / 10) hlt]
      simp only [List.foldl]
      rw [digitChar_toNat (n % 10) (Nat.mod_lt _ (by decide))]
      omega

/-- Two natural numbers with the same decimal representation are equal. -/
theorem toString_nat_inj (a b : Nat) (h : toString a = toString b) : a = b := by
  have h1 : (Nat.toDigits 10 a).asString = (Nat.toDigits 10 b).asString := h
  have h2 : Nat.toDigits 10 a = Nat.toDigits 10 b := by
    have := congrArg String.data h1
    simpa using this
  have ha := foldl_toDigitsCore (a + 1) a (by omega)
  have hb := foldl_toDigitsCore (b + 1) b (by omega)
  unfold Nat.toDigits at h2
  rw [h2] at ha
  omega

theorem string_append_left_cancel (s x y : String) (h : s ++ x = s ++ y) : x = y := by
  have h2 := congrArg String.data h
  simp only [String.data_append, List.append_cancel_left_eq] at h2
  exact String.ext h2

theorem part_filename_inj (t : String) (a b : Nat)
    (h : part_filename t a = part_filename t b) : a = b := by
  unfold part_filename at h
  exact toString_nat_inj a b (string_append_left_cancel _ _ _ h)

/-! ## The offline partition writer -/

theorem fd_table_after_append (a b : List print_event) :
    ∀ table, fd_table_after table (a ++ b) = fd_table_after (fd_table_after table a) b := by
  induction a with
  | nil => intro table; rfl
  | cons ev rest ih =>
    intro table
    cases ev <;> simp only [List.cons_append, fd_table_after, List.append_eq, ih]

theorem file_content_from_append (name : String) (a b : List print_event) :
    ∀ table content, file_content_from name table content (a ++ b) =
      file_content_from name (fd_table_after table a)
        (file_content_from name table content a) b := by
  induction a with
  | nil => intro table content; rfl
  | cons ev rest ih =>
    intro table content
    cases ev <;>
      simp only [List.cons_append, file_content_from, fd_table_after, List.append_eq, ih]

theorem opens_of_append (name : String) (a b : List print_event) :
    opens_of name (a ++ b) = opens_of name a + opens_of name b := by
  induction a with
  | nil => simp [opens_of]
  | cons ev rest ih =>
    cases ev <;> simp only [List.cons_append, opens_of, List.append_eq, ih]
    omega

theorem open_after_append (a b : List print_event) :
    ∀ opened opened', open_after opened a = some opened' →
      open_after opened (a ++ b) = open_after opened' b := by
  induction a with
  | nil => intro opened opened' h; simp [open_after] at h; subst h; rfl
  | cons ev rest ih =>
    intro opened opened' h
    cases ev <;> simp only [List.cons_append, open_after, List.append_eq] at h ⊢
    case close p =>
      split_ifs at h ⊢ with hp
      · exact ih _ _ h
    all_goals exact ih _ _ h

theorem parts_from_mem (n : Nat) : ∀ s i, i ∈ parts_from s n ↔ s ≤ i ∧ i < s + n := by
  induction n with
  | zero => intro s i; simp [parts_from]
  | succ n ih =>
    intro s i
    simp only [parts_from, List.mem_cons, ih]
    omega

theorem parts_from_getElem (n : Nat) : ∀ s i, i < n → (parts_from s n)[i]? = some (s + i) := by
  induction n with
  | zero => intro s i h; omega
  | succ n ih =>
    intro s i h
    cases i with
    | zero => simp [parts_from]
    | succ i =>
      simp only [parts_from, List.getElem?_cons_succ]
      rw [ih (s + 1) i (by omega)]
      congr 1
      omega

theorem parts_from_succ_right (n : Nat) :
    ∀ s, parts_from s (n + 1) = parts_from s n ++ [s + n] := by
  induction n with
  | zero => intro s; simp [parts_from]
  | succ n ih =>
    intro s
    rw [parts_from, ih (s + 1)]
    simp only [parts_from, List.cons_append]
    congr 3
    omega

/-- Closing the open descriptors, in order, leaves none open. -/
theorem open_after_close_all (l : List Nat) (rest : List print_event) :
    open_after l (l.map print_event.close ++ rest) = open_after [] rest := by
  induction l with
  | nil => rfl
  | cons p l ih =>
    simp only [List.map_cons, List.cons_append, open_after, List.mem_cons, true_or, if_true,
      List.erase_cons_head]
    exact ih

/-- Opening the files of the partitions `s, ..., s + n - 1`. -/
theorem opens_parts_from (template : String) (n : Nat) :
    ∀ s,
      (∀ i table content,
        file_content_from (part_filename template i) table content
          ((parts_from s n).map (fun p => print_event.open_part p (part_filename template p)))
          = if s ≤ i ∧ i < s + n then "" else content) ∧
      (∀ i,
        opens_of (part_filename template i)
          ((parts_from s n).map (fun p => print_event.open_part p (part_filename template p)))
          = if s ≤ i ∧ i < s + n then 1 else 0) ∧
      (∀ opened,
        open_after opened
          ((parts_from s n).map (fun p => print_event.open_part p (part_filename template p)))
          = some (opened ++ parts_from s n)) ∧
      (∀ ev ∈ (parts_from s n).map
          (fun p => print_event.open_part p (part_filename template p)),
        is_failure ev = false) := by
  induction n with
  | zero =>
    intro s
    refine ⟨fun i table content => ?_, fun i => ?_, fun opened => ?_, fun ev hev => ?_⟩
    · rw [if_neg (by omega)]; rfl
    · rw [if_neg (by omega)]; rfl
    · simp [parts_from, open_after]
    · simp [parts_from] at hev
  | succ n ih =>
    intro s
    obtain ⟨i1, i2, i3, i4⟩ := ih (s + 1)
    refine ⟨fun i table content => ?_, fun i => ?_, fun opened => ?_, fun ev hev => ?_⟩
    · simp only [parts_from, List.map_cons, file_content_from, i1]
      by_cases h1 : s = i
      · subst h1; simp
      · rw [if_neg (fun h => h1 (part_filename_inj template _ _ h))]
        congr 1
        apply propext
        omega
    · simp only [parts_from, List.map_cons, opens_of, i2]
      by_cases h1 : s = i
      · subst h1; simp
      · rw [if_neg (fun h => h1 (part_filename_inj template _ _ h))]
        have : (s + 1 ≤ i ∧ i < s + 1 + n) ↔ (s ≤ i ∧ i < s + (n + 1)) := by omega
        simp only [this]
        omega
    · simp only [parts_from, List.map_cons, open_after, i3]
      simp
    · simp only [parts_from, List.map_cons, List.mem_cons] at hev
      rcases hev with rfl | hev
      · rfl
      · exact i4 ev hev

/-- The descriptors after opening the files of the partitions
`s, ..., s + n - 1`: each is open on the file of its partition. -/
theorem fd_table_after_opens (template : String) (n : Nat) :
    ∀ s table,
      fd_table_after table
        ((parts_from s n).map (fun p => print_event.open_part p (part_filename template p)))
        = fun q => if s ≤ q ∧ q < s + n then some (part_filename template q) else table q := by
  induction n with
  | zero =>
    intro s table
    funext q
    rw [if_neg (by omega)]
    rfl
  | succ n ih =>
    intro s table
    simp only [parts_from, List.map_cons, fd_table_after, ih]
    funext q
    by_cases h1 : q = s
    · subst h1
      simp
    · simp only [h1, if_false]
      have : (s + 1 ≤ q ∧ q < s + 1 + n) ↔ (s ≤ q ∧ q < s + (n + 1)) := by omega
      simp only [this]

/-- The descriptors after closing those of a list. -/
theorem fd_table_after_closes (l : List Nat) :
    ∀ table, fd_table_after table (l.map print_event.close) =
      fun q => if q ∈ l then none else table q := by
  induction l with
  | nil => intro table; funext q; simp [fd_table_after]
  | cons p l ih =>
    intro table
    simp only [List.map_cons, fd_table_after, ih]
    funext q
    by_cases h1 : q = p
    · subst h1
      simp
    · simp [h1]

theorem mod_in_chunk (chunks chunk x : Nat) (h1 : chunk * chunks ≤ x)
    (h2 : x < (chunk + 1) * chunks) :
    x % chunks < chunks ∧ chunk * chunks + x % chunks = x := by
  have hr : x = (x - chunk * chunks) + chunk * chunks := by omega
  have hlt : x - chunk * chunks < chunks := by
    have : (chunk + 1) * chunks = chunk * chunks + chunks := by ring
    omega
  have hmod : x % chunks = x - chunk * chunks := by
    conv_lhs => rw [hr]
    rw [Nat.add_mul_mod_self_right, Nat.mod_eq_of_lt hlt]
  rw [hmod]
  exact ⟨hlt, by omega⟩

/-- The descriptors opened for a batch, whatever the system answers. -/
theorem open_batch_spec (e : print_env) (template : String) (chunks num_parts chunk : Nat) :
    ∀ (rest k : Nat) (fds : List Nat),
      ((open_batch e template chunks num_parts chunk rest k fds).1 = true →
        (open_batch e template chunks num_parts chunk rest k fds).2.1 =
          fds ++ parts_from (chunk * chunks + k)
            (min rest (num_parts - (chunk * chunks + k))) ∧
        (open_batch e template chunks num_parts chunk rest k fds).2.2 =
          (parts_from (chunk * chunks + k)
            (min rest (num_parts - (chunk * chunks + k)))).map
            (fun p => print_event.open_part p (part_filename template p))) ∧
      ((open_batch e template chunks num_parts chunk rest k fds).1 = false →
        open_after fds (open_batch e template chunks num_parts chunk rest k fds).2.2
          = some []) := by
  intro rest
  induction rest with
  | zero =>
    intro k fds
    simp [open_batch, parts_from]
  | succ rest ih =>
    intro k fds
    unfold open_batch
    by_cases hlt : chunk * chunks + k < num_parts
    · rw [if_pos hlt]
      by_cases hm : e.malloc_ok (chunk * chunks + k) = true
      · rw [if_neg (by simp [hm])]
        by_cases ho : e.open_ok (chunk * chunks + k) = true
        · rw [if_neg (by simp [ho])]
          obtain ⟨i1, i2⟩ := ih (k + 1) (fds ++ [chunk * chunks + k])
          have hmin : min (rest + 1) (num_parts - (chunk * chunks + k)) =
              min rest (num_parts - (chunk * chunks + (k + 1))) + 1 := by omega
          constructor
          · intro h
            obtain ⟨j1, j2⟩ := i1 h
            simp only
            rw [hmin, parts_from, j1, j2]
            simp only [List.append_assoc, List.singleton_append, List.map_cons]
            exact ⟨rfl, rfl⟩
          · intro h
            simp only [open_after]
            exact i2 h
        · rw [if_pos (by simp [ho])]
          refine ⟨fun h => by simp at h, fun _ => ?_⟩
          simp only [open_after]
          have := open_after_close_all fds []
          simpa using this
      · rw [if_pos (by simp [hm])]
        refine ⟨fun h => by simp at h, fun _ => ?_⟩
        have := open_after_close_all fds []
        simpa using this
    · rw [if_neg hlt]
      have hmin : min (rest + 1) (num_parts - (chunk * chunks + k)) = 0 := by omega
      simp [hmin, parts_from]

theorem open_batch_ok (e : print_env) (template : String) (chunks num_parts chunk : Nat)
    (hm : ∀ p, e.malloc_ok p = true) (ho : ∀ p, e.open_ok p = true) :
    ∀ (rest k : Nat) (fds : List Nat),
      (open_batch e template chunks num_parts chunk rest k fds).1 = true := by
  intro rest
  induction rest with
  | zero => intro k fds; rfl
  | succ rest ih =>
    intro k fds
    unfold open_batch
    simp only [hm, ho, not_true_eq_false, if_false]
    split_ifs
    · exact ih _ _
    · rfl

/-- Closing the descriptors of a batch that was opened completely. -/
theorem close_batch_spec (chunks num_parts chunk : Nat) (fds : List Nat)
    (hfds : ∀ i, i < chunks → chunk * chunks + i < num_parts →
      fds[i]? = some (chunk * chunks + i)) :
    ∀ (rest i : Nat), rest + i = chunks →
      close_batch chunks num_parts chunk fds rest i =
        some ((parts_from (chunk * chunks + i)
          (min rest (num_parts - (chunk * chunks + i)))).map print_event.close) := by
  intro rest
  induction rest with
  | zero => intro i _; simp [close_batch, parts_from]
  | succ rest ih =>
    intro i hi
    unfold close_batch
    by_cases hlt : chunk * chunks + i < num_parts
    · rw [if_pos hlt, hfds i (by omega) hlt]
      simp only
      rw [ih (i + 1) (by omega)]
      have hmin : min (rest + 1) (num_parts - (chunk * chunks + i)) =
          min rest (num_parts - (chunk * chunks + (i + 1))) + 1 := by omega
      rw [hmin, parts_from]
      rfl
    · rw [if_neg hlt]
      have hmin : min (rest + 1) (num_parts - (chunk * chunks + i)) = 0 := by omega
      simp [hmin, parts_from]

/-- Events that only close descriptors change no file and report no failure. -/
theorem closes_neutral (l : List Nat) :
    (∀ name table content,
      file_content_from name table content (l.map print_event.close) = content) ∧
    (∀ name, opens_of name (l.map print_event.close) = 0) ∧
    (∀ ev ∈ l.map print_event.close, is_failure ev = false) := by
  induction l with
  | nil =>
    refine ⟨fun _ _ _ => rfl, fun _ => rfl, fun ev hev => ?_⟩
    simp at hev
  | cons p l ih =>
    obtain ⟨i1, i2, i3⟩ := ih
    refine ⟨fun name table content => ?_, fun name => ?_, fun ev hev => ?_⟩
    · simp only [List.map_cons, file_content_from, i1]
    · simp only [List.map_cons, opens_of, i2]
    · simp only [List.map_cons, List.mem_cons] at hev
      rcases hev with rfl | hev
      · rfl
      · exact i3 ev hev

/-- The write loop of a batch opens and closes nothing, and a loop that ends
without a short write reports no failure. -/
theorem write_batch_any (o : program_options) (e : print_env) (chunks chunk : Nat)
    (fds : List Nat) (heap : List file_entry) :
    ∀ (fuel j : Nat) (p : Option Nat) (w : Bool × List print_event),
      write_batch o e chunks chunk fds heap fuel j p = some w →
      (∀ opened, open_after opened w.2 = some opened) ∧
      (∀ name, opens_of name w.2 = 0) ∧
      (w.1 = true → ∀ ev ∈ w.2, is_failure ev = false) := by
  intro fuel
  induction fuel with
  | zero =>
    intro j p w h
    cases p with
    | none =>
      simp only [write_batch, Option.some.injEq] at h
      subst h
      simp [open_after, opens_of]
    | some a => simp [write_batch] at h
  | succ fuel ih =>
    intro j p w h
    cases p with
    | none =>
      simp only [write_batch, Option.some.injEq] at h
      subst h
      simp [open_after, opens_of]
    | some a =>
      unfold write_batch at h
      cases hx : heap[a]? with
      | none => rw [hx] at h; simp at h
      | some x =>
        rw [hx] at h
        simp only at h
        by_cases hin : chunk * chunks ≤ x.partition_index ∧
            x.partition_index < (chunk + 1) * chunks
        · rw [if_pos hin] at h
          cases hf : fds[x.partition_index % chunks]? with
          | none => rw [hf] at h; simp at h
          | some part =>
            rw [hf] at h
            simp only at h
            by_cases h1 : e.write_path_ok j = true
            · rw [if_neg (by simp [h1])] at h
              by_cases h2 : e.write_term_ok j = true
              · rw [if_neg (by simp [h2])] at h
                obtain ⟨w', hw', hww⟩ := Option.map_eq_some'.mp h
                obtain ⟨i1, i2, i3⟩ := ih _ _ _ hw'
                subst hww
                refine ⟨fun opened => ?_, fun part' => ?_, fun ht ev hev => ?_⟩
                · simp only [open_after, i1]
                · simp only [opens_of, i2]
                · simp only [List.mem_cons] at hev
                  rcases hev with rfl | rfl | hev
                  · rfl
                  · rfl
                  · exact i3 ht ev hev
              · rw [if_pos (by simp [h2])] at h
                simp only [Option.some.injEq] at h
                subst h
                simp [open_after, opens_of]
            · rw [if_pos (by simp [h1])] at h
              simp only [Option.some.injEq] at h
              subst h
              simp [open_after, opens_of]
        · rw [if_neg hin] at h
          exact ih _ _ _ h

theorem partition_bytes_of_ge (o : program_options) (num_parts part : Nat)
    (hpart : num_parts ≤ part) (l : List file_entry)
    (hl : ∀ x ∈ l, x.partition_index < num_parts) : partition_bytes o part l = "" := by
  induction l with
  | nil => rfl
  | cons x rest ih =>
    have hx := hl x (List.mem_cons_self _ _)
    simp only [partition_bytes]
    rw [if_neg (by omega)]
    exact ih (fun y hy => hl y (List.mem_cons_of_mem _ hy))

/-- The write loop of a batch opens and closes no descriptor. -/
theorem write_batch_table (o : program_options) (e : print_env) (chunks chunk : Nat)
    (fds : List Nat) (heap : List file_entry) :
    ∀ (fuel j : Nat) (p : Option Nat) (w : Bool × List print_event),
      write_batch o e chunks chunk fds heap fuel j p = some w →
      ∀ table, fd_table_after table w.2 = table := by
  intro fuel
  induction fuel with
  | zero =>
    intro j p w h
    cases p with
    | none =>
      simp only [write_batch, Option.some.injEq] at h
      subst h
      intro table; rfl
    | some a => simp [write_batch] at h
  | succ fuel ih =>
    intro j p w h
    cases p with
    | none =>
      simp only [write_batch, Option.some.injEq] at h
      subst h
      intro table; rfl
    | some a =>
      unfold write_batch at h
      cases hx : heap[a]? with
      | none => rw [hx] at h; simp at h
      | some x =>
        rw [hx] at h
        simp only at h
        by_cases hin : chunk * chunks ≤ x.partition_index ∧
            x.partition_index < (chunk + 1) * chunks
        · rw [if_pos hin] at h
          cases hf : fds[x.partition_index % chunks]? with
          | none => rw [hf] at h; simp at h
          | some part =>
            rw [hf] at h
            simp only at h
            by_cases h1 : e.write_path_ok j = true
            · rw [if_neg (by simp [h1])] at h
              by_cases h2 : e.write_term_ok j = true
              · rw [if_neg (by simp [h2])] at h
                obtain ⟨w', hw', hww⟩ := Option.map_eq_some'.mp h
                have i1 := ih _ _ _ hw'
                subst hww
                intro table
                simp only [fd_table_after, i1]
              · rw [if_pos (by simp [h2])] at h
                simp only [Option.some.injEq] at h
                subst h
                intro table; rfl
            · rw [if_pos (by simp [h1])] at h
              simp only [Option.some.injEq] at h
              subst h
              intro table; rfl
        · rw [if_neg hin] at h
          exact ih _ _ _ h

/-- The write loop of a batch returns, whatever the system answers, when the
list ends, every entry has its partition below `num_parts` and the batch was
opened completely. -/
theorem write_batch_total (o : program_options) (e : print_env) (chunks num_parts chunk : Nat)
    (fds : List Nat) (heap : List file_entry)
    (hfds : ∀ i, i < chunks → chunk * chunks + i < num_parts →
      fds[i]? = some (chunk * chunks + i)) :
    ∀ (fuel j : Nat) (p : Option Nat) (l : List file_entry),
      list_from heap fuel p = some l → (∀ x ∈ l, x.partition_index < num_parts) →
      ∃ w, write_batch o e chunks chunk fds heap fuel j p = some w := by
  intro fuel
  induction fuel with
  | zero =>
    intro j p l h hl
    cases p with
    | none => exact ⟨_, rfl⟩
    | some a => simp [list_from] at h
  | succ fuel ih =>
    intro j p l h hl
    cases p with
    | none => exact ⟨_, rfl⟩
    | some a =>
      unfold list_from at h
      unfold write_batch
      cases hx : heap[a]? with
      | none => rw [hx] at h; simp at h
      | some x =>
        rw [hx] at h
        simp only at h ⊢
        obtain ⟨l', hl', hll⟩ := Option.map_eq_some'.mp h
        subst hll
        have hxN := hl x (List.mem_cons_self _ _)
        obtain ⟨w, hw⟩ := ih (j + 1) x.nextp l' hl'
          (fun y hy => hl y (List.mem_cons_of_mem _ hy))
        by_cases hin : chunk * chunks ≤ x.partition_index ∧
            x.partition_index < (chunk + 1) * chunks
        · rw [if_pos hin]
          obtain ⟨m1, m2⟩ := mod_in_chunk chunks chunk x.partition_index hin.1 hin.2
          rw [hfds _ m1 (by omega), m2]
          simp only
          by_cases h1 : e.write_path_ok j = true
          · rw [if_neg (by simp [h1])]
            by_cases h2 : e.write_term_ok j = true
            · rw [if_neg (by simp [h2]), hw]
              exact ⟨_, rfl⟩
            · rw [if_pos (by simp [h2])]
              exact ⟨_, rfl⟩
          · rw [if_pos (by simp [h1])]
            exact ⟨_, rfl⟩
        · rw [if_neg hin]
          exact ⟨w, hw⟩

/-- The write loop of a batch when no write is short: every entry of the
batch is written, path then terminator, on the descriptor of its partition,
which is open on the file of that partition. -/
theorem write_batch_ok (o : program_options) (e : print_env) (template : String)
    (chunks num_parts chunk : Nat)
    (fds : List Nat) (heap : List file_entry) (table : Nat → Option String)
    (hwp : ∀ j, e.write_path_ok j = true) (hwt : ∀ j, e.write_term_ok j = true)
    (hfds : ∀ i, i < chunks → chunk * chunks + i < num_parts →
      fds[i]? = some (chunk * chunks + i))
    (htable : ∀ p, chunk * chunks ≤ p → p < (chunk + 1) * chunks → p < num_parts →
      table p = some (part_filename template p)) :
    ∀ (fuel j : Nat) (p : Option Nat) (l : List file_entry),
      list_from heap fuel p = some l → (∀ x ∈ l, x.partition_index < num_parts) →
      ∃ evs, write_batch o e chunks chunk fds heap fuel j p = some (true, evs) ∧
        ∀ i content, file_content_from (part_filename template i) table content evs =
          if chunk * chunks ≤ i ∧ i < (chunk + 1) * chunks then
            content ++ partition_bytes o i l
          else content := by
  intro fuel
  induction fuel with
  | zero =>
    intro j p l h hl
    cases p with
    | none =>
      simp only [list_from, Option.some.injEq] at h
      subst h
      refine ⟨[], rfl, fun i content => ?_⟩
      simp [file_content_from, partition_bytes]
    | some a => simp [list_from] at h
  | succ fuel ih =>
    intro j p l h hl
    cases p with
    | none =>
      simp only [list_from, Option.some.injEq] at h
      subst h
      refine ⟨[], rfl, fun i content => ?_⟩
      simp [file_content_from, partition_bytes]
    | some a =>
      unfold list_from at h
      unfold write_batch
      cases hx : heap[a]? with
      | none => rw [hx] at h; simp at h
      | some x =>
        rw [hx] at h
        simp only at h ⊢
        obtain ⟨l', hl', hll⟩ := Option.map_eq_some'.mp h
        subst hll
        have hxN := hl x (List.mem_cons_self _ _)
        obtain ⟨evs, hevs, hcontent⟩ := ih (j + 1) x.nextp l' hl'
          (fun y hy => hl y (List.mem_cons_of_mem _ hy))
        by_cases hin : chunk * chunks ≤ x.partition_index ∧
            x.partition_index < (chunk + 1) * chunks
        · rw [if_pos hin]
          obtain ⟨m1, m2⟩ := mod_in_chunk chunks chunk x.partition_index hin.1 hin.2
          rw [hfds _ m1 (by omega), m2]
          simp only [hwp, hwt, not_true_eq_false, if_false, hevs, Option.map_some']
          refine ⟨_, rfl, fun i content => ?_⟩
          have ht := htable x.partition_index hin.1 hin.2 hxN
          simp only [file_content_from, hcontent, partition_bytes, ht, Option.some.injEq]
          by_cases hp : x.partition_index = i
          · subst hp
            simp only [if_true, hin, and_self, String.append_assoc]
          · rw [if_neg (fun h => hp (part_filename_inj template _ _ h)),
              if_neg (fun h => hp (part_filename_inj template _ _ h)), if_neg hp]
        · rw [if_neg hin]
          refine ⟨evs, hevs, fun i content => ?_⟩
          rw [hcontent]
          simp only [partition_bytes]
          by_cases hp : x.partition_index = i
          · subst hp
            rw [if_neg hin, if_neg hin]
          · rw [if_neg hp]

/-- The descriptors of a batch that was opened completely are those of the
partitions of the batch, in order. -/
theorem batch_fds (chunks num_parts chunk : Nat) :
    ∀ i, i < chunks → chunk * chunks + i < num_parts →
      (parts_from (chunk * chunks + 0)
        (min chunks (num_parts - (chunk * chunks + 0))))[i]? = some (chunk * chunks + i) := by
  intro i h1 h2
  rw [parts_from_getElem _ _ _ (by omega)]
  rfl

/-- After a batch is opened, written and closed no descriptor is open. -/
theorem fd_table_after_batch (template : String) (s n : Nat) (wevs : List print_event)
    (hw : ∀ table, fd_table_after table wevs = table) :
    fd_table_after no_fd
      ((parts_from s n).map (fun p => print_event.open_part p (part_filename template p)) ++
        wevs ++ (parts_from s n).map print_event.close) = no_fd := by
  rw [fd_table_after_append, fd_table_after_append, fd_table_after_opens, hw,
    fd_table_after_closes]
  funext q
  by_cases hq : q ∈ parts_from s n
  · rw [if_pos hq]
    rfl
  · rw [if_neg hq, if_neg (fun h => hq ((parts_from_mem n s q).mpr h))]

/-- The loop over the batches when nothing fails: it returns 0, every file
from batch `chunk` on is opened once and holds the paths of its partition, and
no descriptor is left open. -/
theorem print_batches_ok (o : program_options) (e : print_env) (template : String)
    (chunks num_parts : Nat) (heap : List file_entry) (fuel : Nat) (head : Option Nat)
    (l : List file_entry) (hchunks : 0 < chunks)
    (hm : ∀ p, e.malloc_ok p = true) (ho : ∀ p, e.open_ok p = true)
    (hwp : ∀ j, e.write_path_ok j = true) (hwt : ∀ j, e.write_term_ok j = true)
    (hlist : list_from heap fuel head = some l)
    (hl : ∀ x ∈ l, x.partition_index < num_parts) :
    ∀ (todo chunk : Nat), num_parts - chunk * chunks ≤ todo →
      ∃ r, print_batches o e template chunks num_parts heap fuel head todo chunk = some r ∧
        r.ret = 0 ∧
        (∀ i content, file_content_from (part_filename template i) no_fd content r.out =
          if chunk * chunks ≤ i ∧ i < num_parts then partition_bytes o i l
          else content) ∧
        (∀ i, opens_of (part_filename template i) r.out =
          if chunk * chunks ≤ i ∧ i < num_parts then 1 else 0) ∧
        fd_table_after no_fd r.out = no_fd := by
  intro todo
  induction todo with
  | zero =>
    intro chunk hle
    refine ⟨{ ret := 0, out := [] }, ?_, rfl, fun i content => ?_, fun i => ?_, rfl⟩
    · simp only [print_batches]
      rw [if_neg (by omega)]
    · rw [if_neg (by omega)]; rfl
    · rw [if_neg (by omega)]; rfl
  | succ todo ih =>
    intro chunk hle
    unfold print_batches
    by_cases hlt : chunk * chunks < num_parts
    · rw [if_pos hlt]
      have hopen := open_batch_ok e template chunks num_parts chunk hm ho chunks 0 []
      obtain ⟨hfdsEq, hevsEq⟩ := (open_batch_spec e template chunks num_parts chunk chunks 0 []).1
        hopen
      simp only [List.nil_append] at hfdsEq
      simp only [hopen, not_true_eq_false, if_false]
      rw [hfdsEq, hevsEq]
      have hnext : (chunk + 1) * chunks = chunk * chunks + chunks := by ring
      have htable : ∀ p, chunk * chunks ≤ p → p < (chunk + 1) * chunks → p < num_parts →
          fd_table_after no_fd
            ((parts_from (chunk * chunks + 0)
              (min chunks (num_parts - (chunk * chunks + 0)))).map
              (fun p => print_event.open_part p (part_filename template p))) p
            = some (part_filename template p) := by
        intro p h1 h2 h3
        rw [fd_table_after_opens]
        simp only
        rw [if_pos (by omega)]
      obtain ⟨wevs, hw, hwc⟩ := write_batch_ok o e template chunks num_parts chunk _ heap _
        hwp hwt (batch_fds chunks num_parts chunk) htable fuel 0 head l hlist hl
      rw [hw]
      simp only
      rw [close_batch_spec chunks num_parts chunk _ (batch_fds chunks num_parts chunk)
        chunks 0 (by omega)]
      simp only [not_true_eq_false, if_false]
      obtain ⟨r', hr', hret', hc', ho', ht'⟩ := ih (chunk + 1) (by rw [hnext]; omega)
      rw [hr']
      simp only [Option.map_some']
      obtain ⟨o1, o2, _, _⟩ := opens_parts_from template
        (min chunks (num_parts - (chunk * chunks + 0))) (chunk * chunks + 0)
      obtain ⟨k1, k2, _⟩ := closes_neutral
        (parts_from (chunk * chunks + 0) (min chunks (num_parts - (chunk * chunks + 0))))
      obtain ⟨_, w2, _⟩ := write_batch_any o e chunks chunk _ heap fuel 0 head _ hw
      have wt := write_batch_table o e chunks chunk _ heap fuel 0 head _ hw
      have hbatch := fd_table_after_batch template (chunk * chunks + 0)
        (min chunks (num_parts - (chunk * chunks + 0))) wevs wt
      refine ⟨_, rfl, hret', fun i content => ?_, fun i => ?_, ?_⟩
      · simp only
        rw [file_content_from_append, hbatch, hc', file_content_from_append,
          file_content_from_append, k1, hwc, o1]
        split_ifs <;>
          first
          | rfl
          | (exfalso; omega)
          | rw [String.empty_append]
          | rw [partition_bytes_of_ge o num_parts i (by omega) l hl, String.append_empty]
      · simp only [opens_of_append, o2, w2, k2, ho']
        split_ifs <;> first | rfl | (exfalso; omega)
      · simp only
        rw [fd_table_after_append, hbatch, ht']
    · rw [if_neg hlt]
      refine ⟨{ ret := 0, out := [] }, rfl, rfl, fun i content => ?_, fun i => ?_, rfl⟩
      · rw [if_neg (by omega)]; rfl
      · rw [if_neg (by omega)]; rfl

/-- The loop over the batches returns, whatever the system answers, when the
batch width is positive, the list ends and every entry has its partition below
`num_parts`. -/
theorem print_batches_total (o : program_options) (e : print_env) (template : String)
    (chunks num_parts : Nat) (heap : List file_entry) (fuel : Nat) (head : Option Nat)
    (l : List file_entry) (hchunks : 0 < chunks)
    (hlist : list_from heap fuel head = some l)
    (hl : ∀ x ∈ l, x.partition_index < num_parts) :
    ∀ (todo chunk : Nat), num_parts - chunk * chunks ≤ todo →
      ∃ r, print_batches o e template chunks num_parts heap fuel head todo chunk = some r := by
  intro todo
  induction todo with
  | zero =>
    intro chunk hle
    refine ⟨{ ret := 0, out := [] }, ?_⟩
    simp only [print_batches]
    rw [if_neg (by omega)]
  | succ todo ih =>
    intro chunk hle
    unfold print_batches
    by_cases hlt : chunk * chunks < num_parts
    · rw [if_pos hlt]
      by_cases hopen : (open_batch e template chunks num_parts chunk chunks 0 []).1 = true
      · obtain ⟨hfdsEq, -⟩ :=
          (open_batch_spec e template chunks num_parts chunk chunks 0 []).1 hopen
        simp only [List.nil_append] at hfdsEq
        simp only [hopen, not_true_eq_false, if_false]
        rw [hfdsEq]
        obtain ⟨w, hw⟩ := write_batch_total o e chunks num_parts chunk _ heap
          (batch_fds chunks num_parts chunk) fuel 0 head l hlist hl
        rw [hw]
        simp only
        rw [close_batch_spec chunks num_parts chunk _ (batch_fds chunks num_parts chunk)
          chunks 0 (by omega)]
        simp only
        by_cases hwok : w.1 = true
        · simp only [hwok, not_true_eq_false, if_false]
          have hnext : (chunk + 1) * chunks = chunk * chunks + chunks := by ring
          obtain ⟨r', hr'⟩ := ih (chunk + 1) (by rw [hnext]; omega)
          rw [hr']
          exact ⟨_, rfl⟩
        · have hwf : w.1 = false := by simpa using hwok
          simp only [hwf, Bool.false_eq_true, not_false_eq_true, if_true]
          exact ⟨_, rfl⟩
      · have hfalse : (open_batch e template chunks num_parts chunk chunks 0 []).1 = false := by
          simpa using hopen
        simp only [hfalse, Bool.false_eq_true, not_false_eq_true, if_true]
        exact ⟨_, rfl⟩
    · rw [if_neg hlt]
      exact ⟨_, rfl⟩

/-- The loop over the batches, whatever the system answers: when it returns,
it returns 0 or 1, every descriptor it opened has been closed, exactly once,
and a return of 0 means that no open failed and no write was short. -/
theorem print_batches_closed (o : program_options) (e : print_env) (template : String)
    (chunks num_parts : Nat) (heap : List file_entry) (fuel : Nat) (head : Option Nat) :
    ∀ (todo chunk : Nat) (r : print_result),
      print_batches o e template chunks num_parts heap fuel head todo chunk = some r →
      open_after [] r.out = some [] ∧ (r.ret = 0 ∨ r.ret = 1) ∧
      (r.ret = 0 → ∀ ev ∈ r.out, is_failure ev = false) := by
  intro todo
  induction todo with
  | zero =>
    intro chunk r h
    simp only [print_batches] at h
    split_ifs at h
    simp only [Option.some.injEq] at h
    subst h
    simp [open_after]
  | succ todo ih =>
    intro chunk r h
    unfold print_batches at h
    by_cases hlt : chunk * chunks < num_parts
    · rw [if_pos hlt] at h
      obtain ⟨hs1, hs2⟩ := open_batch_spec e template chunks num_parts chunk chunks 0 []
      by_cases hopen : (open_batch e template chunks num_parts chunk chunks 0 []).1 = true
      · obtain ⟨hfdsEq, hevsEq⟩ := hs1 hopen
        simp only [List.nil_append] at hfdsEq
        simp only [hopen, not_true_eq_false, if_false] at h
        rw [hfdsEq, hevsEq] at h
        cases hw : write_batch o e chunks chunk
            (parts_from (chunk * chunks + 0) (min chunks (num_parts - (chunk * chunks + 0))))
            heap fuel 0 head with
        | none => rw [hw] at h; simp at h
        | some w =>
          rw [hw] at h
          simp only at h
          rw [close_batch_spec chunks num_parts chunk _ (batch_fds chunks num_parts chunk)
            chunks 0 (by omega)] at h
          simp only at h
          obtain ⟨w1, _, w3⟩ := write_batch_any o e chunks chunk _ heap fuel 0 head w hw
          obtain ⟨_, _, o3, o4⟩ := opens_parts_from template
            (min chunks (num_parts - (chunk * chunks + 0))) (chunk * chunks + 0)
          obtain ⟨_, _, k3⟩ := closes_neutral
            (parts_from (chunk * chunks + 0) (min chunks (num_parts - (chunk * chunks + 0))))
          have hseg : ∀ rest : List print_event,
              open_after []
                ((parts_from (chunk * chunks + 0)
                    (min chunks (num_parts - (chunk * chunks + 0)))).map
                    (fun p => print_event.open_part p (part_filename template p)) ++ w.2 ++
                  (parts_from (chunk * chunks + 0)
                    (min chunks (num_parts - (chunk * chunks + 0)))).map print_event.close ++
                  rest) = open_after [] rest := by
            intro rest
            rw [List.append_assoc, List.append_assoc,
              open_after_append _ _ _ _ (o3 []), List.nil_append,
              open_after_append _ _ _ _ (w1 _), open_after_close_all]
          by_cases hwok : w.1 = true
          · simp only [hwok, not_true_eq_false, if_false] at h
            obtain ⟨r', hr', hrr⟩ := Option.map_eq_some'.mp h
            obtain ⟨i1, i2, i3⟩ := ih _ _ hr'
            subst hrr
            refine ⟨?_, i2, fun hret ev hev => ?_⟩
            · simp only
              rw [hseg]
              exact i1
            · simp only [List.mem_append] at hev
              rcases hev with ((hev | hev) | hev) | hev
              · exact o4 ev hev
              · exact w3 hwok ev hev
              · exact k3 ev hev
              · exact i3 hret ev hev
          · have hwf : w.1 = false := by simpa using hwok
            simp only [hwf, Bool.false_eq_true, not_false_eq_true, if_true,
              Option.some.injEq] at h
            subst h
            refine ⟨?_, Or.inr rfl, fun hret => by simp at hret⟩
            have := hseg []
            simpa using this
      · have hfalse : (open_batch e template chunks num_parts chunk chunks 0 []).1 = false := by
          simpa using hopen
        simp only [hfalse, Bool.false_eq_true, not_false_eq_true, if_true,
          Option.some.injEq] at h
        subst h
        exact ⟨hs2 hfalse, Or.inr rfl, fun hret => by simp at hret⟩
    · rw [if_neg hlt] at h
      simp only [Option.some.injEq] at h
      subst h
      simp [open_after]

theorem print_lines_spec (heap : List file_entry) :
    ∀ (fuel : Nat) (p : Option Nat) (l : List file_entry),
      list_from heap fuel p = some l →
      print_lines heap fuel p =
        some (l.map (fun x => print_event.line x.partition_index x.size x.path)) := by
  intro fuel
  induction fuel with
  | zero =>
    intro p l h
    cases p with
    | none => simp only [list_from, Option.some.injEq] at h; subst h; rfl
    | some a => simp [list_from] at h
  | succ fuel ih =>
    intro p l h
    cases p with
    | none => simp only [list_from, Option.some.injEq] at h; subst h; rfl
    | some a =>
      unfold list_from at h
      unfold print_lines
      cases hx : heap[a]? with
      | none => rw [hx] at h; simp at h
      | some x =>
        rw [hx] at h
        simp only at h ⊢
        obtain ⟨l', hl', hll⟩ := Option.map_eq_some'.mp h
        subst hll
        rw [ih _ _ hl']
        rfl

/-- The descriptors of a batch are all opened exactly when every allocation
and every `open(2)` of the batch succeeds. -/
theorem open_batch_true_iff (e : print_env) (template : String)
    (chunks num_parts chunk : Nat) :
    ∀ (rest k : Nat) (fds : List Nat),
      (open_batch e template chunks num_parts chunk rest k fds).1 = true ↔
        ∀ p, chunk * chunks + k ≤ p → p < chunk * chunks + k + rest → p < num_parts →
          e.malloc_ok p = true ∧ e.open_ok p = true := by
  intro rest
  induction rest with
  | zero =>
    intro k fds
    simp only [open_batch, true_iff]
    intro p h1 h2
    omega
  | succ rest ih =>
    intro k fds
    unfold open_batch
    by_cases hlt : chunk * chunks + k < num_parts
    · rw [if_pos hlt]
      by_cases hm : e.malloc_ok (chunk * chunks + k) = true
      · rw [if_neg (by simp [hm])]
        by_cases ho : e.open_ok (chunk * chunks + k) = true
        · rw [if_neg (by simp [ho])]
          simp only
          rw [ih (k + 1) (fds ++ [chunk * chunks + k])]
          constructor
          · intro h p h1 h2 h3
            by_cases hp : p = chunk * chunks + k
            · rw [hp]; exact ⟨hm, ho⟩
            · exact h p (by omega) (by omega) h3
          · intro h p h1 h2 h3
            exact h p (by omega) (by omega) h3
        · rw [if_pos (by simp [ho])]
          simp only [Bool.false_eq_true, false_iff]
          intro h
          exact ho (h _ (le_refl _) (by omega) hlt).2
      · rw [if_pos (by simp [hm])]
        simp only [Bool.false_eq_true, false_iff]
        intro h
        exact hm (h _ (le_refl _) (by omega) hlt).1
    · rw [if_neg hlt]
      simp only [true_iff]
      intro p h1 h2 h3
      omega

/-- The write loop of a batch ends without a short write exactly when both
writes of every entry of the batch are complete. -/
theorem write_batch_true_iff (o : program_options) (e : print_env)
    (chunks chunk : Nat) (fds : List Nat) (heap : List file_entry) :
    ∀ (fuel j : Nat) (p : Option Nat) (l : List file_entry) (w : Bool × List print_event),
      list_from heap fuel p = some l →
      write_batch o e chunks chunk fds heap fuel j p = some w →
      (w.1 = true ↔
        ∀ n x, l[n]? = some x → chunk * chunks ≤ x.partition_index →
          x.partition_index < (chunk + 1) * chunks →
          e.write_path_ok (j + n) = true ∧ e.write_term_ok (j + n) = true) := by
  intro fuel
  induction fuel with
  | zero =>
    intro j p l w hl hw
    cases p with
    | none =>
      simp only [list_from, Option.some.injEq] at hl
      simp only [write_batch, Option.some.injEq] at hw
      subst hl hw
      simp
    | some a => simp [list_from] at hl
  | succ fuel ih =>
    intro j p l w hl hw
    cases p with
    | none =>
      simp only [list_from, Option.some.injEq] at hl
      simp only [write_batch, Option.some.injEq] at hw
      subst hl hw
      simp
    | some a =>
      unfold list_from at hl
      unfold write_batch at hw
      cases hx : heap[a]? with
      | none => rw [hx] at hl; simp at hl
      | some x =>
        rw [hx] at hl hw
        simp only at hl hw
        obtain ⟨l', hl', hll⟩ := Option.map_eq_some'.mp hl
        subst hll
        have hshift : ∀ (P : Nat → Prop),
            (∀ n y, (x :: l')[n]? = some y → chunk * chunks ≤ y.partition_index →
              y.partition_index < (chunk + 1) * chunks → P (j + n)) ↔
            ((chunk * chunks ≤ x.partition_index →
              x.partition_index < (chunk + 1) * chunks → P j) ∧
             ∀ n y, l'[n]? = some y → chunk * chunks ≤ y.partition_index →
              y.partition_index < (chunk + 1) * chunks → P (j + 1 + n)) := by
          intro P
          constructor
          · intro h
            refine ⟨fun h1 h2 => ?_, fun n y hy h1 h2 => ?_⟩
            · have := h 0 x (by simp) h1 h2
              simpa using this
            · have := h (n + 1) y (by simpa using hy) h1 h2
              have he : j + (n + 1) = j + 1 + n := by omega
              rw [he] at this
              exact this
          · rintro ⟨ha, hb⟩ n y hy h1 h2
            cases n with
            | zero =>
              simp only [List.getElem?_cons_zero, Option.some.injEq] at hy
              subst hy
              exact ha h1 h2
            | succ n =>
              have := hb n y (by simpa using hy) h1 h2
              have he : j + (n + 1) = j + 1 + n := by omega
              rw [he]
              exact this
        rw [hshift (fun m => e.write_path_ok m = true ∧ e.write_term_ok m = true)]
        by_cases hin : chunk * chunks ≤ x.partition_index ∧
            x.partition_index < (chunk + 1) * chunks
        · rw [if_pos hin] at hw
          cases hf : fds[x.partition_index % chunks]? with
          | none => rw [hf] at hw; simp at hw
          | some part =>
            rw [hf] at hw
            simp only at hw
            by_cases h1 : e.write_path_ok j = true
            · rw [if_neg (by simp [h1])] at hw
              by_cases h2 : e.write_term_ok j = true
              · rw [if_neg (by simp [h2])] at hw
                obtain ⟨w', hw', hww⟩ := Option.map_eq_some'.mp hw
                subst hww
                simp only
                rw [ih (j + 1) x.nextp l' w' hl' hw']
                constructor
                · intro h
                  exact ⟨fun _ _ => ⟨h1, h2⟩, h⟩
                · intro h
                  exact h.2
              · rw [if_pos (by simp [h2])] at hw
                simp only [Option.some.injEq] at hw
                subst hw
                simp only [Bool.false_eq_true, false_iff]
                intro h
                exact h2 (h.1 hin.1 hin.2).2
            · rw [if_pos (by simp [h1])] at hw
              simp only [Option.some.injEq] at hw
              subst hw
              simp only [Bool.false_eq_true, false_iff]
              intro h
              exact h1 (h.1 hin.1 hin.2).1
        · rw [if_neg hin] at hw
          rw [ih (j + 1) x.nextp l' w hl' hw]
          constructor
          · intro h
            exact ⟨fun h1 h2 => absurd ⟨h1, h2⟩ hin, h⟩
          · intro h
            exact h.2

/-- The loop over the batches returns 0 exactly when nothing fails from batch
`chunk` on: every allocation and `open(2)` for a partition of these batches
succeeds and both writes of every entry of these partitions are complete. -/
theorem print_batches_ret (o : program_options) (e : print_env) (template : String)
    (chunks num_parts : Nat) (heap : List file_entry) (fuel : Nat) (head : Option Nat)
    (l : List file_entry) (hlist : list_from heap fuel head = some l)
    (hl : ∀ x ∈ l, x.partition_index < num_parts) :
    ∀ (todo chunk : Nat) (r : print_result),
      print_batches o e template chunks num_parts heap fuel head todo chunk = some r →
      (r.ret = 0 ↔
        (∀ p, chunk * chunks ≤ p → p < num_parts →
          e.malloc_ok p = true ∧ e.open_ok p = true) ∧
        (∀ n x, l[n]? = some x → chunk * chunks ≤ x.partition_index →
          e.write_path_ok n = true ∧ e.write_term_ok n = true)) := by
  have hmem : ∀ (n : Nat) (x : file_entry), l[n]? = some x →
      x.partition_index < num_parts := by
    intro n x hx
    exact hl x (List.getElem?_mem hx)
  intro todo
  induction todo with
  | zero =>
    intro chunk r h
    simp only [print_batches] at h
    split_ifs at h with hlt
    simp only [Option.some.injEq] at h
    subst h
    simp only [true_iff]
    refine ⟨fun p h1 h2 => by omega, fun n x hx h1 => ?_⟩
    have := hmem n x hx
    omega
  | succ todo ih =>
    intro chunk r h
    unfold print_batches at h
    by_cases hlt : chunk * chunks < num_parts
    · rw [if_pos hlt] at h
      have hob := open_batch_true_iff e template chunks num_parts chunk chunks 0 []
      by_cases hopen : (open_batch e template chunks num_parts chunk chunks 0 []).1 = true
      · obtain ⟨hfdsEq, -⟩ :=
          (open_batch_spec e template chunks num_parts chunk chunks 0 []).1 hopen
        simp only [List.nil_append] at hfdsEq
        have hbatch := hob.mp hopen
        simp only [hopen, not_true_eq_false, if_false] at h
        rw [hfdsEq] at h
        cases hw : write_batch o e chunks chunk
            (parts_from (chunk * chunks + 0) (min chunks (num_parts - (chunk * chunks + 0))))
            heap fuel 0 head with
        | none => rw [hw] at h; simp at h
        | some w =>
          rw [hw] at h
          simp only at h
          rw [close_batch_spec chunks num_parts chunk _ (batch_fds chunks num_parts chunk)
            chunks 0 (by omega)] at h
          simp only at h
          have hwb := write_batch_true_iff o e chunks chunk _ heap fuel 0 head l w hlist hw
          simp only [Nat.zero_add] at hwb
          have hnext : (chunk + 1) * chunks = chunk * chunks + chunks := by ring
          by_cases hwok : w.1 = true
          · simp only [hwok, not_true_eq_false, if_false] at h
            obtain ⟨r', hr', hrr⟩ := Option.map_eq_some'.mp h
            subst hrr
            simp only
            rw [ih (chunk + 1) r' hr']
            have hwall := hwb.mp hwok
            constructor
            · rintro ⟨ha, hb⟩
              refine ⟨fun p h1 h2 => ?_, fun n x hx h1 => ?_⟩
              · by_cases hp : p < (chunk + 1) * chunks
                · exact hbatch p (by omega) (by omega) h2
                · exact ha p (by omega) h2
              · by_cases hp : x.partition_index < (chunk + 1) * chunks
                · exact hwall n x hx h1 hp
                · exact hb n x hx (by omega)
            · rintro ⟨ha, hb⟩
              exact ⟨fun p h1 h2 => ha p (by omega) h2,
                fun n x hx h1 => hb n x hx (by omega)⟩
          · have hwf : w.1 = false := by simpa using hwok
            simp only [hwf, Bool.false_eq_true, not_false_eq_true, if_true,
              Option.some.injEq] at h
            subst h
            simp only [one_ne_zero, false_iff, not_and]
            intro _ hb
            apply hwok
            exact hwb.mpr (fun n x hx h1 _ => hb n x hx h1)
      · have hfalse : (open_batch e template chunks num_parts chunk chunks 0 []).1 = false := by
          simpa using hopen
        simp only [hfalse, Bool.false_eq_true, not_false_eq_true, if_true,
          Option.some.injEq] at h
        subst h
        simp only [one_ne_zero, false_iff, not_and]
        intro ha _
        apply hopen
        exact hob.mpr (fun p h1 _ h3 => ha p (by omega) h3)
    · rw [if_neg hlt] at h
      simp only [Option.some.injEq] at h
      subst h
      simp only [true_iff]
      refine ⟨fun p h1 h2 => by omega, fun n x hx h1 => ?_⟩
      have := hmem n x hx
      omega

/-! ## Sizes in 64-bit signed arithmetic -/

theorem wrap64_of_range (x : Int) (h1 : -(2 ^ 63) ≤ x) (h2 : x ≤ INT64_MAX) :
    wrap64 x = x := by
  unfold wrap64
  unfold INT64_MAX at h2
  omega

theorem round_num_ge (num mult : Int) (hmult : 1 ≤ mult) : num ≤ round_num num mult := by
  unfold round_num
  rw [if_neg (by omega)]
  split_ifs
  · exact le_refl _
  · have := Int.emod_lt_of_pos num (by omega : (0 : Int) < mult)
    omega

/-! ## The hook executor -/

theorem wait_child_some (child : Int) (l : List (Int × wait_status)) :
    ∀ q, wait_child child l = some q → q.1 = child ∨ q.1 = -1 := by
  induction l with
  | nil => intro q h; simp [wait_child] at h
  | cons p rest ih =>
    intro q h
    unfold wait_child at h
    split_ifs at h with hp
    · exact ih q h
    · simp only [Option.some.injEq] at h
      subst h
      by_contra hne
      push_neg at hne
      exact hp hne

/-- The wait loop ends as soon as an answer of `wait` is the child or -1. -/
theorem wait_child_ends (child : Int) (l : List (Int × wait_status))
    (h : ∃ q ∈ l, q.1 = child ∨ q.1 = -1) : ∃ q, wait_child child l = some q := by
  induction l with
  | nil => obtain ⟨q, hq, _⟩ := h; simp at hq
  | cons p rest ih =>
    unfold wait_child
    split_ifs with hp
    · obtain ⟨q, hq, hq'⟩ := h
      simp only [List.mem_cons] at hq
      rcases hq with rfl | hq
      · exfalso
        rcases hq' with h1 | h1
        · exact hp.1 h1
        · exact hp.2 h1
      · exact ih ⟨q, hq, hq'⟩
    · exact ⟨p, rfl⟩

/-! ## Hook failures and the flag `exit_summary` -/

theorem hook_calls_append (a b : List out_event) :
    hook_calls (a ++ b) = hook_calls a ++ hook_calls b := by
  induction a with
  | nil => rfl
  | cons x rest ih => cases x <;> simp [hook_calls, ih]

theorem live_new_partition_hook_calls (o : program_options) (e : live_env)
    (st : live_status) (pre : String) (hpre : o.pre_part_hook = some pre)
    (hok : live_env_ok e) :
    (live_new_partition o e st).ret = 0 ∧
    hook_calls (live_new_partition o e st).out =
      (if st.partition_num_files = 0 then [(pre, st.partition_index)] else []) := by
  obtain ⟨hm, ho, -, -⟩ := hok
  unfold live_new_partition
  by_cases h0 : st.partition_num_files = 0
  · rw [if_pos h0, if_pos h0, hpre]
    cases o.out_filename with
    | none =>
      simp only [hook_calls]
      exact ⟨trivial, by split_ifs <;> rfl⟩
    | some t =>
      simp only [hm, not_true_eq_false, if_false]
      rw [if_neg (by omega)]
      simp only [hook_calls_append]
      split_ifs <;> simp [hook_calls]
  · rw [if_neg h0, if_neg h0]
    exact ⟨rfl, rfl⟩

theorem live_output_hook_calls (o : program_options) (e : live_env) (path : String)
    (size : Int) (st : live_status) (hok : live_env_ok e) :
    (live_output o e path size st).1 = true ∧
    hook_calls (live_output o e path size st).2 = [] := by
  obtain ⟨-, -, hw1, hw2⟩ := hok
  unfold live_output
  cases o.out_filename <;> simp [hw1, hw2, hook_calls]

theorem live_end_partition_hook_calls (o : program_options) (e : live_env)
    (st : live_status) (post : String) (hpost : o.post_part_hook = some post) :
    (end_of_partition o st = true →
      hook_calls (live_end_partition o e st).2 = [(post, st.partition_index)] ∧
      (live_end_partition o e st).1.partition_index = st.partition_index + 1 ∧
      (live_end_partition o e st).1.partition_num_files = 0) ∧
    (end_of_partition o st = false → live_end_partition o e st = (st, [])) := by
  unfold live_end_partition
  constructor
  · intro h
    rw [if_pos h, hpost]
    cases o.out_filename <;> (simp only []; split_ifs <;> simp [hook_calls])
  · intro h
    rw [if_neg (by rw [h]; simp)]

/-- One call of `live_print_file_entry` with nothing failing but possibly the
hooks: the hooks it runs. -/
theorem live_print_file_entry_hook_calls (rn : Int → Int → Int) (o : program_options)
    (e : live_env) (path : String) (size : Int) (st : live_status) (pre post : String)
    (hpre : o.pre_part_hook = some pre) (hpost : o.post_part_hook = some post)
    (hok : live_env_ok e) :
    hooks_done pre post st ++ hook_calls (live_print_file_entry rn o e path size st).out =
      hooks_done pre post (live_print_file_entry rn o e path size st).status ∧
    partitions_started st ≤
      partitions_started (live_print_file_entry rn o e path size st).status ∧
    st.partition_index < partitions_started (live_print_file_entry rn o e path size st).status ∧
    ((live_print_file_entry rn o e path size st).status.partition_index = st.partition_index + 1 ∧
        (live_print_file_entry rn o e path size st).status.partition_num_files = 0 ∨
      (live_print_file_entry rn o e path size st).status.partition_index = st.partition_index ∧
        (live_print_file_entry rn o e path size st).status.partition_num_files > 0) := by
  obtain ⟨hret, hnew⟩ := live_new_partition_hook_calls o e st pre hpre hok
  have hidx := live_new_partition_index o e st
  have hnum := live_new_partition_num_files o e st
  obtain ⟨hp1, hp2⟩ := live_output_hook_calls o e path size
    (live_count_in rn o size (live_new_partition o e st).status) hok
  obtain ⟨hend1, hend0⟩ := live_end_partition_hook_calls o e
    (live_count_in rn o size (live_new_partition o e st).status) post hpost
  have hcidx : (live_count_in rn o size (live_new_partition o e st).status).partition_index
      = st.partition_index := by rw [← hidx]; rfl
  have hcnum : (live_count_in rn o size (live_new_partition o e st).status).partition_num_files
      = st.partition_num_files + 1 := by rw [← hnum]; rfl
  have hst : (live_print_file_entry rn o e path size st).status =
      (live_end_partition o e
        (live_count_in rn o size (live_new_partition o e st).status)).1 := by
    unfold live_print_file_entry
    simp only []
    rw [if_neg (by rw [hret]; simp), if_neg (by rw [hp1]; simp)]
  have hout : hook_calls (live_print_file_entry rn o e path size st).out =
      (if st.partition_num_files = 0 then [(pre, st.partition_index)] else []) ++
      hook_calls (live_end_partition o e
        (live_count_in rn o size (live_new_partition o e st).status)).2 := by
    unfold live_print_file_entry
    simp only []
    rw [if_neg (by rw [hret]; simp), if_neg (by rw [hp1]; simp)]
    simp only [hook_calls_append, hnew, hp2, List.append_nil]
  have hdone : hooks_done pre post st ++
      (if st.partition_num_files = 0 then [(pre, st.partition_index)] else []) =
      hook_schedule pre post st.partition_index ++ [(pre, st.partition_index)] := by
    unfold hooks_done
    by_cases h0 : st.partition_num_files = 0
    · rw [if_neg (by omega), if_pos h0, List.append_nil]
    · rw [if_pos (by omega), if_neg h0, List.append_nil]
  rw [hst, hout, ← List.append_assoc, hdone]
  cases hE : end_of_partition o (live_count_in rn o size (live_new_partition o e st).status)
  · rw [hend0 hE]
    have hd : hooks_done pre post
        (live_count_in rn o size (live_new_partition o e st).status) =
        hook_schedule pre post st.partition_index ++ [(pre, st.partition_index)] := by
      unfold hooks_done
      rw [hcidx, hcnum, if_pos (by omega)]
    have hps : partitions_started
        (live_count_in rn o size (live_new_partition o e st).status) =
        st.partition_index + 1 := by
      unfold partitions_started
      rw [hcidx, hcnum, if_pos (by omega)]
    refine ⟨?_, ?_, ?_, Or.inr ⟨hcidx, by rw [hcnum]; omega⟩⟩
    · rw [hd]
      simp [hook_calls]
    · rw [hps]
      unfold partitions_started
      split_ifs <;> omega
    · rw [hps]
      omega
  · obtain ⟨h1, h2, h3⟩ := hend1 hE
    rw [hcidx] at h1 h2
    have hd : hooks_done pre post (live_end_partition o e
        (live_count_in rn o size (live_new_partition o e st).status)).1 =
        hook_schedule pre post st.partition_index ++
          [(pre, st.partition_index), (post, st.partition_index)] := by
      unfold hooks_done
      rw [h2, h3, if_neg (by omega), List.append_nil]
      rfl
    have hps : partitions_started (live_end_partition o e
        (live_count_in rn o size (live_new_partition o e st).status)).1 =
        st.partition_index + 1 := by
      unfold partitions_started
      rw [h2, h3, if_neg (by omega)]
    refine ⟨?_, ?_, ?_, Or.inl ⟨h2, h3⟩⟩
    · rw [hd, h1]
      simp
    · rw [hps]
      unfold partitions_started
      split_ifs <;> omega
    · rw [hps]
      omega

theorem live_feed_hook_calls (rn : Int → Int → Int) (o : program_options)
    (pre post : String) (hpre : o.pre_part_hook = some pre)
    (hpost : o.post_part_hook = some post) (calls : List live_call) :
    ∀ st : live_status, (∀ c ∈ calls, live_env_ok c.env) →
      hooks_done pre post st ++ hook_calls (live_feed rn o st calls).out =
        hooks_done pre post (live_feed rn o st calls).status ∧
      partitions_started st ≤ partitions_started (live_feed rn o st calls).status ∧
      (∀ k, (k ∈ (live_feed rn o st calls).indices ∨
            (st.partition_num_files > 0 ∧ k = st.partition_index)) ↔
          (st.partition_index ≤ k ∧
            k < partitions_started (live_feed rn o st calls).status)) := by
  induction calls with
  | nil =>
    intro st _
    refine ⟨by simp [live_feed, hook_calls], le_refl _, ?_⟩
    intro k
    simp only [live_feed, List.not_mem_nil, false_or, partitions_started]
    split_ifs <;> omega
  | cons c cs ih =>
    intro st hok
    obtain ⟨h1, h2, h3, h4⟩ := live_print_file_entry_hook_calls rn o c.env c.path c.size st
      pre post hpre hpost (hok c (List.mem_cons_self _ _))
    obtain ⟨i1, i2, i3⟩ := ih (live_print_file_entry rn o c.env c.path c.size st).status
      (fun x hx => hok x (List.mem_cons_of_mem _ hx))
    unfold live_feed
    simp only [hook_calls_append]
    refine ⟨by rw [← List.append_assoc, h1, i1], le_trans h2 i2, ?_⟩
    intro k
    have i3k := i3 k
    simp only [List.mem_cons]
    rcases h4 with ⟨ha, hb⟩ | ⟨ha, hb⟩
    · rw [ha, hb] at i3k
      simp only [gt_iff_lt, lt_self_iff_false, false_and, or_false] at i3k
      have hp : st.partition_index <
          partitions_started (live_feed rn o
            (live_print_file_entry rn o c.env c.path c.size st).status cs).status :=
        lt_of_lt_of_le h3 i2
      constructor
      · rintro ((h | h) | ⟨-, h⟩)
        · omega
        · have := i3k.mp h; omega
        · omega
      · rintro ⟨hk1, hk2⟩
        by_cases hk : k = st.partition_index
        · exact Or.inl (Or.inl hk)
        · exact Or.inl (Or.inr (i3k.mpr ⟨by omega, hk2⟩))
    · rw [ha] at i3k
      constructor
      · rintro ((h | h) | ⟨-, h⟩)
        · exact i3k.mp (Or.inr ⟨hb, h⟩)
        · exact i3k.mp (Or.inl h)
        · exact i3k.mp (Or.inr ⟨hb, h⟩)
      · intro hk
        rcases i3k.mpr hk with h | ⟨-, h⟩
        · exact Or.inl (Or.inr h)
        · exact Or.inl (Or.inl h)

theorem live_teardown_hook_calls (o : program_options) (ret : Int) (st : live_status)
    (post : String) (hlive : o.live_mode = true) (hpost : o.post_part_hook = some post) :
    hook_calls (live_teardown o ret st).2 =
      (if st.partition_num_files > 0 then [(post, st.partition_index)] else []) := by
  unfold live_teardown
  rw [if_pos hlive, hpost]
  simp only [hook_calls_append]
  have hclosing : ∀ l : List out_event,
      (l = [out_event.flush_stdout] ∨ l = [] ∨ l = [out_event.close st.fd]) →
      hook_calls l = [] := by
    rintro l (h | h | h) <;> rw [h] <;> rfl
  rw [hclosing _ (by cases o.out_filename <;> cases st.filename <;> simp)]
  split_ifs <;> simp [hook_calls]

theorem hooks_done_teardown (pre post : String) (st : live_status) :
    hooks_done pre post st ++
      (if st.partition_num_files > 0 then [(post, st.partition_index)] else []) =
      hook_schedule pre post (partitions_started st) := by
  unfold hooks_done partitions_started
  by_cases h : st.partition_num_files > 0
  · simp [h, hook_schedule]
  · simp [h]

theorem uninit_file_entries_empty_list (o : program_options) (ret : Int)
    (st : live_status) :
    uninit_file_entries o ret [] 0 none st =
      some { freed := [], live := (live_teardown o ret st).1,
             out := (live_teardown o ret st).2 } := rfl

/-! ## The environment of a hook -/

theorem bind_push_var_eq_some (e : hook_env) (i : Nat) (v : String)
    (x : Option (List String)) (l : List String) :
    x.bind (push_var e i v) = some l ↔
      ∃ l0, x = some l0 ∧ (e.malloc_ok i = true ∧ e.push_ok i = true) ∧ l = l0 ++ [v] := by
  cases x with
  | none => simp
  | some l0 =>
    simp only [Option.some_bind, push_var, push_env, Option.some.injEq, exists_eq_left']
    split_ifs with h
    · simp only [Option.some.injEq, h, true_and]
      exact eq_comm
    · simp [h]

theorem push_var_eq_some (e : hook_env) (i : Nat) (v : String) (l0 l : List String) :
    push_var e i v l0 = some l ↔
      (e.malloc_ok i = true ∧ e.push_ok i = true) ∧ l = l0 ++ [v] := by
  have := bind_push_var_eq_some e i v (some l0) l
  simpa using this

/-- The environment built by `fpart_hook`, when it is built. -/
theorem hook_environment_some (e : hook_env) (a : hook_args) (envp : List String)
    (h : hook_environment e a = some envp) :
    envp = e.environ ++
      (if a.cmd_is_pre = true then ["FPART_HOOKTYPE=pre-part"]
       else if a.cmd_is_post = true then ["FPART_HOOKTYPE=post-part"] else []) ++
      a.live_filename.toList.map (fun f => "FPART_PARTFILENAME=" ++ f) ++
      a.live_partition_index.toList.map (fun i => "FPART_PARTNUMBER=" ++ toString i) ++
      a.live_partition_size.toList.map (fun s => "FPART_PARTSIZE=" ++ toString s) ++
      a.live_num_files.toList.map (fun n => "FPART_PARTNUMFILES=" ++ toString n) ++
      ["FPART_PID=" ++ toString e.pid] := by
  obtain ⟨cmd, ispre, ispost, fn, idx, sz, nf⟩ := a
  unfold hook_environment clone_env at h
  cases ispre <;> cases ispost <;> cases fn <;> cases idx <;> cases sz <;> cases nf <;>
    simp only [Bool.false_eq_true, if_false, if_true] at h <;>
    obtain ⟨l5, h5, -, rfl⟩ := (bind_push_var_eq_some _ _ _ _ _).mp h <;>
    first
    | (cases h5; simp)
    | (obtain ⟨l4, h4, -, rfl⟩ := (bind_push_var_eq_some _ _ _ _ _).mp h5
       first
       | (cases h4; simp)
       | (obtain ⟨l3, h3, -, rfl⟩ := (bind_push_var_eq_some _ _ _ _ _).mp h4
          first
          | (cases h3; simp)
          | (obtain ⟨l2, h2, -, rfl⟩ := (bind_push_var_eq_some _ _ _ _ _).mp h3
             first
             | (cases h2; simp)
             | (obtain ⟨l1, h1, -, rfl⟩ := (bind_push_var_eq_some _ _ _ _ _).mp h2
                first
                | (cases h1; simp)
                | (obtain ⟨l0, h0, -, rfl⟩ := (bind_push_var_eq_some _ _ _ _ _).mp h1
                   cases h0
                   simp)))))

/-- With every allocation succeeding the environment is built. -/
theorem hook_environment_total (e : hook_env) (a : hook_args)
    (hok : ∀ i, e.malloc_ok i = true ∧ e.push_ok i = true) :
    ∃ envp, hook_environment e a = some envp := by
  obtain ⟨cmd, ispre, ispost, fn, idx, sz, nf⟩ := a
  unfold hook_environment clone_env
  cases ispre <;> cases ispost <;> cases fn <;> cases idx <;> cases sz <;> cases nf <;>
    simp [bind_push_var_eq_some, push_var_eq_some, hok]

theorem fpart_hook_exec_env (e : hook_env) (a : hook_args) (child_pid : Int)
    (r : hook_result) (envp : List String) (hr : fpart_hook e a child_pid = some r)
    (hx : r.exec_env = some envp) : hook_environment e a = some envp := by
  unfold fpart_hook at hr
  by_cases hc : ¬ e.clone_ok = true
  · rw [if_pos hc] at hr
    simp only [Option.some.injEq] at hr
    subst hr
    cases hx
  · rw [if_neg hc] at hr
    cases henv : hook_environment e a with
    | none =>
      rw [henv] at hr
      simp only [Option.some.injEq] at hr
      subst hr
      cases hx
    | some envp0 =>
      rw [henv] at hr
      simp only at hr
      by_cases hf : e.fork_ret = -1
      · rw [if_pos hf] at hr
        simp only [Option.some.injEq] at hr
        subst hr
        cases hx
      · rw [if_neg hf] at hr
        by_cases h0 : e.fork_ret = 0
        · rw [if_pos h0] at hr
          cases hr
        · rw [if_neg h0] at hr
          cases hw : wait_child e.fork_ret e.waits with
          | none => rw [hw] at hr; cases hr
          | some q =>
            obtain ⟨wpid, status⟩ := q
            rw [hw] at hr
            simp only at hr
            by_cases hm : wpid = -1
            · rw [if_pos hm] at hr
              simp only [Option.some.injEq] at hr
              subst hr
              exact hx
            · rw [if_neg hm] at hr
              cases status with
              | exited code =>
                simp only [Option.some.injEq] at hr
                subst hr
                exact hx
              | signaled sig =>
                simp only [Option.some.injEq] at hr
                subst hr
                exact hx

/-! ## Two hooks in a row -/

theorem fts_dirsfirst_no_stat (a b : sort_entry)
    (h : no_stat a = true ∨ no_stat b = true) : fts_dirsfirst a b = 0 := by
  unfold fts_dirsfirst
  unfold no_stat at h
  simp only [Bool.or_eq_true, decide_eq_true_eq] at h
  rw [if_pos (by tauto)]

theorem fts_dirsfirst_stat (a b : sort_entry)
    (ha : no_stat a = false) (hb : no_stat b = false) :
    fts_dirsfirst a b =
      if a.is_dir = true ∧ b.is_dir = false then -1
      else if a.is_dir = false ∧ b.is_dir = true then 1 else 0 := by
  unfold fts_dirsfirst
  unfold no_stat at ha hb
  simp only [Bool.or_eq_false_iff, decide_eq_false_iff_not] at ha hb
  rw [if_neg (by tauto)]
  cases a.is_dir <;> cases b.is_dir <;> simp

theorem dirsfirst_sorted_dirs_first (l : List sort_entry)
    (hstat : ∀ x ∈ l, no_stat x = false) (hs : dirsfirst_sorted l) :
    l.Pairwise (fun a b => b.is_dir = true → a.is_dir = true) := by
  unfold dirsfirst_sorted at hs
  refine List.Pairwise.imp_of_mem ?_ hs
  intro a b ha hb hle hdir
  rw [fts_dirsfirst_stat a b (hstat a ha) (hstat b hb)] at hle
  cases hA : a.is_dir
  · rw [hA, hdir] at hle
    simp at hle
  · rfl

theorem dirsfirst_sorted_exists (l : List sort_entry)
    (hstat : ∀ x ∈ l, no_stat x = false) :
    (l.filter (fun x => x.is_dir) ++ l.filter (fun x => !x.is_dir)).Perm l ∧
    dirsfirst_sorted (l.filter (fun x => x.is_dir) ++ l.filter (fun x => !x.is_dir)) := by
  refine ⟨List.filter_append_perm _ l, ?_⟩
  unfold dirsfirst_sorted
  rw [List.pairwise_append]
  refine ⟨?_, ?_, ?_⟩
  · rw [List.pairwise_iff_forall_sublist]
    intro a b hab
    have ha : a ∈ l.filter (fun x => x.is_dir) := hab.subset (by simp)
    have hb : b ∈ l.filter (fun x => x.is_dir) := hab.subset (by simp)
    rw [List.mem_filter] at ha hb
    rw [fts_dirsfirst_stat a b (hstat a ha.1) (hstat b hb.1)]
    simp [ha.2, hb.2]
  · rw [List.pairwise_iff_forall_sublist]
    intro a b hab
    have ha : a ∈ l.filter (fun x => !x.is_dir) := hab.subset (by simp)
    have hb : b ∈ l.filter (fun x => !x.is_dir) := hab.subset (by simp)
    rw [List.mem_filter] at ha hb
    rw [fts_dirsfirst_stat a b (hstat a ha.1) (hstat b hb.1)]
    have h1 : a.is_dir = false := by simpa using ha.2
    have h2 : b.is_dir = false := by simpa using hb.2
    simp [h1, h2]
  · intro a ha b hb
    rw [List.mem_filter] at ha hb
    rw [fts_dirsfirst_stat a b (hstat a ha.1) (hstat b hb.1)]
    have h2 : b.is_dir = false := by simpa using hb.2
    simp [ha.2, h2]

/-! ## The content of the files of the live partitioner -/

/-- After a successful call of `live_print_file_entry`, from any live status,
the current partition is below both thresholds. -/
theorem live_print_file_entry_below_thresholds (rn : Int → Int → Int)
    (o : program_options) (e : live_env) (path : String) (size : Int) (st : live_status)
    (hret : (live_print_file_entry rn o e path size st).ret = 0) :
    (o.max_entries > 0 →
      (live_print_file_entry rn o e path size st).status.partition_num_files
        < o.max_entries) ∧
    (o.max_size > 0 →
      (live_print_file_entry rn o e path size st).status.partition_num_files > 0 →
      (live_print_file_entry rn o e path size st).status.partition_size < o.max_size) ∧
    (o.max_size > 0 → o.max_size > o.preload_size →
      (live_print_file_entry rn o e path size st).status.partition_size < o.max_size) := by
  obtain ⟨h1, h0⟩ := live_print_file_entry_effect rn o e path size st hret
  have hnum : (live_count_in rn o size (live_new_partition o e st).status).partition_num_files
      = st.partition_num_files + 1 := by
    have h1 : (live_count_in rn o size
        (live_new_partition o e st).status).partition_num_files =
        (live_new_partition o e st).status.partition_num_files + 1 := rfl
    rw [h1, live_new_partition_num_files]
  cases hE : end_of_partition o (live_count_in rn o size (live_new_partition o e st).status)
  · obtain ⟨-, -, a, b⟩ := h0 hE
    have hn : ¬ ((o.max_entries > 0 ∧
        (live_count_in rn o size (live_new_partition o e st).status).partition_num_files
          ≥ o.max_entries) ∨
        (o.max_size > 0 ∧
          (live_count_in rn o size (live_new_partition o e st).status).partition_size
            ≥ o.max_size)) := by
      rw [← end_of_partition_iff, hE]
      simp
    push_neg at hn
    rw [a, b]
    rw [hnum] at hn
    exact ⟨fun h => hn.1 h, fun h _ => hn.2 h, fun h _ => hn.2 h⟩
  · obtain ⟨-, -, a, b⟩ := h1 hE
    rw [a, b]
    exact ⟨fun h => h, fun _ h => absurd h (by omega), fun _ h => h⟩

theorem live_feed_below_thresholds (rn : Int → Int → Int) (o : program_options)
    (calls : List live_call) :
    ∀ st : live_status,
      ((o.max_entries > 0 → st.partition_num_files < o.max_entries) ∧
       (o.max_size > 0 → st.partition_num_files > 0 → st.partition_size < o.max_size) ∧
       (o.max_size > 0 → o.max_size > o.preload_size → st.partition_size < o.max_size)) →
      (∀ r ∈ (live_feed rn o st calls).rets, r = 0) →
      (o.max_entries > 0 →
        (live_feed rn o st calls).status.partition_num_files < o.max_entries) ∧
      (o.max_size > 0 → (live_feed rn o st calls).status.partition_num_files > 0 →
        (live_feed rn o st calls).status.partition_size < o.max_size) ∧
      (o.max_size > 0 → o.max_size > o.preload_size →
        (live_feed rn o st calls).status.partition_size < o.max_size) := by
  induction calls with
  | nil => intro st h _; exact h
  | cons c cs ih =>
    intro st _ hrets
    unfold live_feed at hrets ⊢
    simp only [List.mem_cons, forall_eq_or_imp] at hrets
    exact ih _ (live_print_file_entry_below_thresholds rn o c.env c.path c.size st hrets.1)
      hrets.2

/-! ## Files rejected by name filtering -/

/-- A file or symbolic link rejected by `valid_file(p, options, 1)`: the
iteration goes on with nothing changed. -/
theorem fts_step_filtered_file (rn : Int → Int → Int) (o : program_options)
    (e : walk_env) (p : FTSENT) (s : walk_state)
    (hkind : p.fts_info = fts_info_t.FTS_F ∨ p.fts_info = fts_info_t.FTS_SL ∨
      p.fts_info = fts_info_t.FTS_SLNONE ∨ p.fts_info = fts_info_t.FTS_DEFAULT)
    (hv : p.valid_file1 = false) :
    fts_step rn o e p s = { state := s, ret := none, skip := false } := by
  have hcase : file_entry_case rn o e p s = { state := s, ret := none, skip := false } := by
    unfold file_entry_case
    rw [if_pos (by rw [hv]; simp)]
  unfold fts_step
  rcases hkind with h | h | h | h <;> rw [h] <;> exact hcase

theorem fts_loop_filtered_files (rn : Int → Int → Int) (o : program_options)
    (es : List (FTSENT × walk_env)) :
    ∀ s : walk_state,
      (∀ q ∈ es, (q.1.fts_info = fts_info_t.FTS_F ∨ q.1.fts_info = fts_info_t.FTS_SL ∨
          q.1.fts_info = fts_info_t.FTS_SLNONE ∨ q.1.fts_info = fts_info_t.FTS_DEFAULT) ∧
        q.1.valid_file1 = false) →
      fts_loop rn o s es = { state := s, ret := none, skip := false } := by
  induction es with
  | nil => intro s _; rfl
  | cons q rest ih =>
    intro s h
    obtain ⟨hk, hv⟩ := h q (List.mem_cons_self _ _)
    unfold fts_loop
    simp only [fts_step_filtered_file rn o q.2 q.1 s hk hv]
    exact ih s (fun x hx => h x (List.mem_cons_of_mem _ hx))

/-! # The claims -/

/-- C1. A call of `live_print_file_entry` that returns 0 closes the current
partition (one `fflush(stdout)` or `close(fd)`) if and only if, once the entry
is counted in, (max_entries > 0 and the accumulated count >= max_entries) or
(max_size > 0 and the accumulated size >= max_size). When it closes, the new
live status has the partition index increased by exactly 1, the accumulated
size equal to preload_size and the accumulated count equal to 0; when it does
not close, nothing is flushed or closed and the partition index is unchanged. -/
theorem live_print_file_entry_closes_iff (rn : Int → Int → Int) (o : program_options)
    (e : live_env) (path : String) (size : Int) (st : live_status)
    (hret : (live_print_file_entry rn o e path size st).ret = 0) :
    let r := live_print_file_entry rn o e path size st
    let count := st.partition_num_files + 1
    let acc := (if st.partition_num_files = 0 ∧ st.partition_index = 0 then o.preload_size
                else st.partition_size) + rn (size + o.overload_size) o.round_size
    let full := (o.max_entries > 0 ∧ count ≥ o.max_entries) ∨ (o.max_size > 0 ∧ acc ≥ o.max_size)
    (boundaries r.out = 1 ↔ full) ∧
    (full → r.status.partition_index = st.partition_index + 1 ∧
      r.status.partition_size = o.preload_size ∧ r.status.partition_num_files = 0) ∧
    (¬ full → boundaries r.out = 0 ∧ r.status.partition_index = st.partition_index) := by
  intro r count acc full
  have hfull : full ↔ end_of_partition o
      (live_count_in rn o size (live_new_partition o e st).status) = true := by
    rw [end_of_partition_iff]
    simp only [live_count_in, live_new_partition_num_files, live_new_partition_size]
  obtain ⟨hyes, hno⟩ := live_print_file_entry_effect rn o e path size st hret
  by_cases hf : end_of_partition o
      (live_count_in rn o size (live_new_partition o e st).status) = true
  · obtain ⟨h1, h2, h3, h4⟩ := hyes hf
    have hF : full := hfull.mpr hf
    exact ⟨⟨fun _ => hF, fun _ => h1⟩, fun _ => ⟨h2, h3, h4⟩, fun h => absurd hF h⟩
  · have hF : ¬ full := fun h => hf (hfull.mp h)
    obtain ⟨h1, h2, _, _⟩ := hno (by simpa using hf)
    refine ⟨⟨fun h => ?_, fun h => absurd h hF⟩, fun h => absurd h hF, fun _ => ⟨h1, h2⟩⟩
    show full
    have h0 : boundaries r.out = 0 := h1
    omega

/-- Witness for C1: the hypotheses of the theorem hold at a concrete input. -/
theorem live_print_file_entry_closes_iff_witness :
    (live_print_file_entry round_num example_options env_ok.handle.live "a" 20 live_status_init).ret = 0 ∧
    (boundaries (live_print_file_entry round_num example_options env_ok.handle.live "a" 20
        live_status_init).out = 1 ↔
      ((example_options.max_entries > 0 ∧ live_status_init.partition_num_files + 1 ≥ example_options.max_entries) ∨
       (example_options.max_size > 0 ∧
        (if live_status_init.partition_num_files = 0 ∧ live_status_init.partition_index = 0
          then example_options.preload_size else live_status_init.partition_size) +
          round_num (20 + example_options.overload_size) example_options.round_size ≥ example_options.max_size))) :=
  ⟨by decide,
   (live_print_file_entry_closes_iff round_num example_options env_ok.handle.live "a" 20
      live_status_init (by decide)).1⟩

/-- C2. In every live status reached from the initial one by any sequence of
calls of `live_print_file_entry`, if the current partition k holds no entry yet
(k = 0 included), then the accumulated size right after the next entry has been
counted in is preload_size + round_num(size + overload_size, round_size): the
preload is added exactly once per partition. This is also the accumulated size
the call leaves when it returns 0 without closing the partition. -/
theorem live_preload_once_per_partition (rn : Int → Int → Int) (o : program_options)
    (calls : List live_call) (e : live_env) (path : String) (size : Int)
    (hfirst : (live_feed rn o live_status_init calls).status.partition_num_files = 0) :
    (live_count_in rn o size
      (live_new_partition o e (live_feed rn o live_status_init calls).status).status).partition_size
      = o.preload_size + rn (size + o.overload_size) o.round_size ∧
    ((live_print_file_entry rn o e path size
        (live_feed rn o live_status_init calls).status).ret = 0 →
     (live_print_file_entry rn o e path size
        (live_feed rn o live_status_init calls).status).status.partition_index =
        (live_feed rn o live_status_init calls).status.partition_index →
     (live_print_file_entry rn o e path size
        (live_feed rn o live_status_init calls).status).status.partition_size
      = o.preload_size + rn (size + o.overload_size) o.round_size) := by
  have hinv := live_feed_preloaded rn o calls live_status_init
    (by intro _; exact Or.inl rfl)
  have hc : (live_count_in rn o size
      (live_new_partition o e (live_feed rn o live_status_init calls).status).status).partition_size
      = o.preload_size + rn (size + o.overload_size) o.round_size := by
    rw [live_counted_size]
    rcases hinv hfirst with h0 | hp
    · simp [hfirst, h0]
    · split_ifs <;> simp [hp]
  refine ⟨hc, fun hret hidx => ?_⟩
  obtain ⟨hyes, hno⟩ := live_print_file_entry_effect rn o e path size _ hret
  by_cases hf : end_of_partition o (live_count_in rn o size
      (live_new_partition o e (live_feed rn o live_status_init calls).status).status) = true
  · have := (hyes hf).2.1
    omega
  · rw [(hno (by simpa using hf)).2.2.1, hc]

/-- Witness for C2: the hypotheses of the theorem hold at a concrete input. -/
theorem live_preload_once_per_partition_witness :
    (live_feed round_num example_options live_status_init []).status.partition_num_files = 0 ∧
    (live_count_in round_num example_options 10
      (live_new_partition example_options env_ok.handle.live
        (live_feed round_num example_options live_status_init []).status).status).partition_size
      = example_options.preload_size +
        round_num (10 + example_options.overload_size) example_options.round_size :=
  ⟨rfl,
   (live_preload_once_per_partition round_num example_options [] env_ok.handle.live "a" 10
      rfl).1⟩

/-- C3. With max_entries = N, N >= 1, and no max-size threshold, feeding the
live partitioner from its initial state exactly N entries (of size 0, or of any
size), nothing failing, produces exactly one partition boundary event, leaves
the accumulated count at 0 and the partition index at 1, all N entries being
emitted under index 0; feeding N + 1 entries puts the first N in partition 0
and the last one in partition 1. -/
theorem live_feed_max_entries (rn : Int → Int → Int) (o : program_options) (N : Nat)
    (hN : 1 ≤ N) (hmax : o.max_entries = N) (hsize : o.max_size ≤ 0)
    (calls : List live_call) (hok : ∀ c ∈ calls, live_env_ok c.env) :
    (calls.length = N →
      boundaries (live_feed rn o live_status_init calls).out = 1 ∧
      (live_feed rn o live_status_init calls).status.partition_num_files = 0 ∧
      (live_feed rn o live_status_init calls).status.partition_index = 1 ∧
      (live_feed rn o live_status_init calls).indices = List.replicate N 0) ∧
    (calls.length = N + 1 →
      (live_feed rn o live_status_init calls).indices = List.replicate N 0 ++ [1]) := by
  constructor
  · intro hlen
    obtain ⟨h1, h2, h3, h4, _⟩ := live_feed_fill rn o hsize calls live_status_init hok
      (by intro h; rw [h] at hlen; simp at hlen; omega)
      (by simp [live_status_init, hlen, hmax])
    rw [hlen] at h4
    exact ⟨h1, h2, h3, h4⟩
  · intro hlen
    have htake : (calls.take N).length = N := by simp [hlen]
    have hdrop : (calls.drop N).length = 1 := by simp [hlen]
    obtain ⟨c, hc⟩ := List.length_eq_one.mp hdrop
    obtain ⟨_, h2, h3, h4, _⟩ := live_feed_fill rn o hsize (calls.take N) live_status_init
      (fun c' hc' => hok c' (List.mem_of_mem_take hc'))
      (by intro h; rw [h] at htake; simp at htake; omega)
      (by simp [live_status_init, htake, hmax])
    have key := (live_feed_append rn o (calls.take N) (calls.drop N) live_status_init).2
    rw [List.take_append_drop, h4, htake, hc] at key
    rw [key]
    have h3' : (live_feed rn o live_status_init (List.take N calls)).status.partition_index = 1 := h3
    have h0 : live_status_init.partition_index = 0 := rfl
    simp [live_feed, h3', h0]

/-- Witness for C3: the hypotheses of the theorem hold at a concrete input. -/
theorem live_feed_max_entries_witness :
    1 ≤ 2 ∧ example_options_entries.max_entries = 2 ∧ example_options_entries.max_size ≤ 0 ∧
    boundaries (live_feed round_num example_options_entries live_status_init
      [{ env := env_ok.handle.live, path := "x", size := 0 },
       { env := env_ok.handle.live, path := "y", size := 0 }]).out = 1 ∧
    (live_feed round_num example_options_entries live_status_init
      [{ env := env_ok.handle.live, path := "x", size := 0 },
       { env := env_ok.handle.live, path := "y", size := 0 }]).status.partition_num_files = 0 :=
  ⟨by decide, rfl, by decide,
   (((live_feed_max_entries round_num example_options_entries 2 (by decide) rfl (by decide)
      [{ env := env_ok.handle.live, path := "x", size := 0 },
       { env := env_ok.handle.live, path := "y", size := 0 }] (by decide)).1 rfl).1),
   (((live_feed_max_entries round_num example_options_entries 2 (by decide) rfl (by decide)
      [{ env := env_ok.handle.live, path := "x", size := 0 },
       { env := env_ok.handle.live, path := "y", size := 0 }] (by decide)).1 rfl).2.1)⟩

/-- C4. With round_size = 1 (rounding to a block size of 1 being the
identity), overload_size = 0, preload_size = 0, max_size = 15 and no
max-entries threshold, feeding the entries a (10), b (20), sub/c (5) in that
order, nothing failing: a is emitted under index 0 with no boundary (10 < 15),
b is emitted under index 0 and the boundary fires right after it (30 >= 15),
and sub/c is alone in partition 1, which is left pending (one file counted). -/
theorem live_example_a_b_c (rn : Int → Int → Int) (o : program_options)
    (e1 e2 e3 : live_env) (hrn : ∀ x : Int, rn x 1 = x)
    (hround : o.round_size = 1) (hover : o.overload_size = 0) (hpre : o.preload_size = 0)
    (hmax : o.max_size = 15) (hent : o.max_entries = 0)
    (hok1 : live_env_ok e1) (hok2 : live_env_ok e2) (hok3 : live_env_ok e3) :
    let r1 := live_print_file_entry rn o e1 "a" 10 live_status_init
    let r2 := live_print_file_entry rn o e2 "b" 20 r1.status
    let r3 := live_print_file_entry rn o e3 "sub/c" 5 r2.status
    (r1.ret = 0 ∧ boundaries r1.out = 0 ∧ r1.status.partition_index = 0 ∧
      r1.status.partition_size = 10 ∧ r1.status.partition_num_files = 1) ∧
    (r2.ret = 0 ∧ boundaries r2.out = 1 ∧ r2.status.partition_index = 1 ∧
      r2.status.partition_num_files = 0) ∧
    (r3.ret = 0 ∧ boundaries r3.out = 0 ∧ r3.status.partition_index = 1 ∧
      r3.status.partition_size = 5 ∧ r3.status.partition_num_files = 1) ∧
    (live_feed rn o live_status_init
      [{ env := e1, path := "a", size := 10 }, { env := e2, path := "b", size := 20 },
       { env := e3, path := "sub/c", size := 5 }]).indices = [0, 0, 1] := by
  intro r1 r2 r3
  -- first call: 10 < 15, the partition stays open
  have hret1 : r1.ret = 0 := live_print_file_entry_ok rn o e1 "a" 10 live_status_init hok1
  have hc1 : (live_count_in rn o 10 (live_new_partition o e1 live_status_init).status).partition_size
      = 10 := by
    rw [live_counted_size, hover, hround, hrn, hpre]; simp [live_status_init]
  have hf1 : end_of_partition o
      (live_count_in rn o 10 (live_new_partition o e1 live_status_init).status) = false := by
    rw [← Bool.not_eq_true, end_of_partition_iff, hc1, hent, hmax]; omega
  obtain ⟨a1, a2, a3, a4⟩ := (live_print_file_entry_effect rn o e1 "a" 10 live_status_init hret1).2 hf1
  have b2 : r1.status.partition_index = 0 := a2
  have b3 : r1.status.partition_size = 10 := a3.trans hc1
  have b4 : r1.status.partition_num_files = 1 := a4
  -- second call: 30 ≥ 15, the partition is closed
  have hret2 : r2.ret = 0 := live_print_file_entry_ok rn o e2 "b" 20 r1.status hok2
  have hc2 : (live_count_in rn o 20 (live_new_partition o e2 r1.status).status).partition_size
      = 30 := by
    rw [live_counted_size, hover, hround, hrn, b4, b3]; simp
  have hf2 : end_of_partition o
      (live_count_in rn o 20 (live_new_partition o e2 r1.status).status) = true := by
    rw [end_of_partition_iff, hc2, hmax]; right; omega
  obtain ⟨c1, c2, c3, c4⟩ := (live_print_file_entry_effect rn o e2 "b" 20 r1.status hret2).1 hf2
  have d2 : r2.status.partition_index = 1 := by
    have h := c2; rw [b2] at h; exact h
  have d3 : r2.status.partition_size = 0 := c3.trans hpre
  have d4 : r2.status.partition_num_files = 0 := c4
  -- third call: 5 < 15, the partition stays open
  have hret3 : r3.ret = 0 := live_print_file_entry_ok rn o e3 "sub/c" 5 r2.status hok3
  have hc3 : (live_count_in rn o 5 (live_new_partition o e3 r2.status).status).partition_size
      = 5 := by
    rw [live_counted_size, hover, hround, hrn, d4, d2, d3]; simp
  have hf3 : end_of_partition o
      (live_count_in rn o 5 (live_new_partition o e3 r2.status).status) = false := by
    rw [← Bool.not_eq_true, end_of_partition_iff, hc3, hent, hmax]; omega
  obtain ⟨f1, f2, f3, f4⟩ := (live_print_file_entry_effect rn o e3 "sub/c" 5 r2.status hret3).2 hf3
  refine ⟨⟨hret1, a1, b2, b3, b4⟩, ⟨hret2, c1, d2, d4⟩,
    ⟨hret3, f1, f2.trans d2, f3.trans hc3, by rw [f4, d4]⟩, ?_⟩
  show [live_status_init.partition_index, r1.status.partition_index,
    r2.status.partition_index] = [0, 0, 1]
  rw [b2, d2]; rfl

/-- Witness for C4: the hypotheses of the theorem hold at a concrete input. -/
theorem live_example_a_b_c_witness :
    (∀ x : Int, round_num x 1 = x) ∧ example_options.round_size = 1 ∧
    example_options.max_size = 15 ∧ live_env_ok env_ok.handle.live ∧
    (live_feed round_num example_options live_status_init
      [{ env := env_ok.handle.live, path := "a", size := 10 },
       { env := env_ok.handle.live, path := "b", size := 20 },
       { env := env_ok.handle.live, path := "sub/c", size := 5 }]).indices = [0, 0, 1] :=
  ⟨round_num_one, rfl, rfl, by decide,
   (live_example_a_b_c round_num example_options env_ok.handle.live env_ok.handle.live
      env_ok.handle.live round_num_one rfl rfl rfl rfl rfl (by decide) (by decide)
      (by decide)).2.2.2⟩

/-- C5. For every sequence of entries fed to `live_print_file_entry`, from any
live status, the partition indices under which the entries are emitted are
non-decreasing in the order the entries are fed. -/
theorem live_feed_indices_sorted (rn : Int → Int → Int) (o : program_options)
    (calls : List live_call) (st : live_status) :
    List.Pairwise (fun i j => i ≤ j) (live_feed rn o st calls).indices := by
  induction calls generalizing st with
  | nil => simp [live_feed]
  | cons c cs ih =>
    simp only [live_feed, List.pairwise_cons]
    refine ⟨fun i hi => ?_, ih _⟩
    exact le_trans (live_print_file_entry_index_le rn o c.env c.path c.size st)
      (live_feed_indices_ge rn o cs _ i hi)

/-- C6, counterexample. In dirs-only mode on the tree
root/{a(10), b(20), sub/{c(5)}}, `init_file_entries` emits root/sub with 5 and
root with 30, which is not the sum 35 over a, b and sub/c. -/
theorem dirs_only_example_not_recursive :
    (init_file_entries round_num example_options_dirs_only example_run 0
      prog_state_init).2.2.handled = [("root/sub", 5), ("root", 30)] ∧
    (30 : Int) ≠ descendants_size example_tree := by
  decide

/-- C6, amended. In dirs-only mode with no depth limit, nothing failing, for
the entries fts yields for any directory tree on one device (directories before
files, any order among sibling directories and among sibling files),
`init_file_entries` returns 0 and emits exactly the directories that pass name
filtering, in post-order, each with the sum of the sizes of the files directly
in it that pass name filtering (0 if the directory was not entered); on the tree
root/{a(10), b(20), sub/{c(5)}} these sizes are 5 for root/sub and 30 for root. -/
theorem dirs_only_sizes_are_direct (rn : Int → Int → Int) (o : program_options)
    (t : fs_dirs) (f : fts_run) (count : Nat) (g : prog_state)
    (hdirs : o.dirs_only = true) (hdepth : o.dir_depth = OPT_NODIRDEPTH)
    (hopen : f.open_ok = true) (herrno : f.read_errno = 0)
    (hwalk : f.entries.map Prod.fst = dirsfirst_walk o 0 t)
    (hok : ∀ q ∈ f.entries, walk_env_ok q.2) :
    (init_file_entries rn o f count g).1 = 0 ∧
    (init_file_entries rn o f count g).2.2.handled = g.handled ++ direct_sizes o 0 t ∧
    (direct_sizes o 0 example_tree).map Prod.snd = [5, 30] := by
  obtain ⟨h1, h2, _⟩ := fts_loop_dirs_only_walk rn o hdirs hdepth t 0 f.entries
    (walk_state_init count g) hwalk hok rfl rfl
  have hrun : init_file_entries rn o f count g =
      (0, (fts_loop rn o (walk_state_init count g) f.entries).state.count,
        (fts_loop rn o (walk_state_init count g) f.entries).state.prog) := by
    unfold init_file_entries
    rw [if_neg (by simp [hopen])]
    simp only [h1, herrno, ne_eq, not_true_eq_false, if_false]
  refine ⟨?_, ?_, ?_⟩
  · rw [hrun]
  · rw [hrun]; exact h2
  · simp [direct_sizes, example_tree, files_size]

/-- Witness for C6: the hypotheses of the theorem hold at a concrete input. -/
theorem dirs_only_sizes_are_direct_witness :
    example_options_dirs_only.dirs_only = true ∧
    example_run.entries.map Prod.fst =
      dirsfirst_walk example_options_dirs_only 0 example_tree ∧
    (init_file_entries round_num example_options_dirs_only example_run 0
      prog_state_init).2.2.handled =
      prog_state_init.handled ++ direct_sizes example_options_dirs_only 0 example_tree :=
  ⟨rfl, by decide,
   (dirs_only_sizes_are_direct round_num example_options_dirs_only example_tree example_run 0
      prog_state_init rfl rfl rfl rfl (by decide) (by decide)).2.1⟩

/-- C7. At a directory-post event (`FTS_DP`), for a directory that was not
already scheduled by the depth limit (`curdir_addme` clear) and when the path
buffer can be allocated, the directory is passed to `handle_file_entry` if and
only if it passes name filtering and one of these holds: dirs-only mode is on;
leaf-dirs mode is on and no sub-directory was found; empty-directory inclusion
is requested and the directory is empty; all-directories inclusion is
requested. Otherwise nothing is passed to `handle_file_entry`. -/
theorem dir_post_emitted_iff (rn : Int → Int → Int) (o : program_options) (e : walk_env)
    (p : FTSENT) (s : walk_state) (hinfo : p.fts_info = fts_info_t.FTS_DP)
    (haddme : s.curdir_addme = false) (hmalloc : e.malloc_path_ok = true) :
    ((∃ x, (fts_step rn o e p s).state.prog.handled = s.prog.handled ++ [x]) ↔
      (p.valid_file1 = true ∧
        (o.dirs_only = true ∨
          (o.leaf_dirs = true ∧ s.curdir_dirsfound = false) ∨
          (o.dirs_include ≥ OPT_EMPTYDIRS ∧ s.curdir_empty = true) ∨
          o.dirs_include ≥ OPT_ALLDIRS))) ∧
    ((fts_step rn o e p s).state.prog.handled = s.prog.handled ↔
      ¬ (p.valid_file1 = true ∧
        (o.dirs_only = true ∨
          (o.leaf_dirs = true ∧ s.curdir_dirsfound = false) ∨
          (o.dirs_include ≥ OPT_EMPTYDIRS ∧ s.curdir_empty = true) ∨
          o.dirs_include ≥ OPT_ALLDIRS))) := by
  have hstep : fts_step rn o e p s = add_directory rn o e p s := by
    unfold fts_step; rw [hinfo]
  rw [hstep, add_directory_handled rn o e p s hmalloc]
  simp only [haddme, Bool.false_eq_true, false_or]
  split_ifs with hc
  · simp [hc]
  · simp [hc]

/-- Witness for C7: the hypotheses of the theorem hold at a concrete input. -/
theorem dir_post_emitted_iff_witness :
    (example_root fts_info_t.FTS_DP).fts_info = fts_info_t.FTS_DP ∧
    (walk_state_init 0 prog_state_init).curdir_addme = false ∧
    env_ok.malloc_path_ok = true ∧
    ∃ x, (fts_step round_num example_options_dirs_only env_ok (example_root fts_info_t.FTS_DP)
      (walk_state_init 0 prog_state_init)).state.prog.handled
        = (walk_state_init 0 prog_state_init).prog.handled ++ [x] :=
  ⟨rfl, rfl, rfl,
   (dir_post_emitted_iff round_num example_options_dirs_only env_ok
      (example_root fts_info_t.FTS_DP) (walk_state_init 0 prog_state_init) rfl rfl rfl).1.mpr
      (by decide)⟩

/-- C8. Whenever `init_file_entries` emits a directory at a directory-post
event, the size it is emitted with is, in priority order: 0 for a non-root
directory on another device than its parent when boundary crossing is
disabled; else 0 if the directory is known empty or was force-emitted by the
all-directories rule; else the accumulated size if dirs-only mode is on or
leaf-dirs mode is on with no sub-directory found; else the value of `get_size`
on the directory. An unreadable directory (`FTS_DNR`) is emitted with 0. -/
theorem dir_emitted_size (rn : Int → Int → Int) (o : program_options) (e : walk_env)
    (p : FTSENT) (s : walk_state) (x : String × Int)
    (hemit : (fts_step rn o e p s).state.prog.handled = s.prog.handled ++ [x]) :
    (p.fts_info = fts_info_t.FTS_DP → x = (curdir_entry_path o p, dir_size_by_priority o p s)) ∧
    (p.fts_info = fts_info_t.FTS_DNR → x = (curdir_entry_path o p, 0)) := by
  constructor
  · intro hinfo
    have hstep : fts_step rn o e p s = add_directory rn o e p s := by
      unfold fts_step; rw [hinfo]
    rw [hstep] at hemit
    rcases add_directory_handled_cases rn o e p s with h | h
    · rw [h] at hemit; simp at hemit
    · rw [h] at hemit; simpa using hemit.symm
  · intro hinfo
    unfold fts_step at hemit
    rw [hinfo] at hemit
    simp only at hemit
    split_ifs at hemit
    · rcases add_directory_handled_cases rn o e p { s with curdir_empty := true } with h | h
      · rw [h] at hemit; simp at hemit
      · rw [h] at hemit
        have hz : dir_size_by_priority o p { s with curdir_empty := true } = 0 := by
          unfold dir_size_by_priority; simp
        rw [hz] at hemit
        simpa using hemit.symm
    · simp at hemit

/-- Witness for C8: the hypotheses of the theorem hold at a concrete input. -/
theorem dir_emitted_size_witness :
    (fts_step round_num example_options_dirs_only env_ok (example_root fts_info_t.FTS_DP)
      { walk_state_init 0 prog_state_init with curdir_empty := false, curdir_size := 30 }
      ).state.prog.handled = prog_state_init.handled ++ [("root", 30)] ∧
    (("root", 30) : String × Int) =
      (curdir_entry_path example_options_dirs_only (example_root fts_info_t.FTS_DP),
       dir_size_by_priority example_options_dirs_only (example_root fts_info_t.FTS_DP)
        { walk_state_init 0 prog_state_init with curdir_empty := false, curdir_size := 30 }) :=
  ⟨by decide,
   (dir_emitted_size round_num example_options_dirs_only env_ok
      (example_root fts_info_t.FTS_DP)
      { walk_state_init 0 prog_state_init with curdir_empty := false, curdir_size := 30 }
      ("root", 30) (by decide)).1 rfl⟩

/-- C9, evaluation at the failing input. With a directory-depth limit of 0
and dirs-only mode on, or leaf-dirs mode on, the depth limit is reached at the
root (descent is skipped, the empty flag is cleared) and the root is emitted
with the accumulated size, which was never fed and is 0, and not with the value
35 that `get_size` computes for it. -/
theorem depth_zero_dirs_only_size_zero :
    (fts_step round_num example_options_dirs_only_depth0 env_ok (example_root fts_info_t.FTS_D)
      (walk_state_init 0 prog_state_init)).skip = true ∧
    (fts_step round_num example_options_dirs_only_depth0 env_ok (example_root fts_info_t.FTS_D)
      (walk_state_init 0 prog_state_init)).state.curdir_empty = false ∧
    (fts_loop round_num example_options_dirs_only_depth0 (walk_state_init 0 prog_state_init)
      [(example_root fts_info_t.FTS_D, env_ok),
       (example_root fts_info_t.FTS_DP, env_ok)]).state.prog.handled = [("root", 0)] ∧
    (fts_loop round_num example_options_leaf_dirs_depth0 (walk_state_init 0 prog_state_init)
      [(example_root fts_info_t.FTS_D, env_ok),
       (example_root fts_info_t.FTS_DP, env_ok)]).state.prog.handled = [("root", 0)] ∧
    (example_root fts_info_t.FTS_DP).get_size = 35 := by
  decide

/-- With a directory-depth limit of 0, dirs-only mode off and leaf-dirs mode
off, the size computed by `get_size` is used: walking a root directory that
passes name filtering
(entries: directory-pre at level 0, then directory-post, the path buffer being
allocated): descent is skipped at the directory-pre entry and exactly one entry
is emitted, the root, with the value of `get_size` on the root (not the
accumulated size); no file entry is emitted. -/
theorem depth_zero_root_size (rn : Int → Int → Int) (o : program_options)
    (e1 e2 : walk_env) (d dp : FTSENT) (count : Nat) (g : prog_state)
    (hdepth : o.dir_depth = 0) (hdirs : o.dirs_only = false) (hleaf : o.leaf_dirs = false)
    (hd : d.fts_info = fts_info_t.FTS_D) (hdlevel : d.fts_level = 0)
    (hv0 : d.valid_file0 = true)
    (hdp : dp.fts_info = fts_info_t.FTS_DP) (hlevel : dp.fts_level = 0)
    (hv1 : dp.valid_file1 = true) (hmalloc : e2.malloc_path_ok = true) :
    (fts_step rn o e1 d (walk_state_init count g)).skip = true ∧
    (fts_loop rn o (walk_state_init count g) [(d, e1), (dp, e2)]).state.prog.handled =
      g.handled ++ [(curdir_entry_path o dp, dp.get_size)] := by
  have hreach : dir_depth_reached o d = true := by
    simp [dir_depth_reached, hdepth, hdlevel, OPT_NODIRDEPTH]
  have hD : fts_step rn o e1 d (walk_state_init count g) =
      enter_directory o d (walk_state_init count g) := by
    unfold fts_step; rw [hd]
  have hDP : ∀ s, fts_step rn o e2 dp s = add_directory rn o e2 dp s := by
    intro s; unfold fts_step; rw [hdp]
  obtain ⟨k1, k2, k3, k4, k5, _, k7⟩ :=
    enter_directory_depth_reached o d (walk_state_init count g) hv0 hreach
  refine ⟨by rw [hD]; exact k2, ?_⟩
  have hh := add_directory_handled rn o e2 dp
    (enter_directory o d (walk_state_init count g)).state hmalloc
  rw [if_pos ⟨hv1, Or.inl k3⟩, k7] at hh
  have hsz : dir_size_by_priority o dp (enter_directory o d (walk_state_init count g)).state
      = dp.get_size := by
    simp [dir_size_by_priority, forced_by_alldirs, hlevel, hdirs, hleaf, k3, k4]
  rw [hsz] at hh
  have hloop : (fts_loop rn o (walk_state_init count g) [(d, e1), (dp, e2)]).state =
      (add_directory rn o e2 dp (enter_directory o d (walk_state_init count g)).state).state := by
    simp only [fts_loop, hD, k1, hDP]
    cases (add_directory rn o e2 dp (enter_directory o d (walk_state_init count g)).state).ret
      <;> rfl
  rw [hloop, hh]
  rfl

/-- The hypotheses of `depth_zero_root_size` hold at a concrete input. -/
theorem depth_zero_root_size_witness :
    example_options_depth0.dir_depth = 0 ∧ example_options_depth0.dirs_only = false ∧
    example_options_depth0.leaf_dirs = false ∧
    (fts_loop round_num example_options_depth0 (walk_state_init 0 prog_state_init)
      [(example_root fts_info_t.FTS_D, env_ok),
       (example_root fts_info_t.FTS_DP, env_ok)]).state.prog.handled =
      prog_state_init.handled ++
        [(curdir_entry_path example_options_depth0 (example_root fts_info_t.FTS_DP),
          (example_root fts_info_t.FTS_DP).get_size)] :=
  ⟨rfl, rfl, rfl,
   (depth_zero_root_size round_num example_options_depth0 env_ok env_ok
      (example_root fts_info_t.FTS_D) (example_root fts_info_t.FTS_DP) 0 prog_state_init
      rfl rfl rfl rfl rfl rfl rfl rfl rfl rfl).2⟩

/-- C10. For a file/symlink entry that passes name filtering, met while the
traversal is running: in dirs-only mode, or in leaf-dirs mode when no
sub-directory was found in the current directory, the entry is emitted if and
only if no directory-pre entry has occurred before in this traversal (the file
is the root argument), and nothing is emitted otherwise; and in every mode a
file met before any directory-pre entry is emitted. -/
theorem file_emitted_iff_root_argument (rn : Int → Int → Int) (o : program_options)
    (count : Nat) (g : prog_state) (pre : List (FTSENT × walk_env)) (p : FTSENT)
    (e : walk_env)
    (hrun : (fts_loop rn o (walk_state_init count g) pre).ret = none)
    (hkind : p.fts_info = fts_info_t.FTS_F ∨ p.fts_info = fts_info_t.FTS_SL ∨
      p.fts_info = fts_info_t.FTS_SLNONE ∨ p.fts_info = fts_info_t.FTS_DEFAULT)
    (hvalid : p.valid_file1 = true) :
    let s := (fts_loop rn o (walk_state_init count g) pre).state
    let s' := (fts_step rn o e p s).state
    ((o.dirs_only = true ∨ (o.leaf_dirs = true ∧ s.curdir_dirsfound = false)) →
      ((s'.prog.handled = s.prog.handled ++ [(p.fts_path, p.get_size)] ↔
          ∀ q ∈ pre, q.1.fts_info ≠ fts_info_t.FTS_D) ∧
       (s'.prog.handled = s.prog.handled ↔
          ∃ q ∈ pre, q.1.fts_info = fts_info_t.FTS_D))) ∧
    ((∀ q ∈ pre, q.1.fts_info ≠ fts_info_t.FTS_D) →
      s'.prog.handled = s.prog.handled ++ [(p.fts_path, p.get_size)]) := by
  intro s s'
  have hfaa : s.file_as_argument = true ↔ ∀ q ∈ pre, q.1.fts_info ≠ fts_info_t.FTS_D := by
    show (fts_loop rn o (walk_state_init count g) pre).state.file_as_argument = true ↔ _
    rw [fts_loop_file_as_argument rn o pre _ hrun]
    simp [walk_state_init]
  have hstep : fts_step rn o e p s = file_entry_case rn o e p s := by
    unfold fts_step
    rcases hkind with h | h | h | h <;> rw [h]
  have hs' : s' = (file_entry_case rn o e p s).state := by
    show (fts_step rn o e p s).state = _
    rw [hstep]
  have hcase : s'.prog.handled =
      if ¬ s.file_as_argument = true ∧
          (o.dirs_only = true ∨ (o.leaf_dirs = true ∧ s.curdir_dirsfound = false)) then
        s.prog.handled
      else s.prog.handled ++ [(p.fts_path, p.get_size)] := by
    rw [hs']
    unfold file_entry_case
    simp only [hvalid, not_true_eq_false, if_false]
    split_ifs <;> simp_all [handle_file_entry_handled]
  constructor
  · intro hmode
    rw [hcase]
    by_cases hf : s.file_as_argument = true
    · have hall := hfaa.mp hf
      simp only [hf, not_true_eq_false, false_and, if_false]
      refine ⟨⟨fun _ => hall, fun _ => trivial⟩, ⟨fun h => ?_, fun ⟨q, hq, hqd⟩ => ?_⟩⟩
      · simp at h
      · exact absurd hqd (hall q hq)
    · have hex : ∃ q ∈ pre, q.1.fts_info = fts_info_t.FTS_D := by
        by_contra hne
        push_neg at hne
        exact hf (hfaa.mpr hne)
      rw [if_pos ⟨hf, hmode⟩]
      refine ⟨⟨fun h => ?_, fun hall => ?_⟩, ⟨fun _ => hex, fun _ => rfl⟩⟩
      · simp at h
      · exact absurd (hfaa.mpr hall) hf
  · intro hall
    rw [hcase, if_neg (fun h => h.1 (hfaa.mpr hall))]

/-- Witness for C10: the hypotheses of the theorem hold at a concrete input. -/
theorem file_emitted_iff_root_argument_witness :
    (fts_loop round_num example_options_dirs_only (walk_state_init 0 prog_state_init) []).ret
      = none ∧
    example_root_file.valid_file1 = true ∧
    (fts_step round_num example_options_dirs_only env_ok example_root_file
      (fts_loop round_num example_options_dirs_only (walk_state_init 0 prog_state_init)
        []).state).state.prog.handled =
      (fts_loop round_num example_options_dirs_only (walk_state_init 0 prog_state_init)
        []).state.prog.handled ++ [(example_root_file.fts_path, example_root_file.get_size)] :=
  ⟨rfl, rfl,
   (file_emitted_iff_root_argument round_num example_options_dirs_only 0 prog_state_init []
      example_root_file env_ok rfl (Or.inl rfl) rfl).2 (by simp)⟩

/-- C11. On an unreadable-directory entry (`FTS_DNR`): when the
directory-inclusion level is unreadable-as-empty or higher and the directory
passes name filtering, the directory is emitted with size 0 (the path buffer
being allocated); otherwise nothing is emitted for it, the current directory
state is marked non-empty and the traversal continues without a fatal result. -/
theorem unreadable_directory_event (rn : Int → Int → Int) (o : program_options)
    (e : walk_env) (p : FTSENT) (s : walk_state)
    (hinfo : p.fts_info = fts_info_t.FTS_DNR) :
    ((o.dirs_include ≥ OPT_DNREMPTY ∧ p.valid_file1 = true) → e.malloc_path_ok = true →
      (fts_step rn o e p s).state.prog.handled =
        s.prog.handled ++ [(curdir_entry_path o p, 0)]) ∧
    (¬ (o.dirs_include ≥ OPT_DNREMPTY ∧ p.valid_file1 = true) →
      (fts_step rn o e p s).state.prog.handled = s.prog.handled ∧
      (fts_step rn o e p s).state.curdir_empty = false ∧
      (fts_step rn o e p s).ret = none) := by
  constructor
  · rintro ⟨hlevel, hvalid⟩ hmalloc
    have hstep : fts_step rn o e p s =
        add_directory rn o e p { s with curdir_empty := true } := by
      unfold fts_step; rw [hinfo]; simp only [hlevel, if_true]
    have hE : o.dirs_include ≥ OPT_EMPTYDIRS :=
      le_trans (by decide : OPT_EMPTYDIRS ≤ OPT_DNREMPTY) hlevel
    rw [hstep, add_directory_handled rn o e p _ hmalloc,
      if_pos ⟨hvalid, Or.inr (Or.inr (Or.inr (Or.inl ⟨hE, rfl⟩)))⟩]
    have hz : dir_size_by_priority o p { s with curdir_empty := true } = 0 := by
      unfold dir_size_by_priority; simp
    rw [hz]
  · intro hnot
    by_cases hlevel : o.dirs_include ≥ OPT_DNREMPTY
    · have hvalid : ¬ p.valid_file1 = true := fun h => hnot ⟨hlevel, h⟩
      have hstep : fts_step rn o e p s =
          add_directory rn o e p { s with curdir_empty := true } := by
        unfold fts_step; rw [hinfo]; simp only [hlevel, if_true]
      have hE : o.dirs_include ≥ OPT_EMPTYDIRS :=
        le_trans (by decide : OPT_EMPTYDIRS ≤ OPT_DNREMPTY) hlevel
      obtain ⟨h1, _, _, _, _, _, h7⟩ := dir_addme_rules_spec o { s with curdir_empty := true }
      have ha : (dir_addme_rules o { s with curdir_empty := true }).curdir_addme = true := by
        rw [h1]; simp [hE]
      rw [hstep]
      unfold add_directory
      simp only [ha, if_true, hvalid, not_false_eq_true]
      simp [reset_directory, h7]
    · unfold fts_step
      rw [hinfo]
      simp only [hlevel, if_false]
      simp

/-- Witness for C11: the hypotheses of the theorem hold at a concrete input,
an unreadable directory that is neither included nor emitted. -/
theorem unreadable_directory_event_witness :
    (example_root fts_info_t.FTS_DNR).fts_info = fts_info_t.FTS_DNR ∧
    ¬ (example_options.dirs_include ≥ OPT_DNREMPTY ∧
        (example_root fts_info_t.FTS_DNR).valid_file1 = true) ∧
    (fts_step round_num example_options env_ok (example_root fts_info_t.FTS_DNR)
      (walk_state_init 0 prog_state_init)).state.curdir_empty = false :=
  ⟨rfl, by decide,
   ((unreadable_directory_event round_num example_options env_ok
      (example_root fts_info_t.FTS_DNR) (walk_state_init 0 prog_state_init) rfl).2
      (by decide)).2.1⟩

/-- C12, the code at the failing input. When `fts_open` fails,
`init_file_entries` returns 0, whatever the options and the state, and leaves
`*count` and the program state as they were. -/
theorem init_file_entries_open_failure_returns_zero (rn : Int → Int → Int)
    (o : program_options) (entries : List (FTSENT × walk_env)) (read_errno : Int)
    (count : Nat) (g : prog_state) :
    init_file_entries rn o
      { open_ok := false, entries := entries, read_errno := read_errno } count g =
      (0, count, g) := by
  simp [init_file_entries]

/-- C13. For `print_file_entries` with an output template, a positive batch
width `PRINT_FE_CHUNKS`, a list that ends, every entry with its
partition_index below num_parts and no allocation, open or write failure: the
call returns 0 and, for every i < num_parts, the file named `<template>.<i>`
is opened (and truncated) exactly once and its final content is exactly the
concatenation, in list order, of the path followed by the terminator byte of
each entry whose partition_index is i, whatever the content before and
whatever num_parts is relative to the batch width. -/
theorem print_file_entries_partition_files (o : program_options) (e : print_env)
    (chunks : Nat) (heap : List file_entry) (fuel : Nat) (head : Option Nat)
    (num_parts : Nat) (template : String) (l : List file_entry)
    (htemplate : o.out_filename = some template) (hchunks : 0 < chunks)
    (hlist : list_from heap fuel head = some l)
    (hl : ∀ x ∈ l, x.partition_index < num_parts)
    (hm : ∀ p, e.malloc_ok p = true) (ho : ∀ p, e.open_ok p = true)
    (hwp : ∀ j, e.write_path_ok j = true) (hwt : ∀ j, e.write_term_ok j = true) :
    ∃ r, print_file_entries o e chunks heap fuel head num_parts = some r ∧ r.ret = 0 ∧
      ∀ i, i < num_parts →
        (∀ content, file_content_from (part_filename template i) no_fd content r.out =
          partition_bytes o i l) ∧
        opens_of (part_filename template i) r.out = 1 := by
  obtain ⟨r, hr, hret, hc, hopen, -⟩ := print_batches_ok o e template chunks num_parts heap
    fuel head l hchunks hm ho hwp hwt hlist hl num_parts 0 (by omega)
  refine ⟨r, ?_, hret, fun i hi => ⟨fun content => ?_, ?_⟩⟩
  · unfold print_file_entries
    rw [htemplate]
    exact hr
  · rw [hc, if_pos ⟨by omega, hi⟩]
  · rw [hopen, if_pos ⟨by omega, hi⟩]

/-- Witness for C13: three entries in two partitions, one descriptor per
batch; the file out.0 holds the lines a and c, the file out.1 the line b. -/
theorem print_file_entries_partition_files_witness :
    example_options_template.out_filename = some "out" ∧
    list_from example_entries 3 (some 0) = some example_entries ∧
    (∀ x ∈ example_entries, x.partition_index < 2) ∧
    partition_bytes example_options_template 0 example_entries = "a\nc\n" ∧
    partition_bytes example_options_template 1 example_entries = "b\n" ∧
    part_filename "out" 1 = "out.1" ∧
    ∃ r, print_file_entries example_options_template print_env_ok 1 example_entries 3
        (some 0) 2 = some r ∧ r.ret = 0 ∧
      ∀ i, i < 2 →
        (∀ content, file_content_from (part_filename "out" i) no_fd content r.out =
          partition_bytes example_options_template i example_entries) ∧
        opens_of (part_filename "out" i) r.out = 1 :=
  ⟨rfl, by decide, by decide, by decide, by decide, by decide,
   print_file_entries_partition_files example_options_template print_env_ok 1
     example_entries 3 (some 0) 2 "out" example_entries rfl (by decide) (by decide)
     (by decide) (fun _ => rfl) (fun _ => rfl) (fun _ => rfl) (fun _ => rfl)⟩

/-- C14. For `print_file_entries` with no output template and a list that
ends, the output is exactly one line per entry of the list, in list order
starting from the given head, each line being
`<partition_index> (<size>): <path>` followed by a newline, and the function
returns 0. -/
theorem print_file_entries_stdout (o : program_options) (e : print_env) (chunks : Nat)
    (heap : List file_entry) (fuel : Nat) (head : Option Nat) (num_parts : Nat)
    (l : List file_entry) (hnone : o.out_filename = none)
    (hlist : list_from heap fuel head = some l) :
    print_file_entries o e chunks heap fuel head num_parts =
      some { ret := 0,
             out := l.map (fun x => print_event.line x.partition_index x.size x.path) } := by
  unfold print_file_entries
  rw [hnone]
  simp only
  rw [print_lines_spec heap fuel head l hlist]
  rfl

/-- Witness for C14: three entries printed from the first one. -/
theorem print_file_entries_stdout_witness :
    example_options.out_filename = none ∧
    list_from example_entries 3 (some 0) = some example_entries ∧
    print_file_entries example_options print_env_ok 1 example_entries 3 (some 0) 2 =
      some { ret := 0,
             out := example_entries.map
               (fun x => print_event.line x.partition_index x.size x.path) } :=
  ⟨rfl, by decide,
   print_file_entries_stdout example_options print_env_ok 1 example_entries 3 (some 0) 2
     example_entries rfl (by decide)⟩

/-- C15. A call of `print_file_entries` with a template, a positive batch
width, a list that ends and every entry with its partition_index below
num_parts returns, whatever fails. It returns 1, a non-zero result, exactly
when it hits a failure: an allocation or `open(2)` that fails for one of the
partitions, or a short write for one of the entries; otherwise it returns 0.
When it returns, every descriptor it opened during the call has been closed,
exactly once, and nothing else was closed; and a reported open failure or
short write comes with a non-zero result. -/
theorem print_file_entries_closes_descriptors (o : program_options) (e : print_env)
    (chunks : Nat) (heap : List file_entry) (fuel : Nat) (head : Option Nat)
    (num_parts : Nat) (template : String) (l : List file_entry)
    (htemplate : o.out_filename = some template) (hchunks : 0 < chunks)
    (hlist : list_from heap fuel head = some l)
    (hl : ∀ x ∈ l, x.partition_index < num_parts) :
    ∃ r, print_file_entries o e chunks heap fuel head num_parts = some r ∧
      open_after [] r.out = some [] ∧ (r.ret = 0 ∨ r.ret = 1) ∧
      ((∃ ev ∈ r.out, is_failure ev = true) → r.ret ≠ 0) ∧
      (((∃ p, p < num_parts ∧ (e.malloc_ok p = false ∨ e.open_ok p = false)) ∨
        (∃ n, n < l.length ∧ (e.write_path_ok n = false ∨ e.write_term_ok n = false))) ↔
        r.ret = 1) := by
  obtain ⟨r, hr⟩ := print_batches_total o e template chunks num_parts heap fuel head l
    hchunks hlist hl num_parts 0 (by omega)
  obtain ⟨h1, h2, h3⟩ := print_batches_closed o e template chunks num_parts heap fuel head
    num_parts 0 r hr
  have h4 := print_batches_ret o e template chunks num_parts heap fuel head l hlist hl
    num_parts 0 r hr
  refine ⟨r, ?_, h1, h2, ?_, ?_⟩
  · unfold print_file_entries
    rw [htemplate]
    exact hr
  · rintro ⟨ev, hev, hfail⟩ hret
    rw [h3 hret ev hev] at hfail
    cases hfail
  · constructor
    · intro hfail
      rcases h2 with h0 | h0
      · exfalso
        obtain ⟨ha, hb⟩ := h4.mp h0
        rcases hfail with ⟨p, hp, hbad⟩ | ⟨n, hn, hbad⟩
        · obtain ⟨g1, g2⟩ := ha p (by omega) hp
          rcases hbad with hbad | hbad
          · rw [g1] at hbad; cases hbad
          · rw [g2] at hbad; cases hbad
        · obtain ⟨g1, g2⟩ := hb n (l.get ⟨n, hn⟩) (List.getElem?_eq_getElem hn) (by omega)
          rcases hbad with hbad | hbad
          · rw [g1] at hbad; cases hbad
          · rw [g2] at hbad; cases hbad
      · exact h0
    · intro h0
      by_contra hnone
      push_neg at hnone
      obtain ⟨na, nb⟩ := hnone
      have hzero : r.ret = 0 := by
        apply h4.mpr
        refine ⟨fun p _ hp => ?_, fun n x hx _ => ?_⟩
        · obtain ⟨g1, g2⟩ := na p hp
          exact ⟨by simpa using g1, by simpa using g2⟩
        · have hn : n < l.length := (List.getElem?_eq_some_iff.mp hx).1
          obtain ⟨g1, g2⟩ := nb n hn
          exact ⟨by simpa using g1, by simpa using g2⟩
      rw [hzero] at h0
      cases h0

/-- Witness for C15: the write of the second path is short in a batch of two
descriptors, both are closed and 1 is returned. -/
theorem print_file_entries_closes_descriptors_witness :
    example_options_template.out_filename = some "out" ∧
    list_from example_entries 3 (some 0) = some example_entries ∧
    (∀ x ∈ example_entries, x.partition_index < 2) ∧
    print_env_short.write_path_ok 1 = false ∧
    print_file_entries example_options_template print_env_short 4 example_entries 3
      (some 0) 2 =
      some { ret := 1,
             out := [print_event.open_part 0 "out.0", print_event.open_part 1 "out.1",
                     print_event.write 0 "a", print_event.write 0 "\n",
                     print_event.short_write 1,
                     print_event.close 0, print_event.close 1] } ∧
    ∃ r, print_file_entries example_options_template print_env_short 4 example_entries 3
        (some 0) 2 = some r ∧
      open_after [] r.out = some [] ∧ (r.ret = 0 ∨ r.ret = 1) ∧
      ((∃ ev ∈ r.out, is_failure ev = true) → r.ret ≠ 0) ∧
      (((∃ p, p < 2 ∧ (print_env_short.malloc_ok p = false ∨
            print_env_short.open_ok p = false)) ∨
        (∃ n, n < example_entries.length ∧
          (print_env_short.write_path_ok n = false ∨
            print_env_short.write_term_ok n = false))) ↔
        r.ret = 1) :=
  ⟨rfl, by decide, by decide, by decide, by decide,
   print_file_entries_closes_descriptors example_options_template print_env_short 4
     example_entries 3 (some 0) 2 "out" example_entries rfl (by decide) (by decide)
     (by decide)⟩

/-- C16. A successful `add_file_entry` (it returns 0), called with `*head`
`NULL` or referring to an allocated entry, leaves `*head` set to the newly
added element, whose path is the given path, whose size is
round_num(size + overload_size, round_size), whose partition_index is 0,
whose nextp is `NULL` and whose prevp is the previous `*head`; if the previous
`*head` was not `NULL`, its nextp now refers to the new element. -/
theorem add_file_entry_success (rn : Int → Int → Int) (o : program_options) (e : add_env)
    (head : Option Nat) (heap : List file_entry) (path : String) (size : Int)
    (hvalid : ∀ a, head = some a → a < heap.length)
    (hret : (add_file_entry rn o e head heap path size).ret = 0) :
    (add_file_entry rn o e head heap path size).head = some heap.length ∧
    (add_file_entry rn o e head heap path size).heap[heap.length]? =
      some { path := path, size := rn (size + o.overload_size) o.round_size,
             partition_index := 0, nextp := none, prevp := head } ∧
    (∀ a x, head = some a → heap[a]? = some x →
      (add_file_entry rn o e head heap path size).heap[a]? =
        some { x with nextp := some heap.length }) := by
  obtain ⟨h1, h2⟩ := (add_file_entry_ret rn o e head heap path size).mp hret
  rw [add_file_entry_eq rn o e head heap path size h1 h2]
  refine ⟨rfl, ?_, ?_⟩
  · cases head with
    | none => simp
    | some a =>
      have ha := hvalid a rfl
      simp only
      rw [set_nextp_getElem, if_neg (by omega)]
      simp
  · intro a x hhead hx
    subst hhead
    have ha := hvalid a rfl
    simp only
    rw [set_nextp_getElem, if_pos rfl, List.getElem?_append_left ha, hx]
    rfl

/-- Witness for C16: the hypotheses of the theorem hold at a concrete input. -/
theorem add_file_entry_success_witness :
    (add_file_entry round_num example_options
      { malloc_entry_ok := true, malloc_path_ok := true } none [] "a" 10).ret = 0 ∧
    (add_file_entry round_num example_options
      { malloc_entry_ok := true, malloc_path_ok := true } none [] "a" 10).head = some 0 :=
  ⟨by decide,
   (add_file_entry_success round_num example_options
      { malloc_entry_ok := true, malloc_path_ok := true } none [] "a" 10
      (by intro a h; cases h) (by decide)).1⟩

/-- C17, counterexample. After the traversal of the tree
root/{a(10), b(20), sub/{c(5)}} in batch dirs-only mode, which adds two
entries, `*head` refers to the entry at address 1, whose prevp refers to the
entry at address 0: the head pointer is on the last element of the chain, not
on the first one (the one whose prevp is `NULL`, at address 0). -/
theorem init_file_entries_head_is_last :
    (init_file_entries round_num example_options_dirs_only example_run 0
      prog_state_init).2.2.head = some 1 ∧
    ((init_file_entries round_num example_options_dirs_only example_run 0
      prog_state_init).2.2.heap.map (fun x => x.prevp)) = [none, some 0] := by
  decide

/-- C17, amended. In batch mode, after any traversal by `init_file_entries`
that returns 0, started from a `NULL` head and an empty entry memory, the list
is a proper doubly-linked chain (m.prevp = n whenever n.nextp = m, nextp of the
last element is `NULL`, prevp of the first element is `NULL`) and, when at
least one entry was added, the head pointer refers to the last element of the
chain, the one added last. -/
theorem init_file_entries_chain (rn : Int → Int → Int) (o : program_options) (f : fts_run)
    (count : Nat) (g : prog_state) (hbatch : o.live_mode = false)
    (hhead : g.head = none) (hheap : g.heap = [])
    (hret : (init_file_entries rn o f count g).1 = 0) :
    (∀ (n m : Nat) (x : file_entry),
      (init_file_entries rn o f count g).2.2.heap[n]? = some x → x.nextp = some m →
      ∃ y : file_entry,
        (init_file_entries rn o f count g).2.2.heap[m]? = some y ∧ y.prevp = some n) ∧
    (∀ x : file_entry, (init_file_entries rn o f count g).2.2.heap[
        (init_file_entries rn o f count g).2.2.heap.length - 1]? = some x → x.nextp = none) ∧
    (∀ x : file_entry,
      (init_file_entries rn o f count g).2.2.heap[0]? = some x → x.prevp = none) ∧
    ((init_file_entries rn o f count g).2.2.heap ≠ [] →
      (init_file_entries rn o f count g).2.2.head =
        some ((init_file_entries rn o f count g).2.2.heap.length - 1)) := by
  have hinv : list_inv (init_file_entries rn o f count g).2.2.head
      (init_file_entries rn o f count g).2.2.heap := by
    have h0 : list_inv g.head g.heap := by rw [hhead, hheap]; exact list_inv_nil
    unfold init_file_entries at hret ⊢
    by_cases hopen : f.open_ok = true
    · rw [if_neg (by simp [hopen])] at hret ⊢
      obtain ⟨hr, hi⟩ := fts_loop_list_inv rn o hbatch f.entries (walk_state_init count g)
      rcases hr with hr | hr
      · simp only [hr] at hret ⊢
        have := hi hr h0
        split_ifs <;> exact this
      · simp [hr] at hret
    · rw [if_pos hopen]
      exact h0
  obtain ⟨hchain, hlast⟩ := hinv
  refine ⟨fun n m x hx hn => ?_, fun x hx => ?_, fun x hx => ?_, fun hne => ?_⟩
  · obtain ⟨_, hn'⟩ := hchain n x hx
    rw [hn] at hn'
    have hlt : n < (init_file_entries rn o f count g).2.2.heap.length :=
      (List.getElem?_eq_some_iff.mp hx).1
    split_ifs at hn' with hl
    have hm : m = n + 1 := by simpa using hn'
    subst hm
    obtain ⟨y, hy, hp, _⟩ := proper_chain_getElem _ hchain (n + 1) (by omega)
    exact ⟨y, hy, by rw [hp]; simp⟩
  · obtain ⟨_, hn⟩ := hchain _ x hx
    have hlt := (List.getElem?_eq_some_iff.mp hx).1
    rw [hn, if_pos (by omega)]
  · obtain ⟨hp, _⟩ := hchain 0 x hx
    rw [hp, if_pos rfl]
  · rw [hlast, if_neg (fun h => hne (List.length_eq_zero.mp h))]

/-- Witness for C17: the hypotheses of the amended theorem hold at a concrete
input. -/
theorem init_file_entries_chain_witness :
    example_options_dirs_only.live_mode = false ∧
    (init_file_entries round_num example_options_dirs_only example_run 0
      prog_state_init).1 = 0 ∧
    ((init_file_entries round_num example_options_dirs_only example_run 0
      prog_state_init).2.2.heap ≠ [] →
      (init_file_entries round_num example_options_dirs_only example_run 0
        prog_state_init).2.2.head =
        some ((init_file_entries round_num example_options_dirs_only example_run 0
          prog_state_init).2.2.heap.length - 1)) :=
  ⟨rfl, by decide,
   (init_file_entries_chain round_num example_options_dirs_only example_run 0
      prog_state_init rfl rfl rfl (by decide)).2.2.2⟩

/-- C18. For a list built by any number (0, 1 or many) of successful calls of
`add_file_entry`, `uninit_file_entries` given a pointer to either end of the
chain (the first or the last element; `NULL` for the empty list) and enough
fuel for its loops returns, having released the path buffer and the node of
every entry exactly once, last entry first, and nothing else. -/
theorem uninit_file_entries_releases_once (rn : Int → Int → Int) (o : program_options)
    (inputs : List (String × Int)) (post_hook_ret : Int) (st : live_status)
    (fuel : Nat) (start : Option Nat) (hfuel : inputs.length ≤ fuel)
    (hstart : start = (build_list rn o inputs).1 ∨
      start = (if inputs.length = 0 then none else some 0)) :
    ∃ r, uninit_file_entries o post_hook_ret (build_list rn o inputs).2 fuel start st
        = some r ∧
      r.freed = frees_down inputs.length ∧ r.freed.Nodup ∧
      (∀ i, (free_event.path i ∈ r.freed ↔ i < (build_list rn o inputs).2.length) ∧
        (free_event.entry i ∈ r.freed ↔ i < (build_list rn o inputs).2.length)) := by
  obtain ⟨⟨hchain, hhead⟩, hlen⟩ := build_list_inv rn o inputs
  have key : ∃ last, fastfw_list (build_list rn o inputs).2 fuel start = some last ∧
      free_chain (build_list rn o inputs).2 fuel last = some (frees_down inputs.length) := by
    by_cases h0 : inputs.length = 0
    · have hs : start = none := by
        rcases hstart with h | h
        · rw [h, hhead, hlen, if_pos h0]
        · rw [h, if_pos h0]
      subst hs
      refine ⟨none, ?_, ?_⟩
      · cases fuel <;> rfl
      · rw [h0]; cases fuel <;> rfl
    · refine ⟨some (inputs.length - 1), ?_, ?_⟩
      · rcases hstart with h | h
        · rw [h, hhead, hlen, if_neg h0]
          have := fastfw_list_proper_chain _ hchain 0 (inputs.length - 1) fuel
            (by rw [hlen]; omega) (by omega)
          rw [hlen] at this
          exact this
        · rw [h, if_neg h0]
          have := fastfw_list_proper_chain _ hchain (inputs.length - 1) 0 fuel
            (by rw [hlen]; omega) (by omega)
          rw [hlen] at this
          exact this
      · have := free_chain_proper_chain _ hchain (inputs.length - 1) fuel
          (by rw [hlen]; omega) (by omega)
        rw [this]
        congr 2
        omega
  obtain ⟨last, hf, hc⟩ := key
  refine ⟨{ freed := frees_down inputs.length, live := (live_teardown o post_hook_ret st).1,
            out := (live_teardown o post_hook_ret st).2 }, ?_, rfl, frees_down_nodup _, ?_⟩
  · unfold uninit_file_entries
    simp only [hf, hc]
  · intro i
    rw [hlen]
    exact frees_down_mem inputs.length i

/-- Witness for C18: a list of two entries released from its first element. -/
theorem uninit_file_entries_releases_once_witness :
    [("a", (10 : Int)), ("b", 20)].length ≤ 2 ∧
    ∃ r, uninit_file_entries example_options_dirs_only 0
        (build_list round_num example_options_dirs_only [("a", 10), ("b", 20)]).2 2
        (some 0) live_status_init = some r ∧
      r.freed = frees_down [("a", (10 : Int)), ("b", 20)].length :=
  ⟨by decide,
   (uninit_file_entries_releases_once round_num example_options_dirs_only
      [("a", 10), ("b", 20)] 0 live_status_init 2 (some 0) (by decide)
      (Or.inr rfl)).imp (fun _ h => ⟨h.1, h.2.1⟩)⟩

/-- C19, counterexample. With a block size of 1 and an overload of 1, in
64-bit signed arithmetic, the entry created by `add_file_entry` from the
measured size 2^63 - 1 is stored with the size -2^63, which is negative. -/
theorem stored_size_overflow :
    (0 : Int) ≤ 9223372036854775807 ∧ 1 ≤ example_options_overload.round_size ∧
    0 ≤ example_options_overload.overload_size ∧
    (add_file_entry round_num64 example_options_overload
      { malloc_entry_ok := true, malloc_path_ok := true } none [] "a"
      9223372036854775807).heap.map (fun x => x.size) = [-9223372036854775808] := by
  decide

/-- C19, amended. For every entry created by a successful `add_file_entry`
from a measured size >= 0, with a rounding block size >= 1 and an overload
>= 0, when size + overload_size rounded up to the block size does not exceed
the largest 64-bit signed value, the size stored in 64-bit signed arithmetic
is that rounded value and is >= 0. -/
theorem stored_size_nonneg (o : program_options) (e : add_env) (head : Option Nat)
    (heap : List file_entry) (path : String) (size : Int) (x : file_entry)
    (hsize : 0 ≤ size) (hround : 1 ≤ o.round_size) (hover : 0 ≤ o.overload_size)
    (hfit : round_num (size + o.overload_size) o.round_size ≤ INT64_MAX)
    (hvalid : ∀ a, head = some a → a < heap.length)
    (hret : (add_file_entry round_num64 o e head heap path size).ret = 0)
    (hx : (add_file_entry round_num64 o e head heap path size).heap[heap.length]? = some x) :
    x.size = round_num (size + o.overload_size) o.round_size ∧ 0 ≤ x.size := by
  obtain ⟨h1, h2⟩ := (add_file_entry_ret round_num64 o e head heap path size).mp hret
  rw [add_file_entry_eq round_num64 o e head heap path size h1 h2] at hx
  have hge := round_num_ge (size + o.overload_size) o.round_size hround
  have hsum : wrap64 (size + o.overload_size) = size + o.overload_size :=
    wrap64_of_range _ (by omega) (by omega)
  have hval : round_num64 (size + o.overload_size) o.round_size =
      round_num (size + o.overload_size) o.round_size := by
    unfold round_num64
    rw [hsum]
    exact wrap64_of_range _ (by omega) hfit
  have hxs : x.size = round_num64 (size + o.overload_size) o.round_size := by
    cases head with
    | none =>
      simp at hx
      rw [← hx]
    | some a =>
      have ha := hvalid a rfl
      simp only at hx
      rw [set_nextp_getElem, if_neg (by omega)] at hx
      simp at hx
      rw [← hx]
  rw [hxs, hval]
  exact ⟨rfl, by omega⟩

/-- Witness for C19: the hypotheses of the amended theorem hold at a concrete
input. -/
theorem stored_size_nonneg_witness :
    (0 : Int) ≤ 10 ∧ 1 ≤ example_options_overload.round_size ∧
    round_num (10 + example_options_overload.overload_size)
      example_options_overload.round_size ≤ INT64_MAX ∧
    (0 : Int) ≤ (11 : Int) :=
  ⟨by decide, by decide, by decide,
   ((stored_size_nonneg example_options_overload
      { malloc_entry_ok := true, malloc_path_ok := true } none [] "a" 10
      { path := "a", size := 11, partition_index := 0, nextp := none, prevp := none }
      (by decide) (by decide) (by decide) (by decide) (by intro a h; cases h) (by decide)
      (by decide)).2)⟩

/-- C20. Once the hook environment has been built, a call of `fpart_hook`
that returns (in the parent process) returns 0 if and only if the child was
forked, waited for, and terminated by a normal exit with status 0; otherwise
it returns 1, in particular on fork failure, on wait failure, on a non-zero
exit status and on abnormal (signal) termination. The call returns as soon as
one answer of `wait` is the child or -1. -/
theorem fpart_hook_return_value (e : hook_env) (a : hook_args) (child_pid : Int)
    (envp : List String) (hclone : e.clone_ok = true)
    (henv : hook_environment e a = some envp) :
    (∀ r, fpart_hook e a child_pid = some r →
      (r.ret = 0 ↔
        (e.fork_ret ≠ -1 ∧
          wait_child e.fork_ret e.waits = some (e.fork_ret, wait_status.exited 0))) ∧
      (r.ret ≠ 0 → r.ret = 1) ∧
      (e.fork_ret = -1 → r.ret = 1) ∧
      (∀ st, wait_child e.fork_ret e.waits = some (-1, st) → r.ret = 1) ∧
      (∀ code, code ≠ 0 →
        wait_child e.fork_ret e.waits = some (e.fork_ret, wait_status.exited code) →
        r.ret = 1) ∧
      (∀ sig, wait_child e.fork_ret e.waits = some (e.fork_ret, wait_status.signaled sig) →
        r.ret = 1)) ∧
    (e.fork_ret ≠ 0 → (∃ q ∈ e.waits, q.1 = e.fork_ret ∨ q.1 = -1) →
      ∃ r, fpart_hook e a child_pid = some r) := by
  constructor
  · intro r hr
    unfold fpart_hook at hr
    simp only [hclone, not_true_eq_false, if_false, henv] at hr
    by_cases hf : e.fork_ret = -1
    · rw [if_pos hf] at hr
      simp only [Option.some.injEq] at hr
      subst hr
      refine ⟨?_, fun _ => rfl, fun _ => rfl, fun _ _ => rfl, fun _ _ _ => rfl,
        fun _ _ => rfl⟩
      simp [hf]
    · rw [if_neg hf] at hr
      by_cases h0 : e.fork_ret = 0
      · rw [if_pos h0] at hr; cases hr
      · rw [if_neg h0] at hr
        cases hw : wait_child e.fork_ret e.waits with
        | none => rw [hw] at hr; cases hr
        | some q =>
          obtain ⟨wpid, status⟩ := q
          rw [hw] at hr
          simp only at hr
          have hq := wait_child_some e.fork_ret e.waits _ hw
          simp only at hq
          by_cases hm : wpid = -1
          · rw [if_pos hm] at hr
            simp only [Option.some.injEq] at hr
            subst hr
            subst hm
            refine ⟨?_, fun _ => rfl, fun _ => rfl, fun _ _ => rfl, fun _ _ _ => rfl,
              fun _ _ => rfl⟩
            simp only [one_ne_zero, false_iff, not_and]
            intro _ h
            simp only [Option.some.injEq, Prod.mk.injEq] at h
            exact hf h.1.symm
          · rw [if_neg hm] at hr
            have hwc : wpid = e.fork_ret := by
              rcases hq with h | h
              · exact h
              · exact absurd h hm
            subst hwc
            cases status with
            | exited code =>
              simp only [Option.some.injEq] at hr
              subst hr
              by_cases hc : code = 0
              · subst hc
                refine ⟨?_, fun h => by simp at h, fun h => absurd h hf,
                  fun st h => ?_, fun code hcode h => ?_, fun sig h => ?_⟩
                · simp [hf]
                · simp only [Option.some.injEq, Prod.mk.injEq] at h
                  exact absurd h.1 hm
                · simp only [Option.some.injEq, Prod.mk.injEq, wait_status.exited.injEq,
                    true_and] at h
                  exact absurd h.symm hcode
                · simp at h
              · refine ⟨?_, fun _ => by simp [hc], fun _ => by simp [hc],
                  fun _ _ => by simp [hc], fun _ _ _ => by simp [hc],
                  fun _ _ => by simp [hc]⟩
                simp [hc]
            | signaled sig =>
              simp only [Option.some.injEq] at hr
              subst hr
              refine ⟨?_, fun _ => rfl, fun _ => rfl, fun _ _ => rfl, fun _ _ _ => rfl,
                fun _ _ => rfl⟩
              simp
  · intro h0 hw
    obtain ⟨q, hq⟩ := wait_child_ends e.fork_ret e.waits hw
    unfold fpart_hook
    simp only [hclone, not_true_eq_false, if_false, henv]
    by_cases hf : e.fork_ret = -1
    · rw [if_pos hf]; exact ⟨_, rfl⟩
    · rw [if_neg hf, if_neg h0, hq]
      obtain ⟨wpid, status⟩ := q
      simp only
      split_ifs
      · exact ⟨_, rfl⟩
      · cases status <;> exact ⟨_, rfl⟩

/-- Witness for C20: the hook is forked, another child is reaped first, and
the hook exits with status 0. -/
theorem fpart_hook_return_value_witness :
    (example_hook_env (wait_status.exited 0)).clone_ok = true ∧
    (∃ envp, hook_environment (example_hook_env (wait_status.exited 0)) example_hook_args
      = some envp) ∧
    ∃ r, fpart_hook (example_hook_env (wait_status.exited 0)) example_hook_args (-1)
      = some r :=
  ⟨rfl, ⟨_, rfl⟩,
   (fpart_hook_return_value (example_hook_env (wait_status.exited 0)) example_hook_args
      (-1) _ rfl rfl).2 (by decide) ⟨(4242, wait_status.exited 0), by decide, Or.inl rfl⟩⟩

/-- C22. For every sequence of entries fed to the live partitioner from the
initial live status and followed by one teardown, with both hooks configured
and no I/O failure, the hooks run are exactly pre(0), post(0), ..., pre(n - 1),
post(n - 1) in this order, where the partitions 0, ..., n - 1 are exactly those
that received at least one entry; and teardown runs the post-partition hook,
once, if and only if the last partition holds pending entries. -/
theorem live_hooks_once_per_partition (rn : Int → Int → Int) (o : program_options)
    (pre post : String) (calls : List live_call) (ret : Int)
    (hlive : o.live_mode = true) (hpre : o.pre_part_hook = some pre)
    (hpost : o.post_part_hook = some post) (hok : ∀ c ∈ calls, live_env_ok c.env) :
    ∃ u, uninit_file_entries o ret [] 0 none
        (live_feed rn o live_status_init calls).status = some u ∧
      hook_calls ((live_feed rn o live_status_init calls).out ++ u.out) =
        hook_schedule pre post
          (partitions_started (live_feed rn o live_status_init calls).status) ∧
      (∀ k, k ∈ (live_feed rn o live_status_init calls).indices ↔
        k < partitions_started (live_feed rn o live_status_init calls).status) ∧
      hook_calls u.out =
        (if (live_feed rn o live_status_init calls).status.partition_num_files > 0 then
          [(post, (live_feed rn o live_status_init calls).status.partition_index)]
         else []) := by
  refine ⟨_, uninit_file_entries_empty_list o ret _, ?_, ?_, ?_⟩
  · obtain ⟨h1, -, -⟩ := live_feed_hook_calls rn o pre post hpre hpost calls
      live_status_init hok
    have h0 : hooks_done pre post live_status_init = [] := rfl
    rw [h0, List.nil_append] at h1
    simp only [hook_calls_append]
    rw [h1, live_teardown_hook_calls o ret _ post hlive hpost, hooks_done_teardown]
  · intro k
    obtain ⟨-, -, h3⟩ := live_feed_hook_calls rn o pre post hpre hpost calls
      live_status_init hok
    have h3k := h3 k
    have hn : live_status_init.partition_num_files = 0 := rfl
    have hi : live_status_init.partition_index = 0 := rfl
    rw [hn, hi] at h3k
    simp only [gt_iff_lt, lt_self_iff_false, false_and, or_false, Nat.zero_le, true_and] at h3k
    exact h3k
  · exact live_teardown_hook_calls o ret _ post hlive hpost

/-- Witness for C22: three entries with at most two entries per partition;
the hooks run are pre(0), post(0), pre(1), post(1), the last one at teardown. -/
theorem live_hooks_once_per_partition_witness :
    example_options_hooks.live_mode = true ∧
    (∀ c ∈ example_calls, live_env_ok c.env) ∧
    hook_schedule "pre" "post"
        (partitions_started
          (live_feed round_num example_options_hooks live_status_init example_calls).status) =
      [("pre", 0), ("post", 0), ("pre", 1), ("post", 1)] ∧
    ∃ u, uninit_file_entries example_options_hooks 0 [] 0 none
        (live_feed round_num example_options_hooks live_status_init example_calls).status
        = some u :=
  ⟨rfl, by decide, by decide,
   (live_hooks_once_per_partition round_num example_options_hooks "pre" "post" example_calls 0
      rfl rfl rfl (by decide)).elim (fun u h => ⟨u, h.1⟩)⟩

/-- C23. The environment `fpart_hook` passes to the child, when it starts one,
is the clone of the parent's environment followed, in this order, by
FPART_HOOKTYPE=pre-part or FPART_HOOKTYPE=post-part (according to which
configured hook the command is; none when it is neither), FPART_PARTFILENAME,
FPART_PARTNUMBER, FPART_PARTSIZE and FPART_PARTNUMFILES (each present if and
only if the value is given, the numbers in decimal), and FPART_PID. -/
theorem fpart_hook_environment (e : hook_env) (a : hook_args) (child_pid : Int)
    (r : hook_result) (envp : List String)
    (hr : fpart_hook e a child_pid = some r) (hx : r.exec_env = some envp) :
    envp = e.environ ++
      (if a.cmd_is_pre = true then ["FPART_HOOKTYPE=pre-part"]
       else if a.cmd_is_post = true then ["FPART_HOOKTYPE=post-part"] else []) ++
      a.live_filename.toList.map (fun f => "FPART_PARTFILENAME=" ++ f) ++
      a.live_partition_index.toList.map (fun i => "FPART_PARTNUMBER=" ++ toString i) ++
      a.live_partition_size.toList.map (fun s => "FPART_PARTSIZE=" ++ toString s) ++
      a.live_num_files.toList.map (fun n => "FPART_PARTNUMFILES=" ++ toString n) ++
      ["FPART_PID=" ++ toString e.pid] :=
  hook_environment_some e a envp (fpart_hook_exec_env e a child_pid r envp hr hx)

/-- Witness for C23: a post-partition hook for partition 3, run from a parent
whose environment is HOME=/root. -/
theorem fpart_hook_environment_witness :
    fpart_hook (example_hook_env (wait_status.exited 0)) example_hook_args (-1) =
      some { ret := 0, child_pid := -1,
             exec_env := some ["HOME=/root", "FPART_HOOKTYPE=post-part",
               "FPART_PARTFILENAME=out.3", "FPART_PARTNUMBER=3", "FPART_PARTSIZE=30",
               "FPART_PARTNUMFILES=2", "FPART_PID=4000"] } ∧
    ["HOME=/root", "FPART_HOOKTYPE=post-part", "FPART_PARTFILENAME=out.3",
      "FPART_PARTNUMBER=3", "FPART_PARTSIZE=30", "FPART_PARTNUMFILES=2", "FPART_PID=4000"] =
      (example_hook_env (wait_status.exited 0)).environ ++
      (if example_hook_args.cmd_is_pre = true then ["FPART_HOOKTYPE=pre-part"]
       else if example_hook_args.cmd_is_post = true then ["FPART_HOOKTYPE=post-part"]
       else []) ++
      example_hook_args.live_filename.toList.map (fun f => "FPART_PARTFILENAME=" ++ f) ++
      example_hook_args.live_partition_index.toList.map
        (fun i => "FPART_PARTNUMBER=" ++ toString i) ++
      example_hook_args.live_partition_size.toList.map
        (fun s => "FPART_PARTSIZE=" ++ toString s) ++
      example_hook_args.live_num_files.toList.map
        (fun n => "FPART_PARTNUMFILES=" ++ toString n) ++
      ["FPART_PID=" ++ toString (example_hook_env (wait_status.exited 0)).pid] :=
  ⟨by decide,
   fpart_hook_environment (example_hook_env (wait_status.exited 0)) example_hook_args (-1)
     { ret := 0, child_pid := -1,
       exec_env := some ["HOME=/root", "FPART_HOOKTYPE=post-part",
         "FPART_PARTFILENAME=out.3", "FPART_PARTNUMBER=3", "FPART_PARTSIZE=30",
         "FPART_PARTNUMFILES=2", "FPART_PID=4000"] } _ (by decide) rfl⟩

/-- C25. The function `fts_dirsfirst` returns 0 for every pair in which either
entry is in a stat-error or no-stat state; otherwise it returns -1 when the
first is a directory and the second is not, 1 when the second is a directory
and the first is not, and 0 when both or neither are directories. Hence, among
siblings that all have stat information, an order in which no entry is greater
than a later one places every directory before every non-directory, and such
an order of the siblings exists. -/
theorem fts_dirsfirst_directories_first (l : List sort_entry)
    (hstat : ∀ x ∈ l, no_stat x = false) :
    (∀ a b : sort_entry, no_stat a = true ∨ no_stat b = true → fts_dirsfirst a b = 0) ∧
    (∀ a b : sort_entry, no_stat a = false → no_stat b = false →
      fts_dirsfirst a b =
        if a.is_dir = true ∧ b.is_dir = false then -1
        else if a.is_dir = false ∧ b.is_dir = true then 1 else 0) ∧
    (∀ l2 : List sort_entry, l2.Perm l → dirsfirst_sorted l2 →
      l2.Pairwise (fun a b => b.is_dir = true → a.is_dir = true)) ∧
    (∃ l2 : List sort_entry, l2.Perm l ∧ dirsfirst_sorted l2) := by
  refine ⟨fts_dirsfirst_no_stat, fts_dirsfirst_stat, ?_, ?_⟩
  · intro l2 hperm hs
    exact dirsfirst_sorted_dirs_first l2 (fun x hx => hstat x (hperm.subset hx)) hs
  · exact ⟨_, dirsfirst_sorted_exists l hstat⟩

/-- Witness for C25: four siblings with stat information, two of them
directories. -/
theorem fts_dirsfirst_directories_first_witness :
    (∀ x ∈ example_siblings, no_stat x = false) ∧
    ∃ l2 : List sort_entry, l2.Perm example_siblings ∧ dirsfirst_sorted l2 :=
  ⟨by decide, (fts_dirsfirst_directories_first example_siblings (by decide)).2.2.2⟩

/-- C28, evaluation at the failing input. For the entry a of measured size 10,
with an overload of 1 and block size 1: live mode without template prints the
line with the measured size 10 (line 443) although it adds 11 to the size of
the partition (line 437), while batch mode (`add_file_entry` followed by
`print_file_entries`) stores and prints 11. -/
theorem live_stdout_prints_measured_size :
    (live_print_file_entry round_num example_options_live_overload live_env_hooks_ok "a" 10
      live_status_init).out = [out_event.print_line 0 10 "a"] ∧
    (live_print_file_entry round_num example_options_live_overload live_env_hooks_ok "a" 10
      live_status_init).status.partition_size = 11 ∧
    print_file_entries example_options_overload print_env_ok 1
      (add_file_entry round_num example_options_overload
        { malloc_entry_ok := true, malloc_path_ok := true } none [] "a" 10).heap 1
      (add_file_entry round_num example_options_overload
        { malloc_entry_ok := true, malloc_path_ok := true } none [] "a" 10).head 1 =
      some { ret := 0, out := [print_event.line 0 11 "a"] } := by
  decide

/-- C29. Invariant of the live partitioner: starting from the initial live
status, after any sequence of successful calls of `live_print_file_entry`, if
max_entries > 0 the accumulated count is strictly less than max_entries, if
max_size > 0 the accumulated size of a partition that holds files is strictly
less than max_size, and so is the accumulated size of any partition when
moreover max_size > preload_size. Consequently the count of a partition never
exceeds max_entries when an entry is counted in, and the size of a partition
is below max_size before an entry is admitted to it. -/
theorem live_thresholds_invariant (rn : Int → Int → Int) (o : program_options)
    (calls : List live_call)
    (hrets : ∀ r ∈ (live_feed rn o live_status_init calls).rets, r = 0) :
    (o.max_entries > 0 →
      (live_feed rn o live_status_init calls).status.partition_num_files < o.max_entries) ∧
    (o.max_size > 0 →
      (live_feed rn o live_status_init calls).status.partition_num_files > 0 →
      (live_feed rn o live_status_init calls).status.partition_size < o.max_size) ∧
    (o.max_size > 0 → o.max_size > o.preload_size →
      (live_feed rn o live_status_init calls).status.partition_size < o.max_size) ∧
    (∀ c : live_call,
      (o.max_entries > 0 →
        (live_count_in rn o c.size
          (live_new_partition o c.env
            (live_feed rn o live_status_init calls).status).status).partition_num_files
          ≤ o.max_entries) ∧
      (o.max_size > 0 → o.max_size > o.preload_size →
        (live_new_partition o c.env
          (live_feed rn o live_status_init calls).status).status.partition_size
          < o.max_size)) := by
  have hinit : (o.max_entries > 0 → live_status_init.partition_num_files < o.max_entries) ∧
      (o.max_size > 0 → live_status_init.partition_num_files > 0 →
        live_status_init.partition_size < o.max_size) ∧
      (o.max_size > 0 → o.max_size > o.preload_size →
        live_status_init.partition_size < o.max_size) :=
    ⟨fun h => h, fun _ h => absurd h (by decide), fun h _ => h⟩
  obtain ⟨ha, hb, hc⟩ := live_feed_below_thresholds rn o calls live_status_init hinit hrets
  refine ⟨ha, hb, hc, ?_⟩
  intro c
  constructor
  · intro h
    have hnum : (live_count_in rn o c.size
        (live_new_partition o c.env
          (live_feed rn o live_status_init calls).status).status).partition_num_files
        = (live_feed rn o live_status_init calls).status.partition_num_files + 1 := by
      have h1 : (live_count_in rn o c.size
          (live_new_partition o c.env
            (live_feed rn o live_status_init calls).status).status).partition_num_files =
          (live_new_partition o c.env
            (live_feed rn o live_status_init calls).status).status.partition_num_files + 1 :=
        rfl
      rw [h1, live_new_partition_num_files]
    rw [hnum]
    have := ha h
    omega
  · intro h1 h2
    rw [live_new_partition_size]
    split_ifs
    · exact h2
    · exact hc h1 h2

/-- Witness for C29: the entries a and b with max_size 15; b closes the
partition, which held 10 bytes before b was admitted. -/
theorem live_thresholds_invariant_witness :
    (∀ r ∈ (live_feed round_num example_options live_status_init
        [{ env := live_env_hooks_ok, path := "a", size := 10 }]).rets, r = 0) ∧
    (live_feed round_num example_options live_status_init
        [{ env := live_env_hooks_ok, path := "a", size := 10 }]).status.partition_size = 10 ∧
    (example_options.max_size > 0 →
      (live_feed round_num example_options live_status_init
        [{ env := live_env_hooks_ok, path := "a", size := 10 }]).status.partition_num_files > 0 →
      (live_feed round_num example_options live_status_init
        [{ env := live_env_hooks_ok, path := "a", size := 10 }]).status.partition_size
        < example_options.max_size) :=
  ⟨by decide, by decide,
   (live_thresholds_invariant round_num example_options
      [{ env := live_env_hooks_ok, path := "a", size := 10 }] (by decide)).2.1⟩

/-- C30. A file or symbolic link event rejected by name filtering leaves the
whole per-directory state (empty flag, dirs-found flag, add-me flag,
accumulated size), the entry list, the live status and the entry count
unchanged, and the iteration goes on; hence a directory whose only children
are filtered-out files is still treated as empty and, under empty-directory
inclusion, is emitted with size 0. -/
theorem filtered_file_leaves_state (rn : Int → Int → Int) (o : program_options)
    (e e1 e2 : walk_env) (p d dp : FTSENT) (es : List (FTSENT × walk_env)) (s : walk_state)
    (hkind : p.fts_info = fts_info_t.FTS_F ∨ p.fts_info = fts_info_t.FTS_SL ∨
      p.fts_info = fts_info_t.FTS_SLNONE ∨ p.fts_info = fts_info_t.FTS_DEFAULT)
    (hv : p.valid_file1 = false)
    (hd : d.fts_info = fts_info_t.FTS_D) (hdv : d.valid_file0 = true)
    (hdepth : dir_depth_reached o d = false)
    (hes : ∀ q ∈ es, (q.1.fts_info = fts_info_t.FTS_F ∨ q.1.fts_info = fts_info_t.FTS_SL ∨
        q.1.fts_info = fts_info_t.FTS_SLNONE ∨ q.1.fts_info = fts_info_t.FTS_DEFAULT) ∧
      q.1.valid_file1 = false)
    (hdp : dp.fts_info = fts_info_t.FTS_DP) (hdpv : dp.valid_file1 = true)
    (hinc : o.dirs_include ≥ OPT_EMPTYDIRS) (hmalloc : e2.malloc_path_ok = true) :
    fts_step rn o e p s = { state := s, ret := none, skip := false } ∧
    (fts_loop rn o s ((d, e1) :: es)).state.curdir_empty = true ∧
    (fts_loop rn o s ((d, e1) :: es ++ [(dp, e2)])).state.prog.handled =
      s.prog.handled ++ [(curdir_entry_path o dp, 0)] := by
  refine ⟨fts_step_filtered_file rn o e p s hkind hv, ?_⟩
  have henter : fts_step rn o e1 d s =
      { state := { s with file_as_argument := false, curdir_empty := true,
                          curdir_dirsfound := false },
        ret := none, skip := false } := by
    unfold fts_step
    rw [hd]
    simp only
    unfold enter_directory
    simp only [hdv, not_true_eq_false, if_false, hdepth, Bool.false_eq_true]
  have hloop : fts_loop rn o s ((d, e1) :: es) =
      { state := { s with file_as_argument := false, curdir_empty := true,
                          curdir_dirsfound := false },
        ret := none, skip := false } := by
    rw [fts_loop]
    simp only [henter]
    exact fts_loop_filtered_files rn o es _ hes
  refine ⟨by rw [hloop], ?_⟩
  have happ := fts_loop_append rn o ((d, e1) :: es) [(dp, e2)] s (by rw [hloop])
  rw [happ, hloop]
  simp only [fts_loop]
  have hstep : fts_step rn o e2 dp
      { s with file_as_argument := false, curdir_empty := true, curdir_dirsfound := false } =
      add_directory rn o e2 dp
        { s with file_as_argument := false, curdir_empty := true, curdir_dirsfound := false } := by
    unfold fts_step
    rw [hdp]
  rw [hstep]
  have hh := add_directory_handled rn o e2 dp
    { s with file_as_argument := false, curdir_empty := true, curdir_dirsfound := false } hmalloc
  rw [if_pos ⟨hdpv, Or.inr (Or.inr (Or.inr (Or.inl ⟨hinc, rfl⟩)))⟩] at hh
  have hsize : dir_size_by_priority o dp
      { s with file_as_argument := false, curdir_empty := true, curdir_dirsfound := false }
      = 0 := by
    unfold dir_size_by_priority
    split_ifs
    · rfl
    · rfl
    · rename_i h _
      exact absurd (Or.inl rfl) h
    · rename_i h _
      exact absurd (Or.inl rfl) h
  rw [hsize] at hh
  cases hr : (add_directory rn o e2 dp
      { s with file_as_argument := false, curdir_empty := true,
               curdir_dirsfound := false }).ret <;> simp only [] <;> exact hh

/-- Witness for C30: the directory root, whose only child is rejected by name
filtering, is emitted with size 0 under empty-directory inclusion. -/
theorem filtered_file_leaves_state_witness :
    example_filtered_file.valid_file1 = false ∧
    example_options_emptydirs.dirs_include ≥ OPT_EMPTYDIRS ∧
    (fts_loop round_num example_options_emptydirs (walk_state_init 0 prog_state_init)
        ((example_root fts_info_t.FTS_D, env_ok) :: [(example_filtered_file, env_ok)] ++
          [(example_root fts_info_t.FTS_DP, env_ok)])).state.prog.handled =
      (walk_state_init 0 prog_state_init).prog.handled ++
        [(curdir_entry_path example_options_emptydirs (example_root fts_info_t.FTS_DP), 0)] :=
  ⟨rfl, by decide,
   (filtered_file_leaves_state round_num example_options_emptydirs env_ok env_ok env_ok
      example_filtered_file (example_root fts_info_t.FTS_D) (example_root fts_info_t.FTS_DP)
      [(example_filtered_file, env_ok)] (walk_state_init 0 prog_state_init)
      (Or.inl rfl) rfl rfl rfl (by decide) (by decide) rfl rfl (by decide) rfl).2.2⟩

end Fpart
